import Mathlib

/-!
# Gitfame: per-author statistics from blame and log records

A shallow embedding of `cmd/gitfame/main.go`.

* Go strings are byte strings. They are modelled by `String`, read as sequences of
  characters, and positions count characters. The string functions the program uses
  (`HasPrefix`, `TrimPrefix`, `Split` on a one-character separator, `LastIndex` of a
  one-character pattern, comparison by `<`) are written on the underlying character
  list; on valid UTF-8 text they agree with the byte versions, except that the slice
  `str[:i-1]` drops one character where Go drops one byte.
* Go maps are modelled by association lists with at most one entry per key;
  `statMap` holds pointers to separately allocated records, one per key, so
  it behaves as a map to record values. A nil slice is `none`.
* The counters are Go `int`s that grow by one per input line; they are
  modelled by `Nat`.
* A run-time error (nil dereference, index or slice bound out of range) is the
  result `none`.
* The text returned by the git commands is an input (`FileRecord`, `Git`); `sort.Slice` is
  modelled by insertion sort with the comparator of the program; the library functions
  `filepath.Match` and `strings.ToLower` are parameters of the filters that call them.
* Standard output is modelled by the sequence of the statements that write to it (`Out`),
  the end of the process by its exit status.
-/

set_option maxRecDepth 100000

namespace Gitfame

/-! ## Strings -/

/-- The function `strings.HasPrefix`. -/
def HasPrefix (s pre : String) : Bool :=
  pre.data.isPrefixOf s.data

/-- The function `strings.TrimPrefix`. -/
def TrimPrefix (s pre : String) : String :=
  if HasPrefix s pre then ⟨s.data.drop pre.data.length⟩ else s

/-- Worker of `Split`: `cur` holds the current piece, reversed. -/
def splitAux (sep : Char) : List Char → List Char → List (List Char)
  | [], cur => [cur.reverse]
  | c :: cs, cur =>
    if c = sep then cur.reverse :: splitAux sep cs [] else splitAux sep cs (c :: cur)

/-- The function `strings.Split` for a separator of one character
(the program splits on a newline, a space and a comma only). -/
def Split (s : String) (sep : Char) : List String :=
  (splitAux sep s.data []).map String.mk

/-- Worker of `LastIndex`: scans from position `i`, `last` is the answer so far. -/
def lastIndexAux (c : Char) : List Char → Nat → Int → Int
  | [], _, last => last
  | d :: ds, i, last => lastIndexAux c ds (i + 1) (if d = c then (i : Int) else last)

/-- The function `strings.LastIndex` for a pattern of one character:
the position of its last occurrence, or `-1`. -/
def LastIndex (s : String) (c : Char) : Int :=
  lastIndexAux c s.data 0 (-1)

/-- The slice expression `str[:hi]`; out of range when `hi` is negative or
exceeds the length. -/
def sliceTo (s : String) (hi : Int) : Option String :=
  if 0 ≤ hi ∧ hi ≤ (s.data.length : Int) then some ⟨s.data.take hi.toNat⟩ else none

/-- A function that lower-cases the letters `A` to `Z` and leaves every other character as
it is. It agrees with the library function `strings.ToLower` on text whose letters are
ASCII and stands in for it in examples; the definitions take the library function itself
as the parameter `ToLower`. -/
def asciiLower (s : String) : String :=
  ⟨s.data.map Char.toLower⟩

/-- Worker of `Ext`: scans the path from its end; `acc` is the suffix passed so far. -/
def extScan : List Char → List Char → List Char
  | [], _ => []
  | c :: rest, acc =>
    if c = '/' then [] else if c = '.' then c :: acc else extScan rest (c :: acc)

/-- The function `filepath.Ext`: the suffix beginning at the final dot of the
last path element, empty when there is none. -/
def Ext (path : String) : String :=
  ⟨extScan path.data.reverse []⟩

/-! ## Data model -/

/-- The record type `Statistic`. -/
structure Statistic where
  Name : String
  Lines : Nat
  Commits : Nat
  Files : Nat
  deriving DecidableEq, Repr

/-- The record type `Lang`. -/
structure Lang where
  Name : String
  Typ : String
  Extensions : List String
  deriving DecidableEq, Repr

/-! ## Maps -/

/-- Map lookup `m[k]` with the presence flag. -/
def mapGet {β : Type} : List (String × β) → String → Option β
  | [], _ => none
  | (k', v) :: rest, k => if k' = k then some v else mapGet rest k

/-- Map assignment `m[k] = v`. -/
def mapSet {β : Type} : List (String × β) → String → β → List (String × β)
  | [], k, v => [(k, v)]
  | (k', v') :: rest, k, v =>
    if k' = k then (k, v) :: rest else (k', v') :: mapSet rest k v

/-- Update through the pointer `statMap[k]`; a missing key is a nil pointer. -/
def bump (m : List (String × Statistic)) (k : String) (f : Statistic → Statistic) :
    Option (List (String × Statistic)) :=
  match mapGet m k with
  | none => none
  | some s => some (mapSet m k (f s))

/-- Insertion `set[k] = struct{}{}` into a Go set. -/
def setAdd (s : List String) (k : String) : List String :=
  if k ∈ s then s else k :: s

/-! ## Language filter -/

/-- The loop over the registry inside `goodLanguage` for one requested language;
`none` stands for the `return true` inside the loop, `some k` for reaching the end
of the loop with `knownLanguages = k`. -/
def scanRegistry (ToLower : String → String) (fileExtension language : String) :
    List Lang → Nat → Option Nat
  | [], known => some known
  | l :: rest, known =>
    if language = ToLower l.Name then
      if l.Extensions.any (fun ext => fileExtension = ext) then none
      else scanRegistry ToLower fileExtension language rest (known + 1)
    else scanRegistry ToLower fileExtension language rest known

/-- The loop over the requested languages inside `goodLanguage`. -/
def scanLanguages (ToLower : String → String) (fileExtension : String)
    (languageExtensions : List Lang) :
    List String → Nat → Option Nat
  | [], known => some known
  | language :: rest, known =>
    match scanRegistry ToLower fileExtension language languageExtensions known with
    | none => none
    | some known' => scanLanguages ToLower fileExtension languageExtensions rest known'

/-- The function `goodLanguage`; a nil slice is `none`, and the library function
`strings.ToLower` is the parameter `ToLower`. -/
def goodLanguage (ToLower : String → String) (file : String)
    (languages : Option (List String))
    (languageExtensions : List Lang) : Bool :=
  match languages with
  | none => true
  | some langs =>
    match scanLanguages ToLower (Ext file) languageExtensions langs 0 with
    | none => true
    | some known => known == 0

/-! ## Aggregation -/

/-- The three maps of `main` that live across files. -/
structure Agg where
  statMap : List (String × Statistic)
  commitSet : List String
  commitAuthor : List (String × String)
  deriving DecidableEq, Repr

/-- The variables of `main` that are local to one blame record. -/
structure FileVars where
  author : String
  authorSet : List String
  lastCommit : String
  deriving DecidableEq, Repr

/-- The raw text the two git commands return for a file. -/
structure FileRecord where
  blame : String
  log : String
  deriving DecidableEq, Repr

/-- The three maps as created before the loop over the files. -/
def Agg.init : Agg := ⟨[], [], []⟩

/-- Lookup `commitAuthor[c]`: a missing key reads as the empty string. -/
def authorOfCommit (commitAuthor : List (String × String)) (c : String) : String :=
  (mapGet commitAuthor c).getD ""

/-- The statement of lines 237-239 and 202-204: a record with the name `author` and zero
counts is stored under `author` unless the map has that key. -/
def ensureStat (statMap : List (String × Statistic)) (author : String) :
    List (String × Statistic) :=
  match mapGet statMap author with
  | some _ => statMap
  | none => mapSet statMap author ⟨author, 0, 0, 0⟩

/-- The commit block of both branches (lines 206-210 and 244-249): unless the commit is
in `commitSet`, it is added, `statMap[author].Commits` grows by one and `commitAuthor`
maps the commit to `author`. -/
def countCommit (g : Agg) (commit author : String) : Option Agg :=
  if commit ∈ g.commitSet then some g
  else
    match bump g.statMap author (fun s => { s with Commits := s.Commits + 1 }) with
    | none => none
    | some statMap =>
      some ⟨statMap, setAdd g.commitSet commit, mapSet g.commitAuthor commit author⟩

/-- The commit cursor after a line that does not start with a tab (lines 224-229). -/
def cursorAfter (line lastCommit : String) : Option String :=
  if !HasPrefix line "author" && !HasPrefix line "committer" &&
      !HasPrefix line "summary" && !HasPrefix line "boundary" &&
      !HasPrefix line "filename" && !HasPrefix line "previous" then
    (Split line ' ')[0]?
  else some lastCommit

/-- The current author after a line that does not start with a tab (lines 230-235). -/
def authorAfter (useCommitter : Bool) (line author : String) : String :=
  let author := if HasPrefix line "author " then TrimPrefix line "author " else author
  if HasPrefix line "committer " && useCommitter then TrimPrefix line "committer " else author

/-- The `filename` block (lines 237-249) for the current author and cursor. -/
def filenameUpdate (g : Agg) (v : FileVars) : Option (Agg × FileVars) :=
  let statMap := ensureStat g.statMap v.author
  if v.author ∈ v.authorSet then
    (countCommit { g with statMap := statMap } v.lastCommit v.author).map (fun g' => (g', v))
  else
    match bump statMap v.author (fun s => { s with Files := s.Files + 1 }) with
    | none => none
    | some statMap' =>
      (countCommit { g with statMap := statMap' } v.lastCommit v.author).map
        (fun g' => (g', { v with authorSet := setAdd v.authorSet v.author }))

/-- One iteration of the loop over the lines of a blame record (lines 220-252). -/
def blameLine (useCommitter : Bool) (line : String) (g : Agg) (v : FileVars) :
    Option (Agg × FileVars) :=
  if HasPrefix line "\t" then
    (bump g.statMap (authorOfCommit g.commitAuthor v.lastCommit)
      (fun s => { s with Lines := s.Lines + 1 })).map
      (fun m => ({ g with statMap := m }, v))
  else
    match cursorAfter line v.lastCommit with
    | none => none
    | some lastCommit =>
      let v' : FileVars :=
        ⟨authorAfter useCommitter line v.author, v.authorSet, lastCommit⟩
      if HasPrefix line "filename " then filenameUpdate g v' else some (g, v')

/-- The loop over the lines of a blame record. -/
def blameLoop (useCommitter : Bool) : List String → Agg → FileVars → Option (Agg × FileVars)
  | [], g, v => some (g, v)
  | line :: rest, g, v =>
    match blameLine useCommitter line g v with
    | none => none
    | some (g', v') => blameLoop useCommitter rest g' v'

/-- The variable `commit` after the first `if` of the log loop (lines 194-198). -/
def commitAfter (line commit : String) : Option String :=
  if HasPrefix line "commit " then (Split line ' ')[1]? else some commit

/-- The expression `str[:strings.LastIndex(str, "<")-1]` of line 201. -/
def logAuthor (line : String) : Option String :=
  let str := TrimPrefix line "Author: "
  sliceTo str (LastIndex str '<' - 1)

/-- The `Author: ` block of the log loop (lines 202-210). -/
def logUpdate (g : Agg) (commit author : String) : Option Agg :=
  match bump (ensureStat g.statMap author) author
      (fun s => { s with Files := s.Files + 1 }) with
  | none => none
  | some statMap => countCommit { g with statMap := statMap } commit author

/-- One iteration of the loop over the lines of a log record (lines 193-212);
the second component is the variable `commit`. -/
def logLine (line : String) (g : Agg) (commit : String) : Option (Agg × String) :=
  match commitAfter line commit with
  | none => none
  | some commit' =>
    if HasPrefix line "Author: " then
      match logAuthor line with
      | none => none
      | some author => (logUpdate g commit' author).map (fun g' => (g', commit'))
    else some (g, commit')

/-- The loop over the lines of a log record. -/
def logLoop : List String → Agg → String → Option (Agg × String)
  | [], g, commit => some (g, commit)
  | line :: rest, g, commit =>
    match logLine line g commit with
    | none => none
    | some (g', commit') => logLoop rest g' commit'

/-- The variables of a blame record before its first line (lines 217-219). -/
def FileVars.init : FileVars := ⟨"emptyAuthor", [], ""⟩

/-- The body of the loop over the files (lines 174-253), given what git returned. -/
def processFile (useCommitter : Bool) (g : Agg) (r : FileRecord) : Option Agg :=
  if r.blame.length = 0 then
    (logLoop (Split r.log '\n') g "").map Prod.fst
  else
    (blameLoop useCommitter (Split r.blame '\n') g FileVars.init).map Prod.fst

/-- The loop over the files, from a given state of the three maps. -/
def aggregateFrom (useCommitter : Bool) : Agg → List FileRecord → Option Agg
  | g, [] => some g
  | g, r :: rest =>
    match processFile useCommitter g r with
    | none => none
    | some g' => aggregateFrom useCommitter g' rest

/-- The aggregation loop of `main` (lines 171-253). -/
def aggregate (useCommitter : Bool) (files : List FileRecord) : Option Agg :=
  aggregateFrom useCommitter Agg.init files

/-- Lines counted for an author (zero without a record). -/
def linesOf (statMap : List (String × Statistic)) (a : String) : Nat :=
  match mapGet statMap a with
  | some s => s.Lines
  | none => 0

/-- Commits counted for an author (zero without a record). -/
def commitsOf (statMap : List (String × Statistic)) (a : String) : Nat :=
  match mapGet statMap a with
  | some s => s.Commits
  | none => 0

/-- Files counted for an author (zero without a record). -/
def filesOf (statMap : List (String × Statistic)) (a : String) : Nat :=
  match mapGet statMap a with
  | some s => s.Files
  | none => 0

/-! ## Ranking -/

/-- Go's `<` on strings: lexicographic comparison. -/
def strLess (a b : String) : Bool :=
  decide (a.data < b.data)

/-- The comparator of `case "lines"` (lines 262-273). -/
def lessLines (a b : Statistic) : Bool :=
  if a.Lines = b.Lines then
    if a.Commits = b.Commits then
      if a.Files = b.Files then strLess a.Name b.Name
      else decide (a.Files > b.Files)
    else decide (a.Commits > b.Commits)
  else decide (a.Lines > b.Lines)

/-- The comparator of `case "commits"` (lines 275-286). -/
def lessCommits (a b : Statistic) : Bool :=
  if a.Commits = b.Commits then
    if a.Lines = b.Lines then
      if a.Files = b.Files then strLess a.Name b.Name
      else decide (a.Files > b.Files)
    else decide (a.Lines > b.Lines)
  else decide (a.Commits > b.Commits)

/-- The comparator of `case "files"` (lines 288-299). -/
def lessFiles (a b : Statistic) : Bool :=
  if a.Files = b.Files then
    if a.Lines = b.Lines then
      if a.Commits = b.Commits then strLess a.Name b.Name
      else decide (a.Commits > b.Commits)
    else decide (a.Lines > b.Lines)
  else decide (a.Files > b.Files)

/-- Insertion of one record into a sorted slice. -/
def sortedInsert (less : Statistic → Statistic → Bool) (x : Statistic) :
    List Statistic → List Statistic
  | [] => [x]
  | y :: ys => if less x y then x :: y :: ys else y :: sortedInsert less x ys

/-- The library function `sort.Slice`, as insertion sort with the comparator it is given
(by `sorted_perm_unique` every procedure that returns a sorted permutation returns the
same slice for the three comparators of the program). -/
def sortSlice (less : Statistic → Statistic → Bool) : List Statistic → List Statistic
  | [] => []
  | x :: xs => sortedInsert less x (sortSlice less xs)

/-- The comparator that the `switch *order` of lines 260-303 hands to `sort.Slice`;
`none` is the default case. -/
def comparator (order : String) : Option (Statistic → Statistic → Bool) :=
  if order = "lines" then some lessLines
  else if order = "commits" then some lessCommits
  else if order = "files" then some lessFiles
  else none

/-- The `switch *order` of lines 260-303: the sorted slice, or `none` for the exit of
the default case. -/
def rank (order : String) (statsSlice : List Statistic) : Option (List Statistic) :=
  match comparator order with
  | some less => some (sortSlice less statsSlice)
  | none => none

/-- The slice `statsSlice` in the order of the entries of the map (Go ranges over a map
in an unspecified order: any permutation of it may reach the sort). -/
def statsSlice (statMap : List (String × Statistic)) : List Statistic :=
  statMap.map Prod.snd

/-! ## Quantities read off a record -/

/-- The variable `commit` of the log loop after a run of lines, started from `commit`. -/
def commitVar : List String → String → Option String
  | [], commit => some commit
  | line :: rest, commit =>
    match commitAfter line commit with
    | none => none
    | some commit' => commitVar rest commit'

/-- The values of the variable `author` at the `filename ` lines of a run of blame
lines, started with the given current author. -/
def filenameAuthors (useCommitter : Bool) : List String → String → List String
  | [], _ => []
  | line :: rest, author =>
    if HasPrefix line "\t" then filenameAuthors useCommitter rest author
    else if HasPrefix line "filename " then
      authorAfter useCommitter line author ::
        filenameAuthors useCommitter rest (authorAfter useCommitter line author)
    else filenameAuthors useCommitter rest (authorAfter useCommitter line author)

/-- The sort key in the words of the specification: `a` comes before `b` when it is
larger on the first count, or equal there and larger on the second, or equal on both and
larger on the third, or equal on all three with the smaller name. -/
def precedes (k1 k2 k3 : Statistic → Nat) (a b : Statistic) : Prop :=
  k1 a > k1 b ∨ (k1 a = k1 b ∧ (k2 a > k2 b ∨ (k2 a = k2 b ∧
    (k3 a > k3 b ∨ (k3 a = k3 b ∧ a.Name < b.Name)))))

/-- The sort key of the specification for a metric selector. -/
def precedesBy (order : String) (a b : Statistic) : Prop :=
  if order = "lines" then precedes Statistic.Lines Statistic.Commits Statistic.Files a b
  else if order = "commits" then precedes Statistic.Commits Statistic.Lines Statistic.Files a b
  else if order = "files" then precedes Statistic.Files Statistic.Lines Statistic.Commits a b
  else False

/-! ## Records as sequences of updates -/

/-- What one line of a record asks of the three maps. -/
inductive Event where
  /-- A content line under the commit cursor `commit`: one more line for the author the
  commit-to-author map gives for it. -/
  | credit (commit : String)
  /-- A `filename ` line of a blame record or an `Author: ` line of a log record: the
  record of `author` is created if missing, the file is counted for `author` when
  `newFile` holds, and `commit` is counted for `author` unless the commit is counted
  already. -/
  | claim (author commit : String) (newFile : Bool)
  deriving DecidableEq, Repr

/-- The updates of a run of blame lines: the loop of lines 220-252 followed on the
variables of the record only. -/
def blameEvents (useCommitter : Bool) : List String → FileVars → List Event
  | [], _ => []
  | line :: rest, v =>
    if HasPrefix line "\t" then Event.credit v.lastCommit :: blameEvents useCommitter rest v
    else
      let lastCommit := (cursorAfter line v.lastCommit).getD v.lastCommit
      let author := authorAfter useCommitter line v.author
      if HasPrefix line "filename " then
        Event.claim author lastCommit (decide (author ∉ v.authorSet)) ::
          blameEvents useCommitter rest ⟨author, setAdd v.authorSet author, lastCommit⟩
      else blameEvents useCommitter rest ⟨author, v.authorSet, lastCommit⟩

/-- The updates of a run of log lines: the loop of lines 193-212 followed on the variable
`commit` only; `none` when a line cannot be parsed. -/
def logEvents : List String → String → Option (List Event)
  | [], _ => some []
  | line :: rest, commit =>
    match commitAfter line commit with
    | none => none
    | some commit' =>
      if HasPrefix line "Author: " then
        match logAuthor line with
        | none => none
        | some author =>
          (logEvents rest commit').map (fun es => Event.claim author commit' true :: es)
      else logEvents rest commit'

/-- The updates of the record of one file. -/
def recordEvents (useCommitter : Bool) (r : FileRecord) : Option (List Event) :=
  if r.blame.length = 0 then logEvents (Split r.log '\n') ""
  else some (blameEvents useCommitter (Split r.blame '\n') FileVars.init)

/-- The effect of one update on the three maps. -/
def applyEvent (g : Agg) : Event → Option Agg
  | Event.credit commit =>
    (bump g.statMap (authorOfCommit g.commitAuthor commit)
      (fun s => { s with Lines := s.Lines + 1 })).map (fun m => { g with statMap := m })
  | Event.claim author commit newFile =>
    if newFile then
      match bump (ensureStat g.statMap author) author
          (fun s => { s with Files := s.Files + 1 }) with
      | none => none
      | some statMap => countCommit { g with statMap := statMap } commit author
    else countCommit { g with statMap := ensureStat g.statMap author } commit author

/-- The effect of a sequence of updates. -/
def applyEvents : List Event → Agg → Option Agg
  | [], g => some g
  | e :: es, g =>
    match applyEvent g e with
    | none => none
    | some g' => applyEvents es g'

/-- A sequence of updates follows the assignment `auth` of authors to commit tokens:
every claim of a commit is made for the author assigned to it, and every content line
comes after a claim of its commit (`seen` lists the commits claimed so far). -/
def attributed (auth : String → String) : List Event → List String → Bool
  | [], _ => true
  | Event.credit commit :: es, seen => decide (commit ∈ seen) && attributed auth es seen
  | Event.claim author commit _ :: es, seen =>
    decide (author = auth commit) && attributed auth es (commit :: seen)

/-- The record of a file follows the assignment `auth` of authors to commit tokens: its
log record can be parsed, every `filename ` line and every `Author: ` line names the
author assigned to the commit it is reached with, and every content line comes after a
`filename ` line of its commit in the same record. -/
def consistent (useCommitter : Bool) (auth : String → String) (r : FileRecord) : Bool :=
  match recordEvents useCommitter r with
  | none => false
  | some es => attributed auth es []

/-- The bookkeeping of the three maps with respect to an assignment of authors to commit
tokens: no commit is in the set twice, the commit-to-author map gives every counted
commit its assigned author, that author has a record, the Commits count of an author is
the number of counted commits assigned to the author, and every record carries its key
as name. -/
def AggInv (auth : String → String) (g : Agg) : Prop :=
  g.commitSet.Nodup ∧
  (∀ c ∈ g.commitSet, mapGet g.commitAuthor c = some (auth c)) ∧
  (∀ c ∈ g.commitSet, ∃ s, mapGet g.statMap (auth c) = some s) ∧
  (∀ a, commitsOf g.statMap a = g.commitSet.countP (fun c => decide (auth c = a))) ∧
  (∀ a s, mapGet g.statMap a = some s → s.Name = a)

/-- Content lines of a sequence of updates that go to the author `a`. -/
def creditsFor (auth : String → String) (a : String) : List Event → Nat
  | [] => 0
  | Event.credit commit :: es => (if auth commit = a then 1 else 0) + creditsFor auth a es
  | Event.claim _ _ _ :: es => creditsFor auth a es

/-- File counts of a sequence of updates that go to the author `a`. -/
def newFilesFor (a : String) : List Event → Nat
  | [] => 0
  | Event.credit _ :: es => newFilesFor a es
  | Event.claim author _ newFile :: es =>
    (if author = a ∧ newFile = true then 1 else 0) + newFilesFor a es

/-- The commit tokens claimed in a sequence of updates. -/
def claimedCommits : List Event → List String
  | [] => []
  | Event.credit _ :: es => claimedCommits es
  | Event.claim _ commit _ :: es => commit :: claimedCommits es

/-- The authors named by the claims of a sequence of updates. -/
def claimAuthors : List Event → List String
  | [] => []
  | Event.credit _ :: es => claimAuthors es
  | Event.claim author _ _ :: es => author :: claimAuthors es

/-- The updates of the record of one file, none when its log record cannot be parsed. -/
def eventsOf (useCommitter : Bool) (r : FileRecord) : List Event :=
  (recordEvents useCommitter r).getD []

/-- A statistics map is well keyed: no key occurs twice and every record carries its key
as name. -/
def WellKeyed (statMap : List (String × Statistic)) : Prop :=
  (statMap.map Prod.fst).Nodup ∧ ∀ p ∈ statMap, p.2.Name = p.1

/-! ## File selection -/

/-- The function `goodExtension`; a nil slice is `none`. -/
def goodExtension (file : String) (extensions : Option (List String)) : Bool :=
  match extensions with
  | none => true
  | some exts => exts.any (fun ext => Ext file = ext)

/-- The first result of the library function `filepath.Match` as the program reads it with
`match, _ := filepath.Match(pattern, file)`. The library function is a parameter `Match` of
the filters: `some b` stands for the result `(b, nil)` and `none` for the result
`(false, ErrBadPattern)` on a malformed pattern. -/
def matched (Match : String → String → Option Bool) (pattern file : String) : Bool :=
  (Match pattern file).getD false

/-- The function `forbiddenPattern`; a nil slice is `none`. -/
def forbiddenPattern (Match : String → String → Option Bool) (file : String)
    (forbiddenPatterns : Option (List String)) : Bool :=
  match forbiddenPatterns with
  | none => false
  | some patterns => patterns.any (fun pattern => matched Match pattern file)

/-- The function `goodPattern`; a nil slice is `none`. -/
def goodPattern (Match : String → String → Option Bool) (file : String)
    (allowedPatterns : Option (List String)) : Bool :=
  match allowedPatterns with
  | none => true
  | some patterns => patterns.any (fun pattern => matched Match pattern file)

/-- The loop of lines 163-169 that fills `goodFiles`. -/
def goodFiles (Match : String → String → Option Bool) (ToLower : String → String)
    (files : List String)
    (extensions languages forbiddenPatterns allowedPatterns : Option (List String))
    (languageExtensions : List Lang) : List String :=
  files.filter (fun file =>
    goodExtension file extensions && goodLanguage ToLower file languages languageExtensions &&
      !forbiddenPattern Match file forbiddenPatterns &&
      goodPattern Match file allowedPatterns)

/-- The slice built from a flag (lines 128-147): nil for the empty flag, otherwise the
flag split at the commas. -/
def flagList (flag : String) : Option (List String) :=
  if flag ≠ "" then some (Split flag ',') else none

/-- The file list of lines 161-162: the output of `git ls-tree` split into lines, without
the last piece. -/
def treeFiles (output : String) : List String :=
  (Split output '\n').dropLast

/-- A requested language name matches a registry entry in the sense of line 66. -/
def languageMatches (ToLower : String → String) (language : String) (l : Lang) : Prop :=
  language = ToLower l.Name

/-- A pattern that matches on literal equality only, for use in examples. -/
def literalMatch (pattern file : String) : Option Bool :=
  some (decide (pattern = file))

/-! ## Commit headers -/

/-- A hexadecimal digit, in either letter case. -/
def isHexDigit (c : Char) : Bool :=
  (decide ('0' ≤ c) && decide (c ≤ '9')) || (decide ('a' ≤ c) && decide (c ≤ 'f')) ||
    (decide ('A' ≤ c) && decide (c ≤ 'F'))

/-- The line starts with one of the six keywords tested in lines 225-227. -/
def startsWithKeyword (line : String) : Bool :=
  HasPrefix line "author" || HasPrefix line "committer" || HasPrefix line "summary" ||
    HasPrefix line "boundary" || HasPrefix line "filename" || HasPrefix line "previous"

/-! ## The whole run -/

/-- The flags of `main` that decide what is computed (lines 116-126); the repository and
the revision only reach git. -/
structure Flags where
  order : String
  useCommitter : Bool
  resFormat : String
  extFlag : String
  langFlag : String
  excludeFlag : String
  restrictFlag : String

/-- What the git commands return: `none` when a command fails. -/
structure Git where
  lsTree : Option String
  blame : String → Option String
  log : String → Option String

/-- What `main` writes to standard output, by the statement that writes it. -/
inductive Out where
  /-- A fixed text written with `fmt.Println`. -/
  | message (text : String)
  /-- The header `Name Lines Commits Files` of the formats `tabular` and `csv`. -/
  | header (format : String)
  /-- One author record written in the formats `tabular`, `csv` and `json-lines`. -/
  | row (format : String) (stats : Statistic)
  /-- The array of all author records written in the format `json`. -/
  | array (stats : List Statistic)
  deriving DecidableEq, Repr

/-- The end of a run: what was written to standard output and the exit status. -/
structure Outcome where
  stdout : List Out
  exit : Nat
  deriving DecidableEq, Repr

/-- The `switch *resFormat` of lines 305-345; `none` is the default case. -/
def render (resFormat : String) (statsSlice : List Statistic) : Option (List Out) :=
  if resFormat = "tabular" then
    some (Out.header "tabular" :: statsSlice.map (Out.row "tabular"))
  else if resFormat = "csv" then some (Out.header "csv" :: statsSlice.map (Out.row "csv"))
  else if resFormat = "json" then some [Out.array statsSlice]
  else if resFormat = "json-lines" then some (statsSlice.map (Out.row "json-lines"))
  else none

/-- The two git queries for one file (lines 176-190): `none` when a command that is run
fails; the log is asked for only when the blame output is empty. -/
def fetch (git : Git) (file : String) : Option FileRecord :=
  match git.blame file with
  | none => none
  | some blame =>
    if blame.length = 0 then
      match git.log file with
      | none => none
      | some log => some ⟨blame, log⟩
    else some ⟨blame, ""⟩

/-- The loop over `goodFiles` (lines 174-253) with its exits: status 7 when a git command
fails, status 2 (the status of a Go program that stops on a run-time error) when the
processing of a record fails. -/
def aggregateRun (useCommitter : Bool) (git : Git) : Agg → List String → Except Nat Agg
  | g, [] => Except.ok g
  | g, file :: rest =>
    match fetch git file with
    | none => Except.error 7
    | some r =>
      match processFile useCommitter g r with
      | none => Except.error 2
      | some g' => aggregateRun useCommitter git g' rest

/-- The function `main`, given the registry that was loaded (empty after a failed load)
and what git returns. The slice is filled in the order of the map entries; by `rank_perm`
the order does not reach the output. -/
def run (Match : String → String → Option Bool) (ToLower : String → String) (flags : Flags)
    (languageExtensions : List Lang) (git : Git) : Outcome :=
  match git.lsTree with
  | none => ⟨[Out.message "Error in ls-tree"], 1⟩
  | some output =>
    let good := goodFiles Match ToLower (treeFiles output) (flagList flags.extFlag)
      (flagList flags.langFlag) (flagList flags.excludeFlag) (flagList flags.restrictFlag)
      languageExtensions
    match aggregateRun flags.useCommitter git Agg.init good with
    | Except.error status => ⟨[], status⟩
    | Except.ok g =>
      match rank flags.order (statsSlice g.statMap) with
      | none => ⟨[Out.message "Incorrect option!"], 1⟩
      | some ranked =>
        match render flags.resFormat ranked with
        | none => ⟨[Out.message "Invalid format option"], 1⟩
        | some out => ⟨out, 0⟩

/-! ## Bookkeeping of the counted commits -/

/-- The sum of the Commits counts of all records of the statistics map. -/
def commitsTotal (statMap : List (String × Statistic)) : Nat :=
  ((statsSlice statMap).map Statistic.Commits).sum

/-- The three maps agree on the counted commits: the Commits counts add up to the number
of counted commits, no commit is in the set twice, the commit-to-author map is defined
exactly on the set, every author it gives has a record, the statistics map is well keyed,
and the Commits count of an author is the number of counted commits that the
commit-to-author map gives to the author. -/
def Credited (g : Agg) : Prop :=
  commitsTotal g.statMap = g.commitSet.length ∧
  g.commitSet.Nodup ∧
  (∀ c, (∃ a, mapGet g.commitAuthor c = some a) ↔ c ∈ g.commitSet) ∧
  (∀ c a, mapGet g.commitAuthor c = some a → ∃ s, mapGet g.statMap a = some s) ∧
  WellKeyed g.statMap ∧
  (∀ a, commitsOf g.statMap a =
    g.commitSet.countP (fun c => decide (authorOfCommit g.commitAuthor c = a)))

/-- Every content line of a sequence of updates comes after a `filename ` line with the
same commit cursor (`seen` lists the cursors of the `filename ` lines so far). -/
def covered : List Event → List String → Bool
  | [], _ => true
  | Event.credit commit :: es, seen => decide (commit ∈ seen) && covered es seen
  | Event.claim _ commit _ :: es, seen => covered es (commit :: seen)

/-! ## Sample records -/

/-- Porcelain blame of a file `a.txt` with three lines, all of commit `3f2a9c1e` by Alice. -/
def blameAlice : String :=
  "3f2a9c1e 1 1 3\nauthor Alice\nauthor-mail <alice@example.com>\nauthor-time 1700000000\nauthor-tz +0000\ncommitter Carol\ncommitter-mail <carol@example.com>\ncommitter-time 1700000100\ncommitter-tz +0000\nsummary add a.txt\nfilename a.txt\n\tone\n3f2a9c1e 2 2\n\ttwo\n3f2a9c1e 3 3\n\tthree\n"

/-- File A of the scenario: three lines by Alice in one commit. -/
def fileAlice : FileRecord := ⟨blameAlice, ""⟩

/-- File B of the scenario: an empty file whose latest commit `7b1d4e88` is by Bob. -/
def fileBob : FileRecord :=
  ⟨"", "commit 7b1d4e88\nAuthor: Bob <bob@example.com>\nDate:   Mon Jan 1 00:00:00 2024 +0000\n\n    add empty file\n"⟩

/-- An empty file added by the commit `3f2a9c1e` of `blameAlice`. -/
def fileEmptyAlice : FileRecord :=
  ⟨"", "commit 3f2a9c1e\nAuthor: Alice <alice@example.com>\nDate:   Tue Nov 14 22:13:20 2023 +0000\n\n    add a.txt\n"⟩

/-- The log record of the same empty file when `git log` prints the name the commit was
made under because the mailmap, which `git blame` applies, is switched off for it. -/
def fileEmptyUnmapped : FileRecord :=
  ⟨"", "commit 3f2a9c1e\nAuthor: alice <alice@example.com>\nDate:   Tue Nov 14 22:13:20 2023 +0000\n\n    add a.txt\n"⟩

/-- The lines of `blameAlice` before its `filename` line. -/
def blameAliceHead : List String :=
  ["3f2a9c1e 1 1 3", "author Alice", "author-mail <alice@example.com>",
   "author-time 1700000000", "author-tz +0000", "committer Carol",
   "committer-mail <carol@example.com>", "committer-time 1700000100",
   "committer-tz +0000", "summary add a.txt"]

/-- The lines of `blameAlice` after its `filename` line. -/
def blameAliceTail : List String :=
  ["\tone", "3f2a9c1e 2 2", "\ttwo", "3f2a9c1e 3 3", "\tthree", ""]

/-- Porcelain blame of a file whose first and third line come from Alice's commit
`3f2a9c1e` and whose second line comes from Bob's commit `7b1d4e88`; git prints the
author of a commit only with its first group of lines. The last content line is left out. -/
def blameMixedHead : List String :=
  ["3f2a9c1e 1 1 1", "author Alice", "author-mail <alice@example.com>",
   "author-time 1700000000", "author-tz +0000", "committer Alice",
   "committer-mail <alice@example.com>", "committer-time 1700000000",
   "committer-tz +0000", "summary add m.txt", "filename m.txt", "\tone",
   "7b1d4e88 2 2 1", "author Bob", "author-mail <bob@example.com>",
   "author-time 1700000500", "author-tz +0000", "committer Bob",
   "committer-mail <bob@example.com>", "committer-time 1700000500",
   "committer-tz +0000", "summary edit m.txt", "previous 3f2a9c1e m.txt",
   "filename m.txt", "\ttwo", "3f2a9c1e 2 3 1"]

/-- The maps after `blameMixedHead`. -/
def aggMixed : Agg :=
  ⟨[("Alice", ⟨"Alice", 1, 1, 1⟩), ("Bob", ⟨"Bob", 1, 1, 1⟩)],
   ["7b1d4e88", "3f2a9c1e"],
   [("3f2a9c1e", "Alice"), ("7b1d4e88", "Bob")]⟩

/-- The variables of the record after `blameMixedHead`. -/
def varsMixed : FileVars := ⟨"Bob", ["Bob", "Alice"], "3f2a9c1e"⟩

/-- Porcelain blame of a file with one line of Alice's commit `3f2a9c1e` and one line of
Bob's commit `7b1d4e88`. -/
def fileTwoAuthors : FileRecord :=
  ⟨"3f2a9c1e 1 1 1\nauthor Alice\nauthor-mail <alice@example.com>\nsummary add m.txt\nfilename m.txt\n\tone\n7b1d4e88 2 2 1\nauthor Bob\nauthor-mail <bob@example.com>\nsummary edit m.txt\nprevious 3f2a9c1e m.txt\nfilename m.txt\n\ttwo\n", ""⟩

/-- The authors of the commits of the sample records. -/
def sampleAuthors (commit : String) : String :=
  if commit = "3f2a9c1e" then "Alice" else "Bob"

/-- A repository with the file `a.txt` of `blameAlice` and the empty file `b.txt` of
`fileBob`. -/
def sampleGit : Git where
  lsTree := some "a.txt\nb.txt\n"
  blame := fun file =>
    if file = "a.txt" then some blameAlice else if file = "b.txt" then some "" else none
  log := fun file => if file = "b.txt" then some fileBob.log else none

/-! ## Lemmas on strings -/

theorem hasPrefix_iff (s pre : String) :
    HasPrefix s pre = true ↔ ∃ t, s.data = pre.data ++ t := by
  unfold HasPrefix
  rw [List.isPrefixOf_iff_prefix]
  constructor
  · rintro ⟨t, ht⟩; exact ⟨t, ht.symm⟩
  · rintro ⟨t, ht⟩; exact ⟨t, ht.symm⟩

/-- A line starting with `filename ` is no content line, starts with the keyword
`filename`, and is neither an `author ` nor a `committer ` line. -/
theorem filename_facts (line : String) (h : HasPrefix line "filename " = true) :
    HasPrefix line "\t" = false ∧ HasPrefix line "filename" = true ∧
    HasPrefix line "author " = false ∧ HasPrefix line "committer " = false := by
  obtain ⟨t, ht⟩ := (hasPrefix_iff _ _).1 h
  unfold HasPrefix
  rw [ht]
  exact ⟨rfl, rfl, rfl, rfl⟩

theorem splitAux_ne_nil (sep : Char) (cs cur : List Char) : splitAux sep cs cur ≠ [] := by
  induction cs generalizing cur with
  | nil => simp [splitAux]
  | cons c cs ih =>
    unfold splitAux
    split
    · simp
    · exact ih _

/-- A line starting with `commit ` has a second space-separated token. -/
theorem commit_line_token (line : String) (h : HasPrefix line "commit " = true) :
    ∃ t, (Split line ' ')[1]? = some t := by
  obtain ⟨t, ht⟩ := (hasPrefix_iff _ _).1 h
  have h1 : splitAux ' ' line.data [] = "commit".data :: splitAux ' ' t [] := by
    rw [ht]; rfl
  unfold Split
  rw [h1]
  cases h2 : splitAux ' ' t [] with
  | nil => exact absurd h2 (splitAux_ne_nil _ _ _)
  | cons x xs => exact ⟨String.mk x, by simp⟩

/-- The first space-separated token of a line exists. -/
theorem first_token (line : String) : ∃ t, (Split line ' ')[0]? = some t := by
  unfold Split
  cases h2 : splitAux ' ' line.data [] with
  | nil => exact absurd h2 (splitAux_ne_nil _ _ _)
  | cons x xs => exact ⟨String.mk x, by simp⟩

theorem cursorAfter_isSome (line lastCommit : String) :
    ∃ c, cursorAfter line lastCommit = some c := by
  unfold cursorAfter
  split
  · exact first_token line
  · exact ⟨_, rfl⟩

/-! ## Lemmas on maps -/

theorem mapGet_mapSet_self {β : Type} (m : List (String × β)) (k : String) (v : β) :
    mapGet (mapSet m k v) k = some v := by
  induction m with
  | nil => simp [mapSet, mapGet]
  | cons p rest ih =>
    obtain ⟨k', v'⟩ := p
    by_cases h : k' = k
    · simp [mapSet, mapGet, h]
    · simp [mapSet, mapGet, h, ih]

theorem mapGet_mapSet_of_ne {β : Type} (m : List (String × β)) (k k2 : String) (v : β)
    (hne : k2 ≠ k) : mapGet (mapSet m k v) k2 = mapGet m k2 := by
  induction m with
  | nil => simp [mapSet, mapGet, Ne.symm hne]
  | cons p rest ih =>
    obtain ⟨k', v'⟩ := p
    by_cases h : k' = k
    · subst h
      simp [mapSet, mapGet, Ne.symm hne]
    · by_cases h2 : k' = k2
      · subst h2
        simp [mapSet, mapGet, h]
      · simp [mapSet, mapGet, h, h2, ih]

theorem mapGet_bump_self (m m' : List (String × Statistic)) (k : String)
    (f : Statistic → Statistic) (h : bump m k f = some m') :
    ∃ s, mapGet m k = some s ∧ mapGet m' k = some (f s) := by
  unfold bump at h
  cases hs : mapGet m k with
  | none => simp [hs] at h
  | some s =>
    simp [hs] at h
    subst h
    exact ⟨s, rfl, mapGet_mapSet_self _ _ _⟩

theorem mapGet_bump_of_ne (m m' : List (String × Statistic)) (k k2 : String)
    (f : Statistic → Statistic) (h : bump m k f = some m') (hne : k2 ≠ k) :
    mapGet m' k2 = mapGet m k2 := by
  unfold bump at h
  cases hs : mapGet m k with
  | none => simp [hs] at h
  | some s =>
    simp [hs] at h
    subst h
    exact mapGet_mapSet_of_ne _ _ _ _ hne

theorem bump_of_get (m : List (String × Statistic)) (k : String) (f : Statistic → Statistic)
    (s : Statistic) (h : mapGet m k = some s) : bump m k f = some (mapSet m k (f s)) := by
  simp [bump, h]

theorem mapGet_ensureStat_self (m : List (String × Statistic)) (a : String) :
    mapGet (ensureStat m a) a = some ((mapGet m a).getD ⟨a, 0, 0, 0⟩) := by
  unfold ensureStat
  cases h : mapGet m a with
  | none => simp [mapGet_mapSet_self]
  | some s => simp [h]

theorem mapGet_ensureStat_of_ne (m : List (String × Statistic)) (a b : String) (hne : b ≠ a) :
    mapGet (ensureStat m a) b = mapGet m b := by
  unfold ensureStat
  cases h : mapGet m a with
  | none => simp [mapGet_mapSet_of_ne _ _ _ _ hne]
  | some s => simp

theorem mem_setAdd (s : List String) (k x : String) : x ∈ setAdd s k ↔ x = k ∨ x ∈ s := by
  unfold setAdd
  split
  · constructor
    · intro h; exact Or.inr h
    · rintro (h | h)
      · subst h; assumption
      · exact h
  · simp

/-! ## The update blocks -/

theorem countCommit_spec (g : Agg) (c a : String) (s : Statistic)
    (h : mapGet g.statMap a = some s) :
    ∃ g', countCommit g c a = some g' ∧
      mapGet g'.statMap a =
        some ⟨s.Name, s.Lines, s.Commits + (if c ∈ g.commitSet then 0 else 1), s.Files⟩ ∧
      (∀ b, b ≠ a → mapGet g'.statMap b = mapGet g.statMap b) ∧
      g'.commitSet = setAdd g.commitSet c ∧
      g'.commitAuthor = (if c ∈ g.commitSet then g.commitAuthor
        else mapSet g.commitAuthor c a) := by
  unfold countCommit
  by_cases hc : c ∈ g.commitSet
  · refine ⟨g, by simp [hc], by simp [hc, h], fun _ _ => rfl, by simp [setAdd, hc], by simp [hc]⟩
  · simp only [hc, if_false, bump_of_get _ _ _ _ h]
    exact ⟨_, rfl, by simp [mapGet_mapSet_self], fun b hb => mapGet_mapSet_of_ne _ _ _ _ hb,
      rfl, rfl⟩

/-- What the `filename` block does, in all four cases of its two tests. -/
theorem filenameUpdate_spec (g : Agg) (v : FileVars) :
    ∃ g', filenameUpdate g v =
        some (g', ⟨v.author, setAdd v.authorSet v.author, v.lastCommit⟩) ∧
      mapGet g'.statMap v.author =
        some ⟨((mapGet g.statMap v.author).getD ⟨v.author, 0, 0, 0⟩).Name,
          ((mapGet g.statMap v.author).getD ⟨v.author, 0, 0, 0⟩).Lines,
          ((mapGet g.statMap v.author).getD ⟨v.author, 0, 0, 0⟩).Commits +
            (if v.lastCommit ∈ g.commitSet then 0 else 1),
          ((mapGet g.statMap v.author).getD ⟨v.author, 0, 0, 0⟩).Files +
            (if v.author ∈ v.authorSet then 0 else 1)⟩ ∧
      (∀ b, b ≠ v.author → mapGet g'.statMap b = mapGet g.statMap b) ∧
      g'.commitSet = setAdd g.commitSet v.lastCommit ∧
      g'.commitAuthor = (if v.lastCommit ∈ g.commitSet then g.commitAuthor
        else mapSet g.commitAuthor v.lastCommit v.author) := by
  have h0 := mapGet_ensureStat_self g.statMap v.author
  generalize (mapGet g.statMap v.author).getD ⟨v.author, 0, 0, 0⟩ = s0 at h0 ⊢
  unfold filenameUpdate
  by_cases ha : v.author ∈ v.authorSet
  · obtain ⟨g', h1, h2, h3, h4, h5⟩ :=
      countCommit_spec { g with statMap := ensureStat g.statMap v.author } v.lastCommit
        v.author s0 h0
    refine ⟨g', ?_, ?_, ?_, h4, h5⟩
    · have hv : setAdd v.authorSet v.author = v.authorSet := by simp [setAdd, ha]
      simp only [ha, if_true, h1, Option.map_some', hv]
    · simpa [ha] using h2
    · intro b hb
      rw [h3 b hb]
      exact mapGet_ensureStat_of_ne _ _ _ hb
  · simp only [ha, if_false, bump_of_get _ _ _ _ h0]
    obtain ⟨g', h1, h2, h3, h4, h5⟩ :=
      countCommit_spec
        ⟨mapSet (ensureStat g.statMap v.author) v.author
            ⟨s0.Name, s0.Lines, s0.Commits, s0.Files + 1⟩, g.commitSet, g.commitAuthor⟩
        v.lastCommit v.author ⟨s0.Name, s0.Lines, s0.Commits, s0.Files + 1⟩
        (mapGet_mapSet_self _ _ _)
    refine ⟨g', ?_, ?_, ?_, h4, h5⟩
    · simp only [h1, Option.map_some']
    · simpa using h2
    · intro b hb
      rw [h3 b hb]
      show mapGet (mapSet (ensureStat g.statMap v.author) v.author _) b = _
      rw [mapGet_mapSet_of_ne _ _ _ _ hb]
      exact mapGet_ensureStat_of_ne _ _ _ hb

/-- What the `Author: ` block of the log fallback does. -/
theorem logUpdate_spec (g : Agg) (c a : String) :
    ∃ g', logUpdate g c a = some g' ∧
      mapGet g'.statMap a =
        some ⟨((mapGet g.statMap a).getD ⟨a, 0, 0, 0⟩).Name,
          ((mapGet g.statMap a).getD ⟨a, 0, 0, 0⟩).Lines,
          ((mapGet g.statMap a).getD ⟨a, 0, 0, 0⟩).Commits +
            (if c ∈ g.commitSet then 0 else 1),
          ((mapGet g.statMap a).getD ⟨a, 0, 0, 0⟩).Files + 1⟩ ∧
      (∀ b, b ≠ a → mapGet g'.statMap b = mapGet g.statMap b) ∧
      g'.commitSet = setAdd g.commitSet c ∧
      g'.commitAuthor = (if c ∈ g.commitSet then g.commitAuthor
        else mapSet g.commitAuthor c a) := by
  have h0 := mapGet_ensureStat_self g.statMap a
  generalize (mapGet g.statMap a).getD ⟨a, 0, 0, 0⟩ = s0 at h0 ⊢
  unfold logUpdate
  simp only [bump_of_get _ _ _ _ h0]
  obtain ⟨g', h1, h2, h3, h4, h5⟩ :=
    countCommit_spec
      ⟨mapSet (ensureStat g.statMap a) a ⟨s0.Name, s0.Lines, s0.Commits, s0.Files + 1⟩,
        g.commitSet, g.commitAuthor⟩
      c a ⟨s0.Name, s0.Lines, s0.Commits, s0.Files + 1⟩ (mapGet_mapSet_self _ _ _)
  refine ⟨g', h1, ?_, ?_, h4, h5⟩
  · simpa using h2
  · intro b hb
    rw [h3 b hb]
    show mapGet (mapSet (ensureStat g.statMap a) a _) b = _
    rw [mapGet_mapSet_of_ne _ _ _ _ hb]
    exact mapGet_ensureStat_of_ne _ _ _ hb

/-- A line starting with `filename ` runs the `filename` block with the cursor and the
author unchanged. -/
theorem blameLine_filename (useCommitter : Bool) (line : String) (g : Agg) (v : FileVars)
    (h : HasPrefix line "filename " = true) :
    blameLine useCommitter line g v = filenameUpdate g v := by
  obtain ⟨h1, h2, h3, h4⟩ := filename_facts line h
  unfold blameLine cursorAfter authorAfter
  simp [h, h1, h2, h3, h4]

/-- A content line is credited through the commit-to-author map. -/
theorem blameLine_content (useCommitter : Bool) (line : String) (g : Agg) (v : FileVars)
    (h : HasPrefix line "\t" = true) :
    blameLine useCommitter line g v =
      (bump g.statMap (authorOfCommit g.commitAuthor v.lastCommit)
        (fun s => { s with Lines := s.Lines + 1 })).map
        (fun m => ({ g with statMap := m }, v)) := by
  unfold blameLine
  simp [h]

theorem blameLoop_append (useCommitter : Bool) (xs ys : List String) (g : Agg)
    (v : FileVars) :
    blameLoop useCommitter (xs ++ ys) g v =
      (blameLoop useCommitter xs g v).bind (fun p => blameLoop useCommitter ys p.1 p.2) := by
  induction xs generalizing g v with
  | nil => simp [blameLoop]
  | cons x xs ih =>
    simp only [List.cons_append, blameLoop]
    cases blameLine useCommitter x g v with
    | none => simp
    | some p => simp [ih]

theorem logLoop_append (xs ys : List String) (g : Agg) (c : String) :
    logLoop (xs ++ ys) g c =
      (logLoop xs g c).bind (fun p => logLoop ys p.1 p.2) := by
  induction xs generalizing g c with
  | nil => simp [logLoop]
  | cons x xs ih =>
    simp only [List.cons_append, logLoop]
    cases logLine x g c with
    | none => simp
    | some p => simp [ih]

/-- An `Author: ` line does not start with `commit `. -/
theorem author_line_not_commit (line : String) (h : HasPrefix line "Author: " = true) :
    HasPrefix line "commit " = false := by
  obtain ⟨t, ht⟩ := (hasPrefix_iff _ _).1 h
  unfold HasPrefix
  rw [ht]
  rfl

/-- An `Author: ` line runs the `Author: ` block with the variable `commit` unchanged. -/
theorem logLine_author (line : String) (g : Agg) (c a : String)
    (h : HasPrefix line "Author: " = true) (ha : logAuthor line = some a) :
    logLine line g c = (logUpdate g c a).map (fun g' => (g', c)) := by
  unfold logLine commitAfter
  simp [author_line_not_commit line h, h, ha]

theorem processFile_empty_blame (useCommitter : Bool) (g : Agg) (r : FileRecord)
    (h : r.blame = "") :
    processFile useCommitter g r = (logLoop (Split r.log '\n') g "").map Prod.fst := by
  unfold processFile
  rw [h]
  rfl

/-! ## Monotonicity of the counted-commit set -/

theorem countCommit_mono (g g' : Agg) (c a x : String) (h : countCommit g c a = some g')
    (hx : x ∈ g.commitSet) : x ∈ g'.commitSet := by
  unfold countCommit at h
  split at h
  · cases h; exact hx
  · cases hb : bump g.statMap a (fun s => { s with Commits := s.Commits + 1 }) with
    | none => simp [hb] at h
    | some m =>
      simp [hb] at h
      subst h
      exact (mem_setAdd _ _ _).2 (Or.inr hx)

theorem filenameUpdate_mono (g g' : Agg) (v v' : FileVars) (x : String)
    (h : filenameUpdate g v = some (g', v')) (hx : x ∈ g.commitSet) : x ∈ g'.commitSet := by
  obtain ⟨g2, h1, _, _, h4, _⟩ := filenameUpdate_spec g v
  rw [h1] at h
  cases h
  rw [h4]
  exact (mem_setAdd _ _ _).2 (Or.inr hx)

/-- The three kinds of lines of a blame record. -/
theorem blameLine_cases (useCommitter : Bool) (line : String) (g g' : Agg) (v v' : FileVars)
    (h : blameLine useCommitter line g v = some (g', v')) :
    (HasPrefix line "\t" = true ∧ v' = v ∧ g'.commitSet = g.commitSet ∧
      g'.commitAuthor = g.commitAuthor ∧
      bump g.statMap (authorOfCommit g.commitAuthor v.lastCommit)
        (fun s => { s with Lines := s.Lines + 1 }) = some g'.statMap) ∨
    (HasPrefix line "\t" = false ∧ HasPrefix line "filename " = true ∧
      filenameUpdate g v = some (g', v')) ∨
    (HasPrefix line "\t" = false ∧ HasPrefix line "filename " = false ∧ g' = g ∧
      v'.authorSet = v.authorSet ∧ cursorAfter line v.lastCommit = some v'.lastCommit ∧
      v'.author = authorAfter useCommitter line v.author) := by
  by_cases ht : HasPrefix line "\t" = true
  · left
    rw [blameLine_content _ _ _ _ ht] at h
    cases hb : bump g.statMap (authorOfCommit g.commitAuthor v.lastCommit)
        (fun s => { s with Lines := s.Lines + 1 }) with
    | none => simp [hb] at h
    | some m =>
      simp [hb] at h
      obtain ⟨h1, h2⟩ := h
      subst h1 h2
      exact ⟨ht, rfl, rfl, rfl, rfl⟩
  · right
    have ht' : HasPrefix line "\t" = false := by simpa using ht
    by_cases hf : HasPrefix line "filename " = true
    · left
      rw [blameLine_filename _ _ _ _ hf] at h
      exact ⟨ht', hf, h⟩
    · right
      have hf' : HasPrefix line "filename " = false := by simpa using hf
      unfold blameLine at h
      simp only [ht', hf'] at h
      cases hc : cursorAfter line v.lastCommit with
      | none => simp [hc] at h
      | some c =>
        simp [hc] at h
        obtain ⟨h1, h2⟩ := h
        subst h1 h2
        exact ⟨ht', hf', rfl, rfl, rfl, rfl⟩

theorem blameLine_mono (useCommitter : Bool) (line : String) (g g' : Agg) (v v' : FileVars)
    (x : String) (h : blameLine useCommitter line g v = some (g', v'))
    (hx : x ∈ g.commitSet) : x ∈ g'.commitSet := by
  rcases blameLine_cases _ _ _ _ _ _ h with ⟨_, _, h3, _⟩ | ⟨_, _, h3⟩ | ⟨_, _, h3, _⟩
  · rw [h3]; exact hx
  · exact filenameUpdate_mono _ _ _ _ _ h3 hx
  · rw [h3]; exact hx

theorem blameLoop_mono (useCommitter : Bool) (lines : List String) (g g' : Agg)
    (v v' : FileVars) (x : String) (h : blameLoop useCommitter lines g v = some (g', v'))
    (hx : x ∈ g.commitSet) : x ∈ g'.commitSet := by
  induction lines generalizing g v with
  | nil =>
    simp [blameLoop] at h
    rw [← h.1]; exact hx
  | cons line rest ih =>
    unfold blameLoop at h
    cases hl : blameLine useCommitter line g v with
    | none => simp [hl] at h
    | some p =>
      obtain ⟨g1, v1⟩ := p
      simp only [hl] at h
      exact ih g1 v1 h (blameLine_mono _ _ _ _ _ _ _ hl hx)

theorem logLine_mono (line : String) (g g' : Agg) (c c' x : String)
    (h : logLine line g c = some (g', c')) (hx : x ∈ g.commitSet) : x ∈ g'.commitSet := by
  unfold logLine at h
  cases hc : commitAfter line c with
  | none => simp [hc] at h
  | some c1 =>
    simp only [hc] at h
    split at h
    · cases ha : logAuthor line with
      | none => simp [ha] at h
      | some a =>
        simp only [ha] at h
        obtain ⟨g2, h1, _, _, h4, _⟩ := logUpdate_spec g c1 a
        rw [h1] at h
        simp at h
        rw [← h.1, h4]
        exact (mem_setAdd _ _ _).2 (Or.inr hx)
    · simp at h
      rw [← h.1]; exact hx

theorem logLoop_mono (lines : List String) (g g' : Agg) (c c' x : String)
    (h : logLoop lines g c = some (g', c')) (hx : x ∈ g.commitSet) : x ∈ g'.commitSet := by
  induction lines generalizing g c with
  | nil =>
    simp [logLoop] at h
    rw [← h.1]; exact hx
  | cons line rest ih =>
    unfold logLoop at h
    cases hl : logLine line g c with
    | none => simp [hl] at h
    | some p =>
      obtain ⟨g1, c1⟩ := p
      simp only [hl] at h
      exact ih g1 c1 h (logLine_mono _ _ _ _ _ _ hl hx)

theorem processFile_mono (useCommitter : Bool) (g g' : Agg) (r : FileRecord) (x : String)
    (h : processFile useCommitter g r = some g') (hx : x ∈ g.commitSet) :
    x ∈ g'.commitSet := by
  unfold processFile at h
  split at h
  · cases hl : logLoop (Split r.log '\n') g "" with
    | none => simp [hl] at h
    | some p =>
      obtain ⟨g1, c1⟩ := p
      simp [hl] at h
      subst h
      exact logLoop_mono _ _ _ _ _ _ hl hx
  · cases hl : blameLoop useCommitter (Split r.blame '\n') g FileVars.init with
    | none => simp [hl] at h
    | some p =>
      obtain ⟨g1, v1⟩ := p
      simp [hl] at h
      subst h
      exact blameLoop_mono _ _ _ _ _ _ _ hl hx

theorem aggregateFrom_mono (useCommitter : Bool) (files : List FileRecord) (g g' : Agg)
    (x : String) (h : aggregateFrom useCommitter g files = some g')
    (hx : x ∈ g.commitSet) : x ∈ g'.commitSet := by
  induction files generalizing g with
  | nil =>
    simp [aggregateFrom] at h
    rw [← h]; exact hx
  | cons r rest ih =>
    unfold aggregateFrom at h
    cases hp : processFile useCommitter g r with
    | none => simp [hp] at h
    | some g1 =>
      simp only [hp] at h
      exact ih g1 h (processFile_mono _ _ _ _ _ hp hx)

/-! ## Commit deduplication (C1) -/

theorem commitsOf_of_get (m : List (String × Statistic)) (a : String) (s : Statistic)
    (h : mapGet m a = some s) : commitsOf m a = s.Commits := by
  simp [commitsOf, h]

theorem commitsOf_getD (m : List (String × Statistic)) (a : String) :
    ((mapGet m a).getD ⟨a, 0, 0, 0⟩).Commits = commitsOf m a := by
  unfold commitsOf
  cases mapGet m a <;> rfl

theorem filesOf_getD (m : List (String × Statistic)) (a : String) :
    ((mapGet m a).getD ⟨a, 0, 0, 0⟩).Files = filesOf m a := by
  unfold filesOf
  cases mapGet m a <;> rfl

theorem linesOf_getD (m : List (String × Statistic)) (a : String) :
    ((mapGet m a).getD ⟨a, 0, 0, 0⟩).Lines = linesOf m a := by
  unfold linesOf
  cases mapGet m a <;> rfl

/-- C1, the claim as written fails: the empty file of commit `3f2a9c1e` is processed
first and its log fallback counts the commit for Alice; at the `filename` line of
`blameAlice`, the first `filename` line of the run with cursor `3f2a9c1e` and current
author Alice, her Commits count stays at 1 instead of growing by 1. -/
theorem first_filename_line_adds_no_commit :
    fileEmptyAlice.blame = "" ∧
    Split blameAlice '\n' = blameAliceHead ++ "filename a.txt" :: blameAliceTail ∧
    blameAliceHead.all (fun l => !HasPrefix l "filename ") = true ∧
    (aggregate false [fileEmptyAlice]).bind (fun g =>
      (blameLoop false blameAliceHead g FileVars.init).bind (fun p =>
        (blameLine false "filename a.txt" p.1 p.2).map (fun q =>
          (p.2.author, p.2.lastCommit, commitsOf p.1.statMap "Alice",
            commitsOf q.1.statMap "Alice")))) =
      some ("Alice", "3f2a9c1e", 1, 1) := by
  decide

/-- The loop over a list of lines with a line singled out passes through the states before
and after that line. -/
theorem blameLoop_split (useCommitter : Bool) (pre : List String) (line : String)
    (post : List String) (g g2 : Agg) (v v2 : FileVars)
    (h : blameLoop useCommitter (pre ++ line :: post) g v = some (g2, v2)) :
    ∃ g4 v4 g5 v5, blameLoop useCommitter pre g v = some (g4, v4) ∧
      blameLine useCommitter line g4 v4 = some (g5, v5) ∧
      blameLoop useCommitter post g5 v5 = some (g2, v2) := by
  rw [blameLoop_append] at h
  cases hpre : blameLoop useCommitter pre g v with
  | none => simp [hpre] at h
  | some p =>
    obtain ⟨g4, v4⟩ := p
    simp only [hpre, Option.some_bind, blameLoop] at h
    cases hl : blameLine useCommitter line g4 v4 with
    | none => simp [hl] at h
    | some q =>
      obtain ⟨g5, v5⟩ := q
      simp only [hl] at h
      exact ⟨g4, v4, g5, v5, rfl, hl, h⟩

theorem logLoop_split (pre : List String) (line : String) (post : List String)
    (g g2 : Agg) (c c2 : String)
    (h : logLoop (pre ++ line :: post) g c = some (g2, c2)) :
    ∃ g4 c4 g5 c5, logLoop pre g c = some (g4, c4) ∧ logLine line g4 c4 = some (g5, c5) ∧
      logLoop post g5 c5 = some (g2, c2) := by
  rw [logLoop_append] at h
  cases hpre : logLoop pre g c with
  | none => simp [hpre] at h
  | some p =>
    obtain ⟨g4, c4⟩ := p
    simp only [hpre, Option.some_bind, logLoop] at h
    cases hl : logLine line g4 c4 with
    | none => simp [hl] at h
    | some q =>
      obtain ⟨g5, c5⟩ := q
      simp only [hl] at h
      exact ⟨g4, c4, g5, c5, rfl, hl, h⟩

theorem aggregateFrom_split (useCommitter : Bool) (files : List FileRecord) (r : FileRecord)
    (more : List FileRecord) (g gEnd : Agg)
    (h : aggregateFrom useCommitter g (files ++ r :: more) = some gEnd) :
    ∃ g3 g6, aggregateFrom useCommitter g files = some g3 ∧
      processFile useCommitter g3 r = some g6 ∧
      aggregateFrom useCommitter g6 more = some gEnd := by
  induction files generalizing g with
  | nil =>
    simp only [List.nil_append, aggregateFrom] at h
    cases hp : processFile useCommitter g r with
    | none => simp [hp] at h
    | some g6 =>
      simp only [hp] at h
      exact ⟨g, g6, rfl, hp, h⟩
  | cons f rest ih =>
    simp only [List.cons_append, aggregateFrom] at h
    cases hp : processFile useCommitter g f with
    | none => simp [hp] at h
    | some g1 =>
      simp only [hp] at h
      obtain ⟨g3, g6, h1, h2, h3⟩ := ih g1 h
      exact ⟨g3, g6, by simp [aggregateFrom, hp, h1], h2, h3⟩

/-- A `filename ` line whose commit cursor is a counted commit changes no Commits count. -/
theorem filename_line_counted (useCommitter : Bool) (line : String) (g g' : Agg)
    (v v' : FileVars) (hline : HasPrefix line "filename " = true)
    (h : blameLine useCommitter line g v = some (g', v'))
    (hc : v.lastCommit ∈ g.commitSet) (b : String) :
    commitsOf g'.statMap b = commitsOf g.statMap b := by
  obtain ⟨g2, h1, h2, h3, _, _⟩ := filenameUpdate_spec g v
  rw [blameLine_filename _ _ _ _ hline, h1] at h
  simp only [Option.some.injEq, Prod.mk.injEq] at h
  obtain ⟨hg, _⟩ := h
  subst hg
  by_cases hb : b = v.author
  · subst hb
    rw [commitsOf_of_get _ _ _ h2, commitsOf_getD]
    simp [hc]
  · simp only [commitsOf, h3 b hb]

/-- An `Author: ` line of a log record reached with a counted commit changes no Commits
count. -/
theorem author_line_counted (line : String) (g g' : Agg) (c c' : String)
    (hline : HasPrefix line "Author: " = true) (h : logLine line g c = some (g', c'))
    (hc : c ∈ g.commitSet) (b : String) :
    c' = c ∧ commitsOf g'.statMap b = commitsOf g.statMap b := by
  cases ha : logAuthor line with
  | none => simp [logLine, commitAfter, author_line_not_commit line hline, hline, ha] at h
  | some a =>
    obtain ⟨g2, h1, h2, h3, _, _⟩ := logUpdate_spec g c a
    rw [logLine_author line g c a hline ha, h1] at h
    simp only [Option.map_some', Option.some.injEq, Prod.mk.injEq] at h
    obtain ⟨hg, hcc⟩ := h
    subst hg
    refine ⟨hcc.symm, ?_⟩
    by_cases hb : b = a
    · subst hb
      rw [commitsOf_of_get _ _ _ h2, commitsOf_getD]
      simp [hc]
    · simp only [commitsOf, h3 b hb]

/-- C1, amended: at a `filename` line with commit cursor `C` and current author `A` the
line is processed without error and leaves cursor and author as they are; the Commits
count of `A` grows by exactly 1 when `C` is not yet in the counted-commit set and by 0
when it is; the Commits count of every other author is unchanged; afterwards `C` is in
the set and stays there through the rest of the record and through all later files. So
every later `filename` line reached with cursor `C`, in the rest of the record or in the
blame record of any later file of the run, is reached with `C` in the set and changes the
Commits count of no author, and the same holds for every `Author: ` line that a later log
fallback reaches with the commit `C`, however many files refer to `C`. -/
theorem filename_line_commit_count (useCommitter : Bool) (line : String) (g : Agg)
    (v : FileVars) (hline : HasPrefix line "filename " = true) :
    ∃ g' v', blameLine useCommitter line g v = some (g', v') ∧
      v'.author = v.author ∧ v'.lastCommit = v.lastCommit ∧
      commitsOf g'.statMap v.author =
        commitsOf g.statMap v.author + (if v.lastCommit ∈ g.commitSet then 0 else 1) ∧
      (∀ b, b ≠ v.author → commitsOf g'.statMap b = commitsOf g.statMap b) ∧
      v.lastCommit ∈ g'.commitSet ∧
      (∀ rest g2 v2 files g3, blameLoop useCommitter rest g' v' = some (g2, v2) →
        aggregateFrom useCommitter g2 files = some g3 →
        v.lastCommit ∈ g2.commitSet ∧ v.lastCommit ∈ g3.commitSet) ∧
      (∀ pre later post g2 v2, HasPrefix later "filename " = true →
        blameLoop useCommitter (pre ++ later :: post) g' v' = some (g2, v2) →
        ∃ g4 v4 g5 v5, blameLoop useCommitter pre g' v' = some (g4, v4) ∧
          blameLine useCommitter later g4 v4 = some (g5, v5) ∧
          blameLoop useCommitter post g5 v5 = some (g2, v2) ∧
          v.lastCommit ∈ g4.commitSet ∧
          (v4.lastCommit = v.lastCommit →
            ∀ b, commitsOf g5.statMap b = commitsOf g4.statMap b)) ∧
      (∀ rest g2 v2 files r more gEnd pre later post,
        blameLoop useCommitter rest g' v' = some (g2, v2) →
        aggregateFrom useCommitter g2 (files ++ r :: more) = some gEnd →
        r.blame.length ≠ 0 → Split r.blame '\n' = pre ++ later :: post →
        HasPrefix later "filename " = true →
        ∃ g3 g4 v4 g5 v5 g6 v6, aggregateFrom useCommitter g2 files = some g3 ∧
          blameLoop useCommitter pre g3 FileVars.init = some (g4, v4) ∧
          blameLine useCommitter later g4 v4 = some (g5, v5) ∧
          blameLoop useCommitter post g5 v5 = some (g6, v6) ∧
          processFile useCommitter g3 r = some g6 ∧
          aggregateFrom useCommitter g6 more = some gEnd ∧
          v.lastCommit ∈ g4.commitSet ∧
          (v4.lastCommit = v.lastCommit →
            ∀ b, commitsOf g5.statMap b = commitsOf g4.statMap b)) ∧
      (∀ rest g2 v2 files r more gEnd pre later post,
        blameLoop useCommitter rest g' v' = some (g2, v2) →
        aggregateFrom useCommitter g2 (files ++ r :: more) = some gEnd →
        r.blame = "" → Split r.log '\n' = pre ++ later :: post →
        HasPrefix later "Author: " = true →
        ∃ g3 g4 c4 g5 c5 g6 c6, aggregateFrom useCommitter g2 files = some g3 ∧
          logLoop pre g3 "" = some (g4, c4) ∧
          logLine later g4 c4 = some (g5, c5) ∧
          logLoop post g5 c5 = some (g6, c6) ∧
          processFile useCommitter g3 r = some g6 ∧
          aggregateFrom useCommitter g6 more = some gEnd ∧
          v.lastCommit ∈ g4.commitSet ∧
          (c4 = v.lastCommit →
            ∀ b, commitsOf g5.statMap b = commitsOf g4.statMap b)) := by
  obtain ⟨g', h1, h2, h3, h4, _⟩ := filenameUpdate_spec g v
  have hmem : v.lastCommit ∈ g'.commitSet := by
    rw [h4]; exact (mem_setAdd _ _ _).2 (Or.inl rfl)
  refine ⟨g', ⟨v.author, setAdd v.authorSet v.author, v.lastCommit⟩, ?_, rfl, rfl, ?_, ?_,
    hmem, ?_, ?_, ?_, ?_⟩
  · rw [blameLine_filename _ _ _ _ hline]; exact h1
  · rw [commitsOf_of_get _ _ _ h2, commitsOf_getD]
  · intro b hb
    unfold commitsOf
    rw [h3 b hb]
  · intro rest g2 v2 files g3 hl hf
    have h5 := blameLoop_mono _ _ _ _ _ _ _ hl hmem
    exact ⟨h5, aggregateFrom_mono _ _ _ _ _ hf h5⟩
  · intro pre later post g2 v2 hlater hl
    obtain ⟨g4, v4, g5, v5, e1, e2, e3⟩ := blameLoop_split _ _ _ _ _ _ _ _ hl
    have hm4 := blameLoop_mono _ _ _ _ _ _ _ e1 hmem
    refine ⟨g4, v4, g5, v5, e1, e2, e3, hm4, ?_⟩
    intro hcur b
    exact filename_line_counted _ _ _ _ _ _ hlater e2 (hcur ▸ hm4) b
  · intro rest g2 v2 files r more gEnd pre later post hl hagg hne hsplit hlater
    obtain ⟨g3, g6, a1, a2, a3⟩ := aggregateFrom_split _ _ _ _ _ _ hagg
    have hm3 := aggregateFrom_mono _ _ _ _ _ a1 (blameLoop_mono _ _ _ _ _ _ _ hl hmem)
    have hp := a2
    unfold processFile at hp
    simp only [hne, if_false, hsplit] at hp
    cases hloop : blameLoop useCommitter (pre ++ later :: post) g3 FileVars.init with
    | none => simp [hloop] at hp
    | some q =>
      obtain ⟨g6', v6⟩ := q
      simp only [hloop, Option.map_some', Option.some.injEq] at hp
      subst hp
      obtain ⟨g4, v4, g5, v5, e1, e2, e3⟩ := blameLoop_split _ _ _ _ _ _ _ _ hloop
      have hm4 := blameLoop_mono _ _ _ _ _ _ _ e1 hm3
      refine ⟨g3, g4, v4, g5, v5, g6', v6, a1, e1, e2, e3, a2, a3, hm4, ?_⟩
      intro hcur b
      exact filename_line_counted _ _ _ _ _ _ hlater e2 (hcur ▸ hm4) b
  · intro rest g2 v2 files r more gEnd pre later post hl hagg hblame hsplit hlater
    obtain ⟨g3, g6, a1, a2, a3⟩ := aggregateFrom_split _ _ _ _ _ _ hagg
    have hm3 := aggregateFrom_mono _ _ _ _ _ a1 (blameLoop_mono _ _ _ _ _ _ _ hl hmem)
    have hp := a2
    rw [processFile_empty_blame _ _ _ hblame, hsplit] at hp
    cases hloop : logLoop (pre ++ later :: post) g3 "" with
    | none => simp [hloop] at hp
    | some q =>
      obtain ⟨g6', c6⟩ := q
      simp only [hloop, Option.map_some', Option.some.injEq] at hp
      subst hp
      obtain ⟨g4, c4, g5, c5, e1, e2, e3⟩ := logLoop_split _ _ _ _ _ _ _ hloop
      have hm4 := logLoop_mono _ _ _ _ _ _ e1 hm3
      refine ⟨g3, g4, c4, g5, c5, g6', c6, a1, e1, e2, e3, a2, a3, hm4, ?_⟩
      intro hcur b
      exact (author_line_counted _ _ _ _ _ hlater e2 (hcur ▸ hm4) b).2

/-- C1, amended, at the `filename` line of `blameAlice` before any commit is counted;
processing the file twice and then an empty file last touched by the same commit leaves
the Commits count of Alice at 1. -/
theorem filename_line_commit_count_witness :
    HasPrefix "filename a.txt" "filename " = true ∧
    (∃ g' v', blameLine false "filename a.txt" Agg.init ⟨"Alice", [], "3f2a9c1e"⟩ =
        some (g', v') ∧
      v'.author = "Alice" ∧ v'.lastCommit = "3f2a9c1e" ∧
      commitsOf g'.statMap "Alice" =
        commitsOf Agg.init.statMap "Alice" +
          (if "3f2a9c1e" ∈ Agg.init.commitSet then 0 else 1) ∧
      (∀ b, b ≠ "Alice" → commitsOf g'.statMap b = commitsOf Agg.init.statMap b) ∧
      "3f2a9c1e" ∈ g'.commitSet ∧
      (∀ rest g2 v2 files g3, blameLoop false rest g' v' = some (g2, v2) →
        aggregateFrom false g2 files = some g3 →
        "3f2a9c1e" ∈ g2.commitSet ∧ "3f2a9c1e" ∈ g3.commitSet) ∧
      (∀ pre later post g2 v2, HasPrefix later "filename " = true →
        blameLoop false (pre ++ later :: post) g' v' = some (g2, v2) →
        ∃ g4 v4 g5 v5, blameLoop false pre g' v' = some (g4, v4) ∧
          blameLine false later g4 v4 = some (g5, v5) ∧
          blameLoop false post g5 v5 = some (g2, v2) ∧
          "3f2a9c1e" ∈ g4.commitSet ∧
          (v4.lastCommit = "3f2a9c1e" →
            ∀ b, commitsOf g5.statMap b = commitsOf g4.statMap b)) ∧
      (∀ rest g2 v2 files r more gEnd pre later post,
        blameLoop false rest g' v' = some (g2, v2) →
        aggregateFrom false g2 (files ++ r :: more) = some gEnd →
        r.blame.length ≠ 0 → Split r.blame '\n' = pre ++ later :: post →
        HasPrefix later "filename " = true →
        ∃ g3 g4 v4 g5 v5 g6 v6, aggregateFrom false g2 files = some g3 ∧
          blameLoop false pre g3 FileVars.init = some (g4, v4) ∧
          blameLine false later g4 v4 = some (g5, v5) ∧
          blameLoop false post g5 v5 = some (g6, v6) ∧
          processFile false g3 r = some g6 ∧
          aggregateFrom false g6 more = some gEnd ∧
          "3f2a9c1e" ∈ g4.commitSet ∧
          (v4.lastCommit = "3f2a9c1e" →
            ∀ b, commitsOf g5.statMap b = commitsOf g4.statMap b)) ∧
      (∀ rest g2 v2 files r more gEnd pre later post,
        blameLoop false rest g' v' = some (g2, v2) →
        aggregateFrom false g2 (files ++ r :: more) = some gEnd →
        r.blame = "" → Split r.log '\n' = pre ++ later :: post →
        HasPrefix later "Author: " = true →
        ∃ g3 g4 c4 g5 c5 g6 c6, aggregateFrom false g2 files = some g3 ∧
          logLoop pre g3 "" = some (g4, c4) ∧
          logLine later g4 c4 = some (g5, c5) ∧
          logLoop post g5 c5 = some (g6, c6) ∧
          processFile false g3 r = some g6 ∧
          aggregateFrom false g6 more = some gEnd ∧
          "3f2a9c1e" ∈ g4.commitSet ∧
          (c4 = "3f2a9c1e" →
            ∀ b, commitsOf g5.statMap b = commitsOf g4.statMap b))) ∧
    (aggregate false [fileAlice, fileAlice, fileEmptyAlice]).map
      (fun g => commitsOf g.statMap "Alice") = some 1 :=
  ⟨by decide, filename_line_commit_count false "filename a.txt" Agg.init
    ⟨"Alice", [], "3f2a9c1e"⟩ (by decide), by decide⟩

/-! ## Content lines (C2) -/

/-- C2, the claim as written fails: after `blameMixedHead` the most recent `author `
line is `author Bob` and the current author is Bob, yet the next content line, which
belongs to Alice's commit `3f2a9c1e`, raises the Lines count of Alice from 1 to 2 and
leaves Bob's at 1. -/
theorem content_line_not_for_current_author :
    blameLoop false blameMixedHead Agg.init FileVars.init = some (aggMixed, varsMixed) ∧
    varsMixed.author = "Bob" ∧
    HasPrefix "\tthree" "\t" = true ∧
    (linesOf aggMixed.statMap "Alice", linesOf aggMixed.statMap "Bob") = (1, 1) ∧
    (blameLine false "\tthree" aggMixed varsMixed).map
      (fun q => (linesOf q.1.statMap "Alice", linesOf q.1.statMap "Bob")) = some (2, 1) := by
  decide

/-- C2, amended: a content line (a line beginning with a tab) adds exactly 1 to the
Lines count of the author that the commit-to-author map records for the current commit
cursor, that is the author credited when that commit was first counted, provided this
author has a record; the other fields of that record, the records of all other authors,
the counted-commit set, the commit-to-author map and the variables of the record are
unchanged. -/
theorem content_line_lines_count (useCommitter : Bool) (line : String) (g : Agg)
    (v : FileVars) (s : Statistic) (hline : HasPrefix line "\t" = true)
    (hrec : mapGet g.statMap (authorOfCommit g.commitAuthor v.lastCommit) = some s) :
    ∃ g', blameLine useCommitter line g v = some (g', v) ∧
      linesOf g'.statMap (authorOfCommit g.commitAuthor v.lastCommit) =
        linesOf g.statMap (authorOfCommit g.commitAuthor v.lastCommit) + 1 ∧
      mapGet g'.statMap (authorOfCommit g.commitAuthor v.lastCommit) =
        some ⟨s.Name, s.Lines + 1, s.Commits, s.Files⟩ ∧
      (∀ b, b ≠ authorOfCommit g.commitAuthor v.lastCommit →
        mapGet g'.statMap b = mapGet g.statMap b) ∧
      (∀ b, b ≠ authorOfCommit g.commitAuthor v.lastCommit →
        linesOf g'.statMap b = linesOf g.statMap b) ∧
      g'.commitSet = g.commitSet ∧ g'.commitAuthor = g.commitAuthor := by
  rw [blameLine_content _ _ _ _ hline, bump_of_get _ _ _ _ hrec]
  refine ⟨_, rfl, ?_, mapGet_mapSet_self _ _ _, ?_, ?_, rfl, rfl⟩
  · simp [linesOf, mapGet_mapSet_self, hrec]
  · intro b hb
    exact mapGet_mapSet_of_ne _ _ _ _ hb
  · intro b hb
    simp only [linesOf]
    rw [mapGet_mapSet_of_ne _ _ _ _ hb]

/-- C2, amended, at the last content line of the mixed record. -/
theorem content_line_lines_count_witness :
    HasPrefix "\tthree" "\t" = true ∧
    mapGet aggMixed.statMap (authorOfCommit aggMixed.commitAuthor varsMixed.lastCommit) =
      some ⟨"Alice", 1, 1, 1⟩ ∧
    ∃ g', blameLine false "\tthree" aggMixed varsMixed = some (g', varsMixed) ∧
      linesOf g'.statMap (authorOfCommit aggMixed.commitAuthor varsMixed.lastCommit) =
        linesOf aggMixed.statMap
          (authorOfCommit aggMixed.commitAuthor varsMixed.lastCommit) + 1 ∧
      mapGet g'.statMap (authorOfCommit aggMixed.commitAuthor varsMixed.lastCommit) =
        some ⟨"Alice", 1 + 1, 1, 1⟩ ∧
      (∀ b, b ≠ authorOfCommit aggMixed.commitAuthor varsMixed.lastCommit →
        mapGet g'.statMap b = mapGet aggMixed.statMap b) ∧
      (∀ b, b ≠ authorOfCommit aggMixed.commitAuthor varsMixed.lastCommit →
        linesOf g'.statMap b = linesOf aggMixed.statMap b) ∧
      g'.commitSet = aggMixed.commitSet ∧ g'.commitAuthor = aggMixed.commitAuthor :=
  ⟨by decide, by decide,
    content_line_lines_count false "\tthree" aggMixed varsMixed ⟨"Alice", 1, 1, 1⟩
      (by decide) (by decide)⟩

/-! ## Log fallback (C5) -/

theorem commitAfter_isSome (line commit : String) :
    ∃ c, commitAfter line commit = some c := by
  unfold commitAfter
  split
  · rename_i h
    exact commit_line_token line h
  · exact ⟨_, rfl⟩

/-- Lines without the prefix `Author: ` leave the three maps alone. -/
theorem logLoop_no_author (ls : List String) (g : Agg) (c : String)
    (h : ∀ l ∈ ls, HasPrefix l "Author: " = false) :
    logLoop ls g c = (commitVar ls c).map (fun c' => (g, c')) := by
  induction ls generalizing c with
  | nil => simp [logLoop, commitVar]
  | cons l ls ih =>
    have hl : HasPrefix l "Author: " = false := h l (List.mem_cons_self _ _)
    have hr : ∀ l' ∈ ls, HasPrefix l' "Author: " = false :=
      fun l' hl' => h l' (List.mem_cons_of_mem _ hl')
    simp only [logLoop, commitVar, logLine, hl]
    cases commitAfter l c with
    | none => simp
    | some c1 => simp [ih c1 hr]

theorem commitVar_isSome (ls : List String) (c : String) : ∃ c', commitVar ls c = some c' := by
  induction ls generalizing c with
  | nil => exact ⟨c, rfl⟩
  | cons l ls ih =>
    obtain ⟨c1, h1⟩ := commitAfter_isSome l c
    obtain ⟨c2, h2⟩ := ih c1
    exact ⟨c2, by simp [commitVar, h1, h2]⟩

/-- C5: for a file whose blame output is empty and whose log record has one line
starting with `Author: `, naming `author`, reached with the commit token `commit`, the
log fallback succeeds, raises the Files count of `author` by exactly 1, raises the
Commits count of `author` by 1 if `commit` is not yet in the counted-commit set and by
0 otherwise, leaves the Lines count of every author unchanged and leaves the record of
every other author unchanged. -/
theorem log_fallback_frame (useCommitter : Bool) (g : Agg) (r : FileRecord)
    (pre post : List String) (line commit author : String)
    (hblame : r.blame = "")
    (hsplit : Split r.log '\n' = pre ++ line :: post)
    (hpre : ∀ l ∈ pre, HasPrefix l "Author: " = false)
    (hpost : ∀ l ∈ post, HasPrefix l "Author: " = false)
    (hline : HasPrefix line "Author: " = true)
    (hcommit : commitVar pre "" = some commit)
    (hauthor : logAuthor line = some author) :
    ∃ g', processFile useCommitter g r = some g' ∧
      filesOf g'.statMap author = filesOf g.statMap author + 1 ∧
      commitsOf g'.statMap author =
        commitsOf g.statMap author + (if commit ∈ g.commitSet then 0 else 1) ∧
      (∀ a, linesOf g'.statMap a = linesOf g.statMap a) ∧
      (∀ b, b ≠ author → mapGet g'.statMap b = mapGet g.statMap b) := by
  obtain ⟨g', h1, h2, h3, _, _⟩ := logUpdate_spec g commit author
  obtain ⟨c2, hc2⟩ := commitVar_isSome post commit
  refine ⟨g', ?_, ?_, ?_, ?_, h3⟩
  · rw [processFile_empty_blame _ _ _ hblame, hsplit, logLoop_append,
      logLoop_no_author pre g "" hpre, hcommit]
    simp only [Option.map_some', Option.some_bind, logLoop,
      logLine_author line g commit author hline hauthor, h1]
    rw [logLoop_no_author post g' commit hpost, hc2]
    rfl
  · simp only [filesOf, h2, filesOf_getD]
  · simp only [commitsOf, h2, commitsOf_getD]
  · intro a
    by_cases ha : a = author
    · subst ha
      simp only [linesOf, h2, linesOf_getD]
    · simp only [linesOf, h3 a ha]

/-- C5 at the log record of `fileBob`, after `fileAlice` has been processed. -/
theorem log_fallback_frame_witness :
    fileBob.blame = "" ∧
    Split fileBob.log '\n' = ["commit 7b1d4e88"] ++ "Author: Bob <bob@example.com>" ::
      ["Date:   Mon Jan 1 00:00:00 2024 +0000", "", "    add empty file", ""] ∧
    (∀ l ∈ ["commit 7b1d4e88"], HasPrefix l "Author: " = false) ∧
    (∀ l ∈ ["Date:   Mon Jan 1 00:00:00 2024 +0000", "", "    add empty file", ""],
      HasPrefix l "Author: " = false) ∧
    HasPrefix "Author: Bob <bob@example.com>" "Author: " = true ∧
    commitVar ["commit 7b1d4e88"] "" = some "7b1d4e88" ∧
    logAuthor "Author: Bob <bob@example.com>" = some "Bob" ∧
    ∃ g', processFile false aggMixed fileBob = some g' ∧
      filesOf g'.statMap "Bob" = filesOf aggMixed.statMap "Bob" + 1 ∧
      commitsOf g'.statMap "Bob" =
        commitsOf aggMixed.statMap "Bob" +
          (if "7b1d4e88" ∈ aggMixed.commitSet then 0 else 1) ∧
      (∀ a, linesOf g'.statMap a = linesOf aggMixed.statMap a) ∧
      (∀ b, b ≠ "Bob" → mapGet g'.statMap b = mapGet aggMixed.statMap b) :=
  ⟨by decide, by decide, by decide, by decide, by decide, by decide, by decide,
    log_fallback_frame false aggMixed fileBob ["commit 7b1d4e88"]
      ["Date:   Mon Jan 1 00:00:00 2024 +0000", "", "    add empty file", ""]
      "Author: Bob <bob@example.com>" "7b1d4e88" "Bob"
      (by decide) (by decide) (by decide) (by decide) (by decide) (by decide) (by decide)⟩

/-! ## File deduplication per author (C6) -/

theorem authorAfter_filename (useCommitter : Bool) (line author : String)
    (h : HasPrefix line "filename " = true) : authorAfter useCommitter line author = author := by
  obtain ⟨_, _, h3, h4⟩ := filename_facts line h
  simp [authorAfter, h3, h4]

theorem filesOf_bump_lines (m m' : List (String × Statistic)) (k a : String)
    (h : bump m k (fun s => { s with Lines := s.Lines + 1 }) = some m') :
    filesOf m' a = filesOf m a := by
  by_cases hk : a = k
  · subst hk
    obtain ⟨s, h1, h2⟩ := mapGet_bump_self _ _ _ _ h
    simp [filesOf, h1, h2]
  · simp [filesOf, mapGet_bump_of_ne _ _ _ _ _ h hk]

/-- The loop over the lines of a blame record raises the Files count of exactly the
authors that are current at a `filename ` line and were not yet in `authorSet`. -/
theorem blameLoop_files (useCommitter : Bool) (lines : List String) (g g' : Agg)
    (v v' : FileVars) (a : String)
    (h : blameLoop useCommitter lines g v = some (g', v')) :
    filesOf g'.statMap a = filesOf g.statMap a +
      (if a ∉ v.authorSet ∧ a ∈ filenameAuthors useCommitter lines v.author
        then 1 else 0) := by
  induction lines generalizing g v with
  | nil =>
    simp [blameLoop] at h
    simp [filenameAuthors, h.1]
  | cons line rest ih =>
    unfold blameLoop at h
    cases hl : blameLine useCommitter line g v with
    | none => simp [hl] at h
    | some p =>
      obtain ⟨g1, v1⟩ := p
      simp only [hl] at h
      have ih1 := ih g1 v1 h
      rcases blameLine_cases _ _ _ _ _ _ hl with
        ⟨ht, hv, _, _, hb⟩ | ⟨ht, hf, hu⟩ | ⟨ht, hf, hg, hs, _, hauth⟩
      · subst hv
        rw [ih1, filesOf_bump_lines _ _ _ a hb]
        simp [filenameAuthors, ht]
      · obtain ⟨g2, h1, h2, h3, _, _⟩ := filenameUpdate_spec g v
        rw [h1] at hu
        simp only [Option.some.injEq, Prod.mk.injEq] at hu
        obtain ⟨hg, hv⟩ := hu
        subst hg hv
        rw [ih1]
        simp only [filenameAuthors, ht, hf, authorAfter_filename _ _ _ hf, mem_setAdd,
          List.mem_cons, Bool.false_eq_true, if_false, if_true]
        by_cases ha : a = v.author
        · subst ha
          simp only [filesOf, h2, filesOf_getD]
          by_cases hm : v.author ∈ v.authorSet <;> simp [hm, filesOf]
        · simp only [filesOf, h3 a ha]
          simp [ha]
      · subst hg
        rw [ih1, hs, hauth]
        simp [filenameAuthors, ht, hf]

/-- C6: processing the non-empty blame record of one file raises the Files count of
an author by exactly 1 if the author is the current author at one or more `filename `
lines of the record, and by 0 otherwise, whatever the number of commits and of
`filename ` lines of that author in the record; so two different authors of the file
are raised by 1 each. -/
theorem blame_record_files_count (useCommitter : Bool) (g g' : Agg) (r : FileRecord)
    (hne : r.blame.length ≠ 0) (h : processFile useCommitter g r = some g') :
    (∀ a, filesOf g'.statMap a = filesOf g.statMap a +
      (if a ∈ filenameAuthors useCommitter (Split r.blame '\n') "emptyAuthor"
        then 1 else 0)) ∧
    (∀ a b, a ≠ b →
      a ∈ filenameAuthors useCommitter (Split r.blame '\n') "emptyAuthor" →
      b ∈ filenameAuthors useCommitter (Split r.blame '\n') "emptyAuthor" →
      filesOf g'.statMap a = filesOf g.statMap a + 1 ∧
      filesOf g'.statMap b = filesOf g.statMap b + 1) := by
  have key : ∀ a, filesOf g'.statMap a = filesOf g.statMap a +
      (if a ∈ filenameAuthors useCommitter (Split r.blame '\n') "emptyAuthor"
        then 1 else 0) := by
    intro a
    unfold processFile at h
    simp only [hne, if_false] at h
    cases hl : blameLoop useCommitter (Split r.blame '\n') g FileVars.init with
    | none => simp [hl] at h
    | some p =>
      obtain ⟨g1, v1⟩ := p
      simp [hl] at h
      subst h
      have := blameLoop_files _ _ _ _ _ _ a hl
      simpa [FileVars.init] using this
  refine ⟨key, ?_⟩
  intro a b _ ha hb
  have h1 := key a
  have h2 := key b
  simp only [ha, hb, if_true] at h1 h2
  exact ⟨h1, h2⟩

/-- C6 at a file with a line of Alice and a line of Bob, after a record in which both
already have one file. -/
theorem blame_record_files_count_witness :
    fileTwoAuthors.blame.length ≠ 0 ∧
    processFile false aggMixed fileTwoAuthors =
      some ⟨[("Alice", ⟨"Alice", 2, 1, 2⟩), ("Bob", ⟨"Bob", 2, 1, 2⟩)],
        ["7b1d4e88", "3f2a9c1e"], [("3f2a9c1e", "Alice"), ("7b1d4e88", "Bob")]⟩ ∧
    ((∀ a, filesOf [("Alice", ⟨"Alice", 2, 1, 2⟩), ("Bob", ⟨"Bob", 2, 1, 2⟩)] a =
      filesOf aggMixed.statMap a +
      (if a ∈ filenameAuthors false (Split fileTwoAuthors.blame '\n') "emptyAuthor"
        then 1 else 0)) ∧
    (∀ a b, a ≠ b →
      a ∈ filenameAuthors false (Split fileTwoAuthors.blame '\n') "emptyAuthor" →
      b ∈ filenameAuthors false (Split fileTwoAuthors.blame '\n') "emptyAuthor" →
      filesOf [("Alice", ⟨"Alice", 2, 1, 2⟩), ("Bob", ⟨"Bob", 2, 1, 2⟩)] a =
        filesOf aggMixed.statMap a + 1 ∧
      filesOf [("Alice", ⟨"Alice", 2, 1, 2⟩), ("Bob", ⟨"Bob", 2, 1, 2⟩)] b =
        filesOf aggMixed.statMap b + 1)) :=
  ⟨by decide, by decide,
    blame_record_files_count false aggMixed
      ⟨[("Alice", ⟨"Alice", 2, 1, 2⟩), ("Bob", ⟨"Bob", 2, 1, 2⟩)],
        ["7b1d4e88", "3f2a9c1e"], [("3f2a9c1e", "Alice"), ("7b1d4e88", "Bob")]⟩
      fileTwoAuthors (by decide) (by decide)⟩

/-! ## Language filter (C9, C10) -/

/-- C9 fails on the code: `goodLanguage` lower-cases the registry name only, not the
requested name. For every lower-casing function that sends `Go` to `go`, as
`strings.ToLower` does, with the registry entry `Go` and the file `b.py`: the request `go`
matches and rejects the file, while the request `Go` matches nothing, so that the filter
fails open and accepts the file. -/
theorem goodLanguage_case_sensitive (ToLower : String → String)
    (hlower : ToLower "Go" = "go") :
    goodLanguage ToLower "b.py" (some ["go"]) [⟨"Go", "programming", [".go"]⟩] = false ∧
    goodLanguage ToLower "b.py" (some ["Go"]) [⟨"Go", "programming", [".go"]⟩] = true := by
  have hext : Ext "b.py" = ".py" := by decide
  have h1 : ¬ ("Go" = "go") := by decide
  have h2 : ¬ (".py" = ".go") := by decide
  constructor
  · simp [goodLanguage, scanLanguages, scanRegistry, hlower, hext, h2]
  · simp [goodLanguage, scanLanguages, scanRegistry, hlower, hext, h1]

/-- C9 with the letters `A` to `Z` lower-cased. -/
theorem goodLanguage_case_sensitive_witness :
    asciiLower "Go" = "go" ∧
    (goodLanguage asciiLower "b.py" (some ["go"]) [⟨"Go", "programming", [".go"]⟩] = false ∧
    goodLanguage asciiLower "b.py" (some ["Go"]) [⟨"Go", "programming", [".go"]⟩] = true) :=
  ⟨by decide, goodLanguage_case_sensitive asciiLower (by decide)⟩

theorem scanRegistry_unknown (ToLower : String → String) (fileExtension language : String)
    (reg : List Lang) (known : Nat) (h : ∀ l ∈ reg, language ≠ ToLower l.Name) :
    scanRegistry ToLower fileExtension language reg known = some known := by
  induction reg with
  | nil => rfl
  | cons l rest ih =>
    have h1 : language ≠ ToLower l.Name := h l (List.mem_cons_self _ _)
    have h2 : ∀ l' ∈ rest, language ≠ ToLower l'.Name :=
      fun l' hl' => h l' (List.mem_cons_of_mem _ hl')
    simp [scanRegistry, h1, ih h2]

theorem scanLanguages_unknown (ToLower : String → String) (fileExtension : String)
    (reg : List Lang) (langs : List String) (known : Nat)
    (h : ∀ language ∈ langs, ∀ l ∈ reg, language ≠ ToLower l.Name) :
    scanLanguages ToLower fileExtension reg langs known = some known := by
  induction langs with
  | nil => rfl
  | cons language rest ih =>
    have h1 := scanRegistry_unknown ToLower fileExtension language reg known
      (h language (List.mem_cons_self _ _))
    have h2 : ∀ language' ∈ rest, ∀ l ∈ reg, language' ≠ ToLower l.Name :=
      fun l' hl' => h l' (List.mem_cons_of_mem _ hl')
    simp [scanLanguages, h1, ih h2]

/-- C10: whatever the library function `strings.ToLower` computes, for every file, every
registry (the empty one included) and every list of requested language names, non-empty
or not, none of which equals the lower-cased name of a registry language, `goodLanguage`
returns true, as it does without a language filter; hence the files it selects from any
list are those selected without a language filter. -/
theorem goodLanguage_all_unknown (ToLower : String → String) (file : String)
    (langs : List String) (reg : List Lang)
    (h : ∀ language ∈ langs, ∀ l ∈ reg, language ≠ ToLower l.Name) :
    goodLanguage ToLower file (some langs) reg = true ∧
    goodLanguage ToLower file (some langs) reg = goodLanguage ToLower file none reg ∧
    ∀ files : List String,
      files.filter (fun f => goodLanguage ToLower f (some langs) reg) =
        files.filter (fun f => goodLanguage ToLower f none reg) := by
  have key : ∀ f, goodLanguage ToLower f (some langs) reg = true := by
    intro f
    simp [goodLanguage, scanLanguages_unknown ToLower (Ext f) reg langs 0 h]
  refine ⟨key file, by rw [key file]; rfl, ?_⟩
  intro files
  congr 1
  funext f
  rw [key f]
  rfl

/-- C10 at the request `klingon` against a registry that knows Go. -/
theorem goodLanguage_all_unknown_witness :
    (∀ language ∈ ["klingon"], ∀ l ∈ [(⟨"Go", "programming", [".go"]⟩ : Lang)],
      language ≠ asciiLower l.Name) ∧
    (goodLanguage asciiLower "b.py" (some ["klingon"]) [⟨"Go", "programming", [".go"]⟩] =
      true ∧
    goodLanguage asciiLower "b.py" (some ["klingon"]) [⟨"Go", "programming", [".go"]⟩] =
      goodLanguage asciiLower "b.py" none [⟨"Go", "programming", [".go"]⟩] ∧
    ∀ files : List String,
      files.filter (fun f => goodLanguage asciiLower f (some ["klingon"])
          [⟨"Go", "programming", [".go"]⟩]) =
        files.filter (fun f => goodLanguage asciiLower f none
          [⟨"Go", "programming", [".go"]⟩])) :=
  ⟨by decide,
    goodLanguage_all_unknown asciiLower "b.py" ["klingon"] [⟨"Go", "programming", [".go"]⟩]
      (by decide)⟩

/-! ## Ranking (C7, C8) -/

theorem strLess_iff (a b : String) : strLess a b = true ↔ a < b := by
  unfold strLess
  rw [decide_eq_true_iff]
  exact String.lt_iff_toList_lt.symm

theorem lessLines_iff (a b : Statistic) :
    lessLines a b = true ↔ precedes Statistic.Lines Statistic.Commits Statistic.Files a b := by
  unfold lessLines precedes
  by_cases h1 : a.Lines = b.Lines <;> by_cases h2 : a.Commits = b.Commits <;>
    by_cases h3 : a.Files = b.Files <;> simp [h1, h2, h3, strLess_iff]

theorem lessCommits_iff (a b : Statistic) :
    lessCommits a b = true ↔
      precedes Statistic.Commits Statistic.Lines Statistic.Files a b := by
  unfold lessCommits precedes
  by_cases h1 : a.Lines = b.Lines <;> by_cases h2 : a.Commits = b.Commits <;>
    by_cases h3 : a.Files = b.Files <;> simp [h1, h2, h3, strLess_iff]

theorem lessFiles_iff (a b : Statistic) :
    lessFiles a b = true ↔ precedes Statistic.Files Statistic.Lines Statistic.Commits a b := by
  unfold lessFiles precedes
  by_cases h1 : a.Lines = b.Lines <;> by_cases h2 : a.Commits = b.Commits <;>
    by_cases h3 : a.Files = b.Files <;> simp [h1, h2, h3, strLess_iff]

theorem precedes_irrefl (k1 k2 k3 : Statistic → Nat) (a : Statistic) :
    ¬ precedes k1 k2 k3 a a := by
  unfold precedes
  simp

theorem precedes_trans (k1 k2 k3 : Statistic → Nat) (a b c : Statistic)
    (hab : precedes k1 k2 k3 a b) (hbc : precedes k1 k2 k3 b c) : precedes k1 k2 k3 a c := by
  unfold precedes at *
  rcases hab with h | ⟨h, h' | ⟨h', h'' | ⟨h'', hn⟩⟩⟩ <;>
    rcases hbc with g | ⟨g, g' | ⟨g', g'' | ⟨g'', gn⟩⟩⟩
  all_goals first
    | (left; omega)
    | (right; refine ⟨by omega, ?_⟩; left; omega)
    | (right; refine ⟨by omega, ?_⟩; right; refine ⟨by omega, ?_⟩; left; omega)
    | (right; refine ⟨by omega, ?_⟩; right; refine ⟨by omega, ?_⟩; right
       exact ⟨by omega, lt_trans hn gn⟩)

/-- Two records with different names are ordered one way or the other. -/
theorem precedes_total (k1 k2 k3 : Statistic → Nat) (a b : Statistic)
    (hne : a.Name ≠ b.Name) : precedes k1 k2 k3 a b ∨ precedes k1 k2 k3 b a := by
  unfold precedes
  rcases Nat.lt_trichotomy (k1 a) (k1 b) with h1 | h1 | h1
  · right; left; exact h1
  · rcases Nat.lt_trichotomy (k2 a) (k2 b) with h2 | h2 | h2
    · right; right; exact ⟨h1.symm, Or.inl h2⟩
    · rcases Nat.lt_trichotomy (k3 a) (k3 b) with h3 | h3 | h3
      · right; right; exact ⟨h1.symm, Or.inr ⟨h2.symm, Or.inl h3⟩⟩
      · rcases lt_trichotomy a.Name b.Name with hn | hn | hn
        · left; right; exact ⟨h1, Or.inr ⟨h2, Or.inr ⟨h3, hn⟩⟩⟩
        · exact absurd hn hne
        · right; right; exact ⟨h1.symm, Or.inr ⟨h2.symm, Or.inr ⟨h3.symm, hn⟩⟩⟩
      · left; right; exact ⟨h1, Or.inr ⟨h2, Or.inl h3⟩⟩
    · left; right; exact ⟨h1, Or.inl h2⟩
  · left; left; exact h1

/-- The three comparators of the program agree with the sort key of the specification. -/
theorem comparator_iff (order : String) (less : Statistic → Statistic → Bool)
    (h : comparator order = some less) (a b : Statistic) :
    less a b = true ↔ precedesBy order a b := by
  unfold comparator at h
  unfold precedesBy
  split_ifs at h ⊢
  · simp only [Option.some.injEq] at h
    subst h; exact lessLines_iff a b
  · simp only [Option.some.injEq] at h
    subst h; exact lessCommits_iff a b
  · simp only [Option.some.injEq] at h
    subst h; exact lessFiles_iff a b

theorem precedesBy_irrefl (order : String) (a : Statistic) : ¬ precedesBy order a a := by
  unfold precedesBy
  split_ifs <;> first | exact precedes_irrefl _ _ _ a | exact fun h => h

theorem precedesBy_trans (order : String) (a b c : Statistic)
    (hab : precedesBy order a b) (hbc : precedesBy order b c) : precedesBy order a c := by
  unfold precedesBy at *
  split_ifs at * <;> exact precedes_trans _ _ _ a b c hab hbc

theorem precedesBy_total (order : String) (less : Statistic → Statistic → Bool)
    (h : comparator order = some less) (a b : Statistic) (hne : a.Name ≠ b.Name) :
    precedesBy order a b ∨ precedesBy order b a := by
  unfold comparator at h
  unfold precedesBy
  split_ifs at * <;> exact precedes_total _ _ _ a b hne

/-- Records that the key does not separate are the same record. -/
theorem precedes_antisymm (k1 k2 k3 : Statistic → Nat) (a b : Statistic)
    (hk : ∀ x y : Statistic, k1 x = k1 y → k2 x = k2 y → k3 x = k3 y → x.Name = y.Name → x = y)
    (hab : ¬ precedes k1 k2 k3 a b) (hba : ¬ precedes k1 k2 k3 b a) : a = b := by
  by_cases hn : a.Name = b.Name
  · unfold precedes at hab hba
    have h1 : k1 a = k1 b := by
      rcases Nat.lt_trichotomy (k1 a) (k1 b) with h | h | h
      · exact absurd (Or.inl h) hba
      · exact h
      · exact absurd (Or.inl h) hab
    have h2 : k2 a = k2 b := by
      rcases Nat.lt_trichotomy (k2 a) (k2 b) with h | h | h
      · exact absurd (Or.inr ⟨h1.symm, Or.inl h⟩) hba
      · exact h
      · exact absurd (Or.inr ⟨h1, Or.inl h⟩) hab
    have h3 : k3 a = k3 b := by
      rcases Nat.lt_trichotomy (k3 a) (k3 b) with h | h | h
      · exact absurd (Or.inr ⟨h1.symm, Or.inr ⟨h2.symm, Or.inl h⟩⟩) hba
      · exact h
      · exact absurd (Or.inr ⟨h1, Or.inr ⟨h2, Or.inl h⟩⟩) hab
    exact hk a b h1 h2 h3 hn
  · rcases precedes_total k1 k2 k3 a b hn with h | h
    · exact absurd h hab
    · exact absurd h hba

theorem precedesBy_antisymm (order : String) (less : Statistic → Statistic → Bool)
    (h : comparator order = some less) (a b : Statistic)
    (hab : ¬ precedesBy order a b) (hba : ¬ precedesBy order b a) : a = b := by
  unfold comparator at h
  unfold precedesBy at hab hba
  split_ifs at *
  · refine precedes_antisymm _ _ _ a b ?_ hab hba
    intro x y h1 h2 h3 h4
    cases x; cases y; simp_all
  · refine precedes_antisymm _ _ _ a b ?_ hab hba
    intro x y h1 h2 h3 h4
    cases x; cases y; simp_all
  · refine precedes_antisymm _ _ _ a b ?_ hab hba
    intro x y h1 h2 h3 h4
    cases x; cases y; simp_all

/-! ### Insertion sort -/

theorem sortedInsert_perm (less : Statistic → Statistic → Bool) (x : Statistic)
    (l : List Statistic) : (sortedInsert less x l).Perm (x :: l) := by
  induction l with
  | nil => exact List.Perm.refl _
  | cons y ys ih =>
    unfold sortedInsert
    split
    · exact List.Perm.refl _
    · exact (List.Perm.cons y ih).trans (List.Perm.swap x y ys)

theorem sortSlice_perm (less : Statistic → Statistic → Bool) (l : List Statistic) :
    (sortSlice less l).Perm l := by
  induction l with
  | nil => exact List.Perm.refl _
  | cons x xs ih =>
    unfold sortSlice
    exact (sortedInsert_perm less x _).trans (List.Perm.cons x ih)

theorem sortedInsert_sorted (less : Statistic → Statistic → Bool)
    (htrans : ∀ a b c, less a b = true → less b c = true → less a c = true)
    (hasymm : ∀ a b, less a b = true → less b a = false)
    (x : Statistic) (l : List Statistic)
    (hl : l.Pairwise (fun a b => less b a = false)) :
    (sortedInsert less x l).Pairwise (fun a b => less b a = false) := by
  induction l with
  | nil => simp [sortedInsert]
  | cons y ys ih =>
    rw [List.pairwise_cons] at hl
    unfold sortedInsert
    by_cases hxy : less x y = true
    · simp only [hxy, if_true]
      refine List.Pairwise.cons ?_ (List.Pairwise.cons hl.1 hl.2)
      intro z hz
      rcases List.mem_cons.1 hz with hz | hz
      · subst hz; exact hasymm _ _ hxy
      · cases hzx : less z x with
        | false => rfl
        | true =>
          have := htrans z x y hzx hxy
          rw [hl.1 z hz] at this
          exact absurd this (by simp)
    · simp only [hxy, if_false]
      refine List.Pairwise.cons ?_ (ih hl.2)
      intro z hz
      rcases List.mem_cons.1 ((sortedInsert_perm less x ys).subset hz) with hz | hz
      · subst hz; simpa using hxy
      · exact hl.1 z hz

theorem sortSlice_sorted (less : Statistic → Statistic → Bool)
    (htrans : ∀ a b c, less a b = true → less b c = true → less a c = true)
    (hasymm : ∀ a b, less a b = true → less b a = false)
    (l : List Statistic) :
    (sortSlice less l).Pairwise (fun a b => less b a = false) := by
  induction l with
  | nil => simp [sortSlice]
  | cons x xs ih =>
    unfold sortSlice
    exact sortedInsert_sorted less htrans hasymm x _ ih

theorem comparator_trans (order : String) (less : Statistic → Statistic → Bool)
    (h : comparator order = some less) (a b c : Statistic)
    (hab : less a b = true) (hbc : less b c = true) : less a c = true := by
  rw [comparator_iff order less h] at *
  exact precedesBy_trans order a b c hab hbc

theorem comparator_irrefl (order : String) (less : Statistic → Statistic → Bool)
    (h : comparator order = some less) (a : Statistic) : less a a = false := by
  cases hl : less a a with
  | false => rfl
  | true => exact absurd ((comparator_iff order less h a a).1 hl) (precedesBy_irrefl order a)

theorem comparator_asymm (order : String) (less : Statistic → Statistic → Bool)
    (h : comparator order = some less) (a b : Statistic) (hab : less a b = true) :
    less b a = false := by
  cases hl : less b a with
  | false => rfl
  | true =>
    have := comparator_trans order less h a b a hab hl
    rw [comparator_irrefl order less h a] at this
    exact absurd this (by simp)

/-- A slice has one sorted arrangement only: whatever procedure `sort.Slice` runs, its
result is determined by the records and the comparator. -/
theorem sorted_perm_unique (order : String) (less : Statistic → Statistic → Bool)
    (h : comparator order = some less) (l1 l2 : List Statistic) (hp : l1.Perm l2)
    (h1 : l1.Pairwise (fun a b => less b a = false))
    (h2 : l2.Pairwise (fun a b => less b a = false)) : l1 = l2 := by
  haveI : IsAntisymm Statistic (fun a b => less b a = false) :=
    ⟨fun a b hab hba => by
      apply precedesBy_antisymm order less h a b
      · rw [← comparator_iff order less h]; simp [hba]
      · rw [← comparator_iff order less h]; simp [hab]⟩
  exact List.eq_of_perm_of_sorted hp h1 h2

theorem comparator_of_metric (order : String)
    (horder : order = "lines" ∨ order = "commits" ∨ order = "files") :
    ∃ less, comparator order = some less := by
  rcases horder with h | h | h <;> subst h
  · exact ⟨lessLines, rfl⟩
  · exact ⟨lessCommits, rfl⟩
  · exact ⟨lessFiles, rfl⟩

/-- Ranking records with pairwise distinct names succeeds for the three metric selectors
and returns a permutation in which every record precedes every later record under the
key of the specification. -/
theorem rank_sorted_of_distinct_names (order : String) (statsSlice : List Statistic)
    (horder : order = "lines" ∨ order = "commits" ∨ order = "files")
    (hnames : (statsSlice.map Statistic.Name).Nodup) :
    ∃ ranked, rank order statsSlice = some ranked ∧ ranked.Perm statsSlice ∧
      ranked.Pairwise (precedesBy order) := by
  obtain ⟨less, hless⟩ := comparator_of_metric order horder
  refine ⟨sortSlice less statsSlice, by simp [rank, hless], sortSlice_perm less _, ?_⟩
  have hs := sortSlice_sorted less (comparator_trans order less hless)
    (comparator_asymm order less hless) statsSlice
  have hn : (sortSlice less statsSlice).Pairwise (fun a b => a.Name ≠ b.Name) := by
    have : ((sortSlice less statsSlice).map Statistic.Name).Nodup :=
      ((sortSlice_perm less statsSlice).map _).nodup_iff.2 hnames
    exact List.pairwise_map.1 this
  refine (hs.and hn).imp ?_
  intro a b hab
  rcases precedesBy_total order less hless a b hab.2 with h | h
  · exact h
  · have := (comparator_iff order less hless b a).2 h
    rw [hab.1] at this
    exact absurd this (by simp)

/-- Ranking does not depend on the order in which the records reach the sort. -/
theorem rank_perm (order : String) (l1 l2 : List Statistic) (hp : l1.Perm l2) :
    rank order l1 = rank order l2 := by
  cases hless : comparator order with
  | none => simp [rank, hless]
  | some less =>
    simp only [rank, hless, Option.some.injEq]
    exact sorted_perm_unique order less hless _ _
      (((sortSlice_perm less l1).trans hp).trans (sortSlice_perm less l2).symm)
      (sortSlice_sorted less (comparator_trans order less hless)
        (comparator_asymm order less hless) l1)
      (sortSlice_sorted less (comparator_trans order less hless)
        (comparator_asymm order less hless) l2)

/-- C8: for each of the three metrics the comparator is irreflexive and transitive and
orders any two records with different names one way or the other; therefore ranking two
permutations of the same records gives the same sequence, and two authors with equal
counts are ranked by ascending name whichever comes first in the slice. -/
theorem ranking_order_independent (order : String) (less : Statistic → Statistic → Bool)
    (hless : comparator order = some less) :
    (∀ a, less a a = false) ∧
    (∀ a b c, less a b = true → less b c = true → less a c = true) ∧
    (∀ a b, a.Name ≠ b.Name → (less a b = true ∧ less b a = false) ∨
      (less b a = true ∧ less a b = false)) ∧
    (∀ l1 l2 : List Statistic, l1.Perm l2 → rank order l1 = rank order l2) ∧
    (∀ a b : Statistic, a.Lines = b.Lines → a.Commits = b.Commits → a.Files = b.Files →
      a.Name < b.Name → rank order [a, b] = some [a, b] ∧ rank order [b, a] = some [a, b]) := by
  have htr := comparator_trans order less hless
  have hasy := comparator_asymm order less hless
  have hperm := rank_perm order
  refine ⟨comparator_irrefl order less hless, htr, ?_, hperm, ?_⟩
  · intro a b hne
    rcases precedesBy_total order less hless a b hne with h | h
    · have h1 := (comparator_iff order less hless a b).2 h
      exact Or.inl ⟨h1, hasy _ _ h1⟩
    · have h1 := (comparator_iff order less hless b a).2 h
      exact Or.inr ⟨h1, hasy _ _ h1⟩
  · intro a b h1 h2 h3 hn
    have hab : less a b = true := by
      rw [comparator_iff order less hless]
      unfold comparator at hless
      unfold precedesBy precedes
      split_ifs at hless ⊢ <;> simp [h1, h2, h3, hn]
    have h4 : rank order [a, b] = some [a, b] := by
      simp [rank, hless, sortSlice, sortedInsert, hab]
    exact ⟨h4, by rw [hperm [b, a] [a, b] (List.Perm.swap a b []), h4]⟩

/-- C8 for the metric `lines`. -/
theorem ranking_order_independent_witness :
    comparator "lines" = some lessLines ∧
    ((∀ a, lessLines a a = false) ∧
    (∀ a b c, lessLines a b = true → lessLines b c = true → lessLines a c = true) ∧
    (∀ a b, a.Name ≠ b.Name → (lessLines a b = true ∧ lessLines b a = false) ∨
      (lessLines b a = true ∧ lessLines a b = false)) ∧
    (∀ l1 l2 : List Statistic, l1.Perm l2 → rank "lines" l1 = rank "lines" l2) ∧
    (∀ a b : Statistic, a.Lines = b.Lines → a.Commits = b.Commits → a.Files = b.Files →
      a.Name < b.Name →
      rank "lines" [a, b] = some [a, b] ∧ rank "lines" [b, a] = some [a, b])) :=
  ⟨rfl, ranking_order_independent "lines" lessLines rfl⟩

/-! ## The loops as sequences of updates -/

theorem filenameUpdate_eq_applyEvent (g : Agg) (v : FileVars) :
    filenameUpdate g v =
      (applyEvent g (Event.claim v.author v.lastCommit (decide (v.author ∉ v.authorSet)))).map
        (fun g' => (g', ⟨v.author, setAdd v.authorSet v.author, v.lastCommit⟩)) := by
  unfold filenameUpdate applyEvent
  by_cases ha : v.author ∈ v.authorSet
  · have hv : setAdd v.authorSet v.author = v.authorSet := by simp [setAdd, ha]
    simp [ha, hv]
  · simp only [ha, if_false, not_false_eq_true, decide_True, if_true]
    cases bump (ensureStat g.statMap v.author) v.author
        (fun s => { s with Files := s.Files + 1 }) with
    | none => rfl
    | some m => rfl

theorem blameLoop_eq_applyEvents (useCommitter : Bool) (lines : List String) (g : Agg)
    (v : FileVars) :
    (blameLoop useCommitter lines g v).map Prod.fst =
      applyEvents (blameEvents useCommitter lines v) g := by
  induction lines generalizing g v with
  | nil => rfl
  | cons line rest ih =>
    by_cases ht : HasPrefix line "\t" = true
    · simp only [blameLoop, blameEvents, ht, if_true, applyEvents,
        blameLine_content _ _ _ _ ht, applyEvent]
      cases bump g.statMap (authorOfCommit g.commitAuthor v.lastCommit)
          (fun s => { s with Lines := s.Lines + 1 }) with
      | none => rfl
      | some m => simpa using ih _ v
    · have ht' : HasPrefix line "\t" = false := by simpa using ht
      obtain ⟨c, hc⟩ := cursorAfter_isSome line v.lastCommit
      by_cases hf : HasPrefix line "filename " = true
      · simp only [blameLoop, blameEvents, blameLine, ht', hf, hc, Option.getD_some,
          if_true, applyEvents, Bool.false_eq_true, if_false]
        rw [filenameUpdate_eq_applyEvent]
        cases applyEvent g (Event.claim (authorAfter useCommitter line v.author) c
            (decide (authorAfter useCommitter line v.author ∉ v.authorSet))) with
        | none => rfl
        | some g1 => simpa using ih g1 _
      · have hf' : HasPrefix line "filename " = false := by simpa using hf
        simp only [blameLoop, blameEvents, blameLine, ht', hf', hc, Option.getD_some,
          Bool.false_eq_true, if_false]
        exact ih g _

theorem logLoop_eq_applyEvents (lines : List String) (g : Agg) (c : String)
    (es : List Event) (h : logEvents lines c = some es) :
    (logLoop lines g c).map Prod.fst = applyEvents es g := by
  induction lines generalizing g c es with
  | nil =>
    simp [logEvents] at h
    subst h
    rfl
  | cons line rest ih =>
    unfold logEvents at h
    cases hc : commitAfter line c with
    | none => simp [hc] at h
    | some c1 =>
      simp only [hc] at h
      by_cases ha : HasPrefix line "Author: " = true
      · simp only [ha, if_true] at h
        cases hau : logAuthor line with
        | none => simp [hau] at h
        | some a =>
          simp only [hau] at h
          cases hr : logEvents rest c1 with
          | none => simp [hr] at h
          | some es1 =>
            simp [hr] at h
            subst h
            simp only [logLoop, logLine, hc, ha, hau, if_true, applyEvents, applyEvent,
              logUpdate]
            cases bump (ensureStat g.statMap a) a
                (fun s => { s with Files := s.Files + 1 }) with
            | none => rfl
            | some m =>
              simp only []
              cases countCommit ⟨m, g.commitSet, g.commitAuthor⟩ c1 a with
              | none => rfl
              | some g1 => simpa using ih g1 c1 es1 hr
      · have ha' : HasPrefix line "Author: " = false := by simpa using ha
        simp only [ha', Bool.false_eq_true, if_false] at h
        simp only [logLoop, logLine, hc, ha', Bool.false_eq_true, if_false]
        exact ih g c1 es h

theorem processFile_eq_applyEvents (useCommitter : Bool) (g : Agg) (r : FileRecord)
    (es : List Event) (h : recordEvents useCommitter r = some es) :
    processFile useCommitter g r = applyEvents es g := by
  unfold recordEvents at h
  unfold processFile
  by_cases hb : r.blame.length = 0
  · simp only [hb, if_true] at h ⊢
    exact logLoop_eq_applyEvents _ g "" es h
  · simp only [hb, if_false, Option.some.injEq] at h ⊢
    subst h
    exact blameLoop_eq_applyEvents _ _ g _

/-! ## Keys and names of the statistics map -/

theorem mapGet_mem {β : Type} (m : List (String × β)) (k : String) (v : β)
    (h : mapGet m k = some v) : (k, v) ∈ m := by
  induction m with
  | nil => simp [mapGet] at h
  | cons p rest ih =>
    obtain ⟨k', v'⟩ := p
    by_cases hk : k' = k
    · simp [mapGet, hk] at h
      subst hk h
      exact List.mem_cons_self _ _
    · simp only [mapGet, hk, if_false] at h
      exact List.mem_cons_of_mem _ (ih h)

theorem mem_mapSet {β : Type} (m : List (String × β)) (k : String) (v : β) (p : String × β)
    (h : p ∈ mapSet m k v) : p = (k, v) ∨ p ∈ m := by
  induction m with
  | nil =>
    simp [mapSet] at h
    exact Or.inl h
  | cons q rest ih =>
    obtain ⟨k', v'⟩ := q
    by_cases hk : k' = k
    · subst hk
      simp only [mapSet, if_true, List.mem_cons] at h
      rcases h with h | h
      · exact Or.inl h
      · exact Or.inr (List.mem_cons_of_mem _ h)
    · simp only [mapSet, hk, if_false, List.mem_cons] at h
      rcases h with h | h
      · subst h
        exact Or.inr (List.mem_cons_self _ _)
      · rcases ih h with h1 | h1
        · exact Or.inl h1
        · exact Or.inr (List.mem_cons_of_mem _ h1)

theorem keys_mapSet {β : Type} (m : List (String × β)) (k : String) (v : β) :
    (mapSet m k v).map Prod.fst =
      if k ∈ m.map Prod.fst then m.map Prod.fst else m.map Prod.fst ++ [k] := by
  induction m with
  | nil => simp [mapSet]
  | cons q rest ih =>
    obtain ⟨k', v'⟩ := q
    by_cases hk : k' = k
    · subst hk
      simp [mapSet]
    · have hk' : ¬ k = k' := fun e => hk e.symm
      simp only [mapSet, hk, if_false, List.map_cons, ih, List.mem_cons, hk', false_or]
      split <;> simp

theorem wellKeyed_mapSet (m : List (String × Statistic)) (k : String) (v : Statistic)
    (h : WellKeyed m) (hv : v.Name = k) : WellKeyed (mapSet m k v) := by
  obtain ⟨h1, h2⟩ := h
  refine ⟨?_, ?_⟩
  · rw [keys_mapSet]
    split
    · exact h1
    · rename_i hk
      rw [List.nodup_append]
      refine ⟨h1, List.nodup_singleton k, ?_⟩
      intro x hx hx'
      rw [List.mem_singleton] at hx'
      subst hx'
      exact hk hx
  · intro p hp
    rcases mem_mapSet m k v p hp with hp | hp
    · subst hp; exact hv
    · exact h2 p hp

theorem wellKeyed_bump (m m' : List (String × Statistic)) (k : String)
    (f : Statistic → Statistic) (h : WellKeyed m) (hb : bump m k f = some m')
    (hf : ∀ s, (f s).Name = s.Name) : WellKeyed m' := by
  unfold bump at hb
  cases hs : mapGet m k with
  | none => simp [hs] at hb
  | some s =>
    simp [hs] at hb
    subst hb
    apply wellKeyed_mapSet m k (f s) h
    rw [hf s]
    exact h.2 (k, s) (mapGet_mem m k s hs)

theorem wellKeyed_ensureStat (m : List (String × Statistic)) (a : String) (h : WellKeyed m) :
    WellKeyed (ensureStat m a) := by
  unfold ensureStat
  cases mapGet m a with
  | none => exact wellKeyed_mapSet m a _ h rfl
  | some s => exact h

theorem wellKeyed_countCommit (g g' : Agg) (c a : String) (h : WellKeyed g.statMap)
    (hc : countCommit g c a = some g') : WellKeyed g'.statMap := by
  unfold countCommit at hc
  split at hc
  · cases hc; exact h
  · cases hb : bump g.statMap a (fun s => { s with Commits := s.Commits + 1 }) with
    | none => simp [hb] at hc
    | some m =>
      simp [hb] at hc
      subst hc
      exact wellKeyed_bump _ _ _ _ h hb (fun _ => rfl)

theorem wellKeyed_applyEvent (g g' : Agg) (e : Event) (h : WellKeyed g.statMap)
    (he : applyEvent g e = some g') : WellKeyed g'.statMap := by
  cases e with
  | credit c =>
    unfold applyEvent at he
    cases hb : bump g.statMap (authorOfCommit g.commitAuthor c)
        (fun s => { s with Lines := s.Lines + 1 }) with
    | none => simp [hb] at he
    | some m =>
      simp [hb] at he
      subst he
      exact wellKeyed_bump _ _ _ _ h hb (fun _ => rfl)
  | claim a c nf =>
    unfold applyEvent at he
    cases nf with
    | true =>
      simp only [if_true] at he
      cases hb : bump (ensureStat g.statMap a) a
          (fun s => { s with Files := s.Files + 1 }) with
      | none => simp [hb] at he
      | some m =>
        simp only [hb] at he
        exact wellKeyed_countCommit _ _ _ _
          (wellKeyed_bump _ _ _ _ (wellKeyed_ensureStat _ _ h) hb (fun _ => rfl)) he
    | false =>
      simp only [Bool.false_eq_true, if_false] at he
      exact wellKeyed_countCommit _ _ _ _ (wellKeyed_ensureStat _ _ h) he

theorem wellKeyed_applyEvents (es : List Event) (g g' : Agg) (h : WellKeyed g.statMap)
    (he : applyEvents es g = some g') : WellKeyed g'.statMap := by
  induction es generalizing g with
  | nil =>
    simp [applyEvents] at he
    subst he; exact h
  | cons e es ih =>
    unfold applyEvents at he
    cases h1 : applyEvent g e with
    | none => simp [h1] at he
    | some g1 =>
      simp only [h1] at he
      exact ih g1 (wellKeyed_applyEvent g g1 e h h1) he

/-- A log record that cannot be parsed stops the loop with a run-time error. -/
theorem logLoop_of_logEvents_none (lines : List String) (g : Agg) (c : String)
    (h : logEvents lines c = none) : logLoop lines g c = none := by
  induction lines generalizing g c with
  | nil => simp [logEvents] at h
  | cons line rest ih =>
    unfold logEvents at h
    unfold logLoop logLine
    cases hc : commitAfter line c with
    | none => rfl
    | some c1 =>
      simp only [hc] at h ⊢
      by_cases ha : HasPrefix line "Author: " = true
      · simp only [ha, if_true] at h ⊢
        cases hau : logAuthor line with
        | none => rfl
        | some a =>
          simp only [hau, Option.map_eq_none'] at h ⊢
          cases logUpdate g c1 a with
          | none => rfl
          | some g1 => exact ih g1 c1 h
      · have ha' : HasPrefix line "Author: " = false := by simpa using ha
        simp only [ha', Bool.false_eq_true, if_false] at h ⊢
        exact ih g c1 h

/-- A file that is processed without error has a sequence of updates, and processing it
is applying them. -/
theorem processFile_some (useCommitter : Bool) (g g' : Agg) (r : FileRecord)
    (h : processFile useCommitter g r = some g') :
    ∃ es, recordEvents useCommitter r = some es ∧ applyEvents es g = some g' := by
  cases hes : recordEvents useCommitter r with
  | some es =>
    exact ⟨es, rfl, by rw [← processFile_eq_applyEvents useCommitter g r es hes]; exact h⟩
  | none =>
    unfold recordEvents at hes
    by_cases hb : r.blame.length = 0
    · simp only [hb, if_true] at hes
      have := logLoop_of_logEvents_none _ g "" hes
      simp [processFile, hb, this] at h
    · simp [hb] at hes

theorem wellKeyed_aggregateFrom (useCommitter : Bool) (files : List FileRecord) (g g' : Agg)
    (h : WellKeyed g.statMap) (ha : aggregateFrom useCommitter g files = some g') :
    WellKeyed g'.statMap := by
  induction files generalizing g with
  | nil =>
    simp [aggregateFrom] at ha
    subst ha; exact h
  | cons r rest ih =>
    unfold aggregateFrom at ha
    cases hp : processFile useCommitter g r with
    | none => simp [hp] at ha
    | some g1 =>
      simp only [hp] at ha
      obtain ⟨es, _, he⟩ := processFile_some useCommitter g g1 r hp
      exact ih g1 (wellKeyed_applyEvents es g g1 h he) ha

/-- The aggregated author records have pairwise distinct names, whichever order of the
map entries fills the slice. -/
theorem aggregate_names_nodup (useCommitter : Bool) (files : List FileRecord) (g : Agg)
    (ha : aggregate useCommitter files = some g) (slice : List Statistic)
    (hs : slice.Perm (statsSlice g.statMap)) : (slice.map Statistic.Name).Nodup := by
  have hw : WellKeyed g.statMap :=
    wellKeyed_aggregateFrom useCommitter files Agg.init g
      ⟨by simp [Agg.init], by simp [Agg.init]⟩ ha
  have hn : ((statsSlice g.statMap).map Statistic.Name) = g.statMap.map Prod.fst := by
    unfold statsSlice
    rw [List.map_map]
    apply List.map_congr_left
    intro p hp
    exact hw.2 p hp
  rw [(hs.map Statistic.Name).nodup_iff, hn]
  exact hw.1

/-! ## The bookkeeping invariant -/

theorem nodup_setAdd (s : List String) (k : String) (h : s.Nodup) : (setAdd s k).Nodup := by
  unfold setAdd
  split
  · exact h
  · rename_i hk
    exact List.nodup_cons.2 ⟨hk, h⟩

theorem countP_setAdd (s : List String) (k : String) (p : String → Bool) :
    (setAdd s k).countP p = s.countP p + (if k ∉ s ∧ p k = true then 1 else 0) := by
  unfold setAdd
  by_cases hk : k ∈ s
  · simp [hk]
  · by_cases hp : p k = true
    · simp [hk, hp, List.countP_cons_of_pos]
    · simp [hk, hp, List.countP_cons_of_neg]

theorem applyEvent_claim_spec (g : Agg) (a c : String) (newFile : Bool) :
    ∃ g', applyEvent g (Event.claim a c newFile) = some g' ∧
      mapGet g'.statMap a =
        some ⟨((mapGet g.statMap a).getD ⟨a, 0, 0, 0⟩).Name,
          ((mapGet g.statMap a).getD ⟨a, 0, 0, 0⟩).Lines,
          ((mapGet g.statMap a).getD ⟨a, 0, 0, 0⟩).Commits +
            (if c ∈ g.commitSet then 0 else 1),
          ((mapGet g.statMap a).getD ⟨a, 0, 0, 0⟩).Files +
            (if newFile = true then 1 else 0)⟩ ∧
      (∀ b, b ≠ a → mapGet g'.statMap b = mapGet g.statMap b) ∧
      g'.commitSet = setAdd g.commitSet c ∧
      g'.commitAuthor = (if c ∈ g.commitSet then g.commitAuthor
        else mapSet g.commitAuthor c a) := by
  cases newFile with
  | true =>
    obtain ⟨g', h1, h2, h3, h4, h5⟩ := logUpdate_spec g c a
    exact ⟨g', by simpa [applyEvent, logUpdate] using h1, by simpa using h2, h3, h4, h5⟩
  | false =>
    have h0 := mapGet_ensureStat_self g.statMap a
    obtain ⟨g', h1, h2, h3, h4, h5⟩ :=
      countCommit_spec ⟨ensureStat g.statMap a, g.commitSet, g.commitAuthor⟩ c a _ h0
    refine ⟨g', by simpa [applyEvent] using h1, by simpa using h2, ?_, h4, h5⟩
    intro b hb
    rw [h3 b hb]
    exact mapGet_ensureStat_of_ne _ _ _ hb

/-- A claim for the assigned author keeps the bookkeeping and adds what it should. -/
theorem applyEvent_claim_inv (auth : String → String) (g : Agg) (a c : String)
    (newFile : Bool) (hinv : AggInv auth g) (ha : a = auth c) :
    ∃ g', applyEvent g (Event.claim a c newFile) = some g' ∧ AggInv auth g' ∧
      g'.commitSet = setAdd g.commitSet c ∧
      (∀ b, linesOf g'.statMap b = linesOf g.statMap b) ∧
      (∀ b, filesOf g'.statMap b =
        filesOf g.statMap b + (if a = b ∧ newFile = true then 1 else 0)) ∧
      (∀ b, (∃ s, mapGet g'.statMap b = some s) ↔
        ((∃ s, mapGet g.statMap b = some s) ∨ b = a)) := by
  obtain ⟨hnd, hca, hrec, hcnt, hname⟩ := hinv
  obtain ⟨g', h1, h2, h3, h4, h5⟩ := applyEvent_claim_spec g a c newFile
  refine ⟨g', h1, ⟨?_, ?_, ?_, ?_, ?_⟩, h4, ?_, ?_, ?_⟩
  · rw [h4]; exact nodup_setAdd _ _ hnd
  · intro c' hc'
    rw [h4, mem_setAdd] at hc'
    rw [h5]
    by_cases hc : c ∈ g.commitSet
    · simp only [hc, if_true]
      rcases hc' with hc' | hc'
      · subst hc'; exact hca _ hc
      · exact hca _ hc'
    · simp only [hc, if_false]
      by_cases hcc : c' = c
      · subst hcc
        rw [mapGet_mapSet_self, ha]
      · rw [mapGet_mapSet_of_ne _ _ _ _ hcc]
        rcases hc' with hc' | hc'
        · exact absurd hc' hcc
        · exact hca _ hc'
  · intro c' hc'
    rw [h4, mem_setAdd] at hc'
    by_cases hac : auth c' = a
    · rw [hac]; exact ⟨_, h2⟩
    · rw [h3 _ hac]
      rcases hc' with hc' | hc'
      · subst hc'; exact absurd ha.symm hac
      · exact hrec _ hc'
  · intro b
    rw [h4, countP_setAdd]
    by_cases hb : b = a
    · subst hb
      rw [commitsOf_of_get _ _ _ h2, commitsOf_getD, hcnt]
      by_cases hc : c ∈ g.commitSet <;> simp [hc, ha]
    · have hne : ¬ auth c = b := fun h => hb (by rw [← h, ha])
      simp only [commitsOf, h3 b hb]
      have := hcnt b
      simp only [commitsOf] at this
      rw [this]
      simp [hne]
  · intro b s hs
    by_cases hb : b = a
    · subst hb
      rw [h2] at hs
      cases hs
      cases hg : mapGet g.statMap b with
      | none => simp
      | some s0 => simpa using hname b s0 hg
    · rw [h3 b hb] at hs
      exact hname b s hs
  · intro b
    by_cases hb : b = a
    · subst hb
      simp only [linesOf, h2]
      cases mapGet g.statMap b <;> rfl
    · simp only [linesOf, h3 b hb]
  · intro b
    by_cases hb : b = a
    · subst hb
      simp only [filesOf, h2, true_and]
      cases mapGet g.statMap b <;> rfl
    · have hne : ¬ a = b := fun h => hb h.symm
      simp only [filesOf, h3 b hb, hne, false_and, if_false, Nat.add_zero]
  · intro b
    by_cases hb : b = a
    · subst hb
      exact ⟨fun _ => Or.inr rfl, fun _ => ⟨_, h2⟩⟩
    · rw [h3 b hb]
      simp [hb]

/-- A content line of a counted commit keeps the bookkeeping and adds one line for the
assigned author. -/
theorem applyEvent_credit_inv (auth : String → String) (g : Agg) (c : String)
    (hinv : AggInv auth g) (hc : c ∈ g.commitSet) :
    ∃ g', applyEvent g (Event.credit c) = some g' ∧ AggInv auth g' ∧
      g'.commitSet = g.commitSet ∧
      (∀ b, linesOf g'.statMap b =
        linesOf g.statMap b + (if auth c = b then 1 else 0)) ∧
      (∀ b, filesOf g'.statMap b = filesOf g.statMap b) ∧
      (∀ b, (∃ s, mapGet g'.statMap b = some s) ↔ (∃ s, mapGet g.statMap b = some s)) := by
  obtain ⟨hnd, hca, hrec, hcnt, hname⟩ := hinv
  have hk : authorOfCommit g.commitAuthor c = auth c := by
    simp [authorOfCommit, hca c hc]
  obtain ⟨s, hs⟩ := hrec c hc
  have happ : applyEvent g (Event.credit c) =
      some ⟨mapSet g.statMap (auth c) ⟨s.Name, s.Lines + 1, s.Commits, s.Files⟩,
        g.commitSet, g.commitAuthor⟩ := by
    simp [applyEvent, hk, bump_of_get _ _ _ _ hs]
  have hself := mapGet_mapSet_self g.statMap (auth c) ⟨s.Name, s.Lines + 1, s.Commits, s.Files⟩
  have hother := fun b (hb : b ≠ auth c) =>
    mapGet_mapSet_of_ne g.statMap (auth c) b ⟨s.Name, s.Lines + 1, s.Commits, s.Files⟩ hb
  refine ⟨_, happ, ⟨hnd, hca, ?_, ?_, ?_⟩, rfl, ?_, ?_, ?_⟩
  · intro c' hc'
    by_cases h : auth c' = auth c
    · rw [h]; exact ⟨_, hself⟩
    · show ∃ s', mapGet (mapSet _ _ _) _ = some s'
      rw [hother _ h]; exact hrec c' hc'
  · intro b
    rw [← hcnt b]
    by_cases h : b = auth c
    · subst h
      simp [commitsOf, hself, hs]
    · simp only [commitsOf]
      rw [hother b h]
  · intro b s' hs'
    by_cases h : b = auth c
    · subst h
      simp only [hself] at hs'
      cases hs'
      exact hname _ s hs
    · simp only [hother b h] at hs'
      exact hname b s' hs'
  · intro b
    by_cases h : b = auth c
    · subst h
      simp [linesOf, hself, hs]
    · have h' : ¬ auth c = b := fun e => h e.symm
      simp only [linesOf, h', if_false, Nat.add_zero]
      rw [hother b h]
  · intro b
    by_cases h : b = auth c
    · subst h
      simp [filesOf, hself, hs]
    · simp only [filesOf]
      rw [hother b h]
  · intro b
    by_cases h : b = auth c
    · subst h
      simp only [hself, hs]
      exact ⟨fun _ => ⟨_, rfl⟩, fun _ => ⟨_, rfl⟩⟩
    · simp only [hother b h]

/-! ## Order of the files (C3, C4) -/

theorem attributed_mono (auth : String → String) (es : List Event) (seen seen' : List String)
    (hsub : ∀ c ∈ seen, c ∈ seen') (h : attributed auth es seen = true) :
    attributed auth es seen' = true := by
  induction es generalizing seen seen' with
  | nil => rfl
  | cons e es ih =>
    cases e with
    | credit c =>
      simp only [attributed, Bool.and_eq_true, decide_eq_true_eq] at h ⊢
      exact ⟨hsub _ h.1, ih seen seen' hsub h.2⟩
    | claim a c nf =>
      simp only [attributed, Bool.and_eq_true, decide_eq_true_eq] at h ⊢
      refine ⟨h.1, ih (c :: seen) (c :: seen') ?_ h.2⟩
      intro x hx
      rcases List.mem_cons.1 hx with hx | hx
      · exact List.mem_cons.2 (Or.inl hx)
      · exact List.mem_cons.2 (Or.inr (hsub x hx))

/-- A sequence of updates that follows `auth` runs without error from maps whose
bookkeeping is in order, keeps the bookkeeping in order, and adds amounts that depend on
the sequence only. -/
theorem applyEvents_inv (auth : String → String) (es : List Event) (g : Agg)
    (seen : List String) (hinv : AggInv auth g) (hseen : ∀ c ∈ seen, c ∈ g.commitSet)
    (h : attributed auth es seen = true) :
    ∃ g', applyEvents es g = some g' ∧ AggInv auth g' ∧
      (∀ x, x ∈ g'.commitSet ↔ (x ∈ g.commitSet ∨ x ∈ claimedCommits es)) ∧
      (∀ b, linesOf g'.statMap b = linesOf g.statMap b + creditsFor auth b es) ∧
      (∀ b, filesOf g'.statMap b = filesOf g.statMap b + newFilesFor b es) ∧
      (∀ b, (∃ s, mapGet g'.statMap b = some s) ↔
        ((∃ s, mapGet g.statMap b = some s) ∨ b ∈ claimAuthors es)) := by
  induction es generalizing g seen with
  | nil =>
    exact ⟨g, rfl, hinv, by simp [claimedCommits], by simp [creditsFor],
      by simp [newFilesFor], by simp [claimAuthors]⟩
  | cons e es ih =>
    cases e with
    | credit c =>
      simp only [attributed, Bool.and_eq_true, decide_eq_true_eq] at h
      obtain ⟨g1, h1, hinv1, hcs1, hl1, hf1, hr1⟩ :=
        applyEvent_credit_inv auth g c hinv (hseen c h.1)
      obtain ⟨g', h2, hinv2, hcs2, hl2, hf2, hr2⟩ :=
        ih g1 seen hinv1 (by rw [hcs1]; exact hseen) h.2
      refine ⟨g', by simp [applyEvents, h1, h2], hinv2, ?_, ?_, ?_, ?_⟩
      · intro x
        rw [hcs2 x, hcs1]
        simp [claimedCommits]
      · intro b
        rw [hl2 b, hl1 b]
        simp only [creditsFor]
        omega
      · intro b
        rw [hf2 b, hf1 b]
        simp [newFilesFor]
      · intro b
        rw [hr2 b, hr1 b]
        simp [claimAuthors]
    | claim a c nf =>
      simp only [attributed, Bool.and_eq_true, decide_eq_true_eq] at h
      obtain ⟨g1, h1, hinv1, hcs1, hl1, hf1, hr1⟩ :=
        applyEvent_claim_inv auth g a c nf hinv h.1
      have hseen1 : ∀ x ∈ c :: seen, x ∈ g1.commitSet := by
        intro x hx
        rw [hcs1, mem_setAdd]
        rcases List.mem_cons.1 hx with hx | hx
        · exact Or.inl hx
        · exact Or.inr (hseen x hx)
      obtain ⟨g', h2, hinv2, hcs2, hl2, hf2, hr2⟩ := ih g1 (c :: seen) hinv1 hseen1 h.2
      refine ⟨g', by simp [applyEvents, h1, h2], hinv2, ?_, ?_, ?_, ?_⟩
      · intro x
        rw [hcs2 x, hcs1, mem_setAdd]
        simp only [claimedCommits, List.mem_cons]
        tauto
      · intro b
        rw [hl2 b, hl1 b]
        simp [creditsFor]
      · intro b
        rw [hf2 b, hf1 b]
        simp only [newFilesFor]
        omega
      · intro b
        rw [hr2 b, hr1 b]
        simp only [claimAuthors, List.mem_cons]
        tauto

theorem aggInv_init (auth : String → String) : AggInv auth Agg.init := by
  refine ⟨List.nodup_nil, ?_, ?_, ?_, ?_⟩
  · intro c hc; simp [Agg.init] at hc
  · intro c hc; simp [Agg.init] at hc
  · intro a; simp [Agg.init, commitsOf, mapGet]
  · intro a s hs; simp [Agg.init, mapGet] at hs

theorem processFile_inv (useCommitter : Bool) (auth : String → String) (g : Agg)
    (r : FileRecord) (hinv : AggInv auth g) (h : consistent useCommitter auth r = true) :
    ∃ g', processFile useCommitter g r = some g' ∧ AggInv auth g' ∧
      (∀ x, x ∈ g'.commitSet ↔
        (x ∈ g.commitSet ∨ x ∈ claimedCommits (eventsOf useCommitter r))) ∧
      (∀ b, linesOf g'.statMap b =
        linesOf g.statMap b + creditsFor auth b (eventsOf useCommitter r)) ∧
      (∀ b, filesOf g'.statMap b =
        filesOf g.statMap b + newFilesFor b (eventsOf useCommitter r)) ∧
      (∀ b, (∃ s, mapGet g'.statMap b = some s) ↔
        ((∃ s, mapGet g.statMap b = some s) ∨
          b ∈ claimAuthors (eventsOf useCommitter r))) := by
  unfold consistent at h
  cases hes : recordEvents useCommitter r with
  | none => simp [hes] at h
  | some es =>
    simp only [hes] at h
    have he : eventsOf useCommitter r = es := by simp [eventsOf, hes]
    rw [he, processFile_eq_applyEvents useCommitter g r es hes]
    exact applyEvents_inv auth es g [] hinv (by simp) h

theorem aggregateFrom_inv (useCommitter : Bool) (auth : String → String)
    (files : List FileRecord) (g : Agg) (hinv : AggInv auth g)
    (h : ∀ r ∈ files, consistent useCommitter auth r = true) :
    ∃ g', aggregateFrom useCommitter g files = some g' ∧ AggInv auth g' ∧
      (∀ x, x ∈ g'.commitSet ↔
        (x ∈ g.commitSet ∨ ∃ r ∈ files, x ∈ claimedCommits (eventsOf useCommitter r))) ∧
      (∀ b, linesOf g'.statMap b = linesOf g.statMap b +
        (files.map (fun r => creditsFor auth b (eventsOf useCommitter r))).sum) ∧
      (∀ b, filesOf g'.statMap b = filesOf g.statMap b +
        (files.map (fun r => newFilesFor b (eventsOf useCommitter r))).sum) ∧
      (∀ b, (∃ s, mapGet g'.statMap b = some s) ↔
        ((∃ s, mapGet g.statMap b = some s) ∨
          ∃ r ∈ files, b ∈ claimAuthors (eventsOf useCommitter r))) := by
  induction files generalizing g with
  | nil => exact ⟨g, rfl, hinv, by simp, by simp, by simp, by simp⟩
  | cons r rest ih =>
    obtain ⟨g1, h1, hinv1, hcs1, hl1, hf1, hr1⟩ :=
      processFile_inv useCommitter auth g r hinv (h r (List.mem_cons_self _ _))
    obtain ⟨g', h2, hinv2, hcs2, hl2, hf2, hr2⟩ :=
      ih g1 hinv1 (fun r' hr' => h r' (List.mem_cons_of_mem _ hr'))
    refine ⟨g', by simp [aggregateFrom, h1, h2], hinv2, ?_, ?_, ?_, ?_⟩
    · intro x
      rw [hcs2 x, hcs1 x]
      simp only [List.mem_cons, exists_eq_or_imp]
      tauto
    · intro b
      rw [hl2 b, hl1 b]
      simp only [List.map_cons, List.sum_cons]
      omega
    · intro b
      rw [hf2 b, hf1 b]
      simp only [List.map_cons, List.sum_cons]
      omega
    · intro b
      rw [hr2 b, hr1 b]
      simp only [List.mem_cons, exists_eq_or_imp]
      tauto

/-- Under the bookkeeping invariant a record is determined by its counts. -/
theorem mapGet_eq_of_counts (auth : String → String) (g1 g2 : Agg) (a : String)
    (h1 : AggInv auth g1) (h2 : AggInv auth g2)
    (hrec : (∃ s, mapGet g1.statMap a = some s) ↔ (∃ s, mapGet g2.statMap a = some s))
    (hl : linesOf g1.statMap a = linesOf g2.statMap a)
    (hc : commitsOf g1.statMap a = commitsOf g2.statMap a)
    (hf : filesOf g1.statMap a = filesOf g2.statMap a) :
    mapGet g1.statMap a = mapGet g2.statMap a := by
  cases e1 : mapGet g1.statMap a with
  | none =>
    cases e2 : mapGet g2.statMap a with
    | none => rfl
    | some s2 =>
      obtain ⟨s, hs⟩ := hrec.2 ⟨s2, e2⟩
      rw [e1] at hs
      cases hs
  | some s1 =>
    obtain ⟨s2, e2⟩ := hrec.1 ⟨s1, e1⟩
    rw [e2]
    have n1 := h1.2.2.2.2 a s1 e1
    have n2 := h2.2.2.2.2 a s2 e2
    simp only [linesOf, commitsOf, filesOf, e1, e2] at hl hc hf
    cases s1
    cases s2
    simp_all

/-- C3, the claim as written fails. With use-committer on, the blame record of `a.txt`
credits commit `3f2a9c1e` to its committer Carol while the log fallback of an empty file
added by the same commit credits its author Alice. Whichever file comes first takes the
commit, and the three lines of `a.txt` follow the commit: Carol has (3, 1, 1) and Alice
(0, 0, 1) in one order, Alice has (3, 1, 1) and Carol (0, 0, 1) in the other. With
use-committer off the same happens as soon as the two records spell the author of the
commit differently. -/
theorem aggregation_depends_on_order :
    ((aggregate true [fileAlice, fileEmptyAlice]).map
      (fun g => (mapGet g.statMap "Alice", mapGet g.statMap "Carol")) =
      some (some ⟨"Alice", 0, 0, 1⟩, some ⟨"Carol", 3, 1, 1⟩) ∧
    (aggregate true [fileEmptyAlice, fileAlice]).map
      (fun g => (mapGet g.statMap "Alice", mapGet g.statMap "Carol")) =
      some (some ⟨"Alice", 3, 1, 1⟩, some ⟨"Carol", 0, 0, 1⟩)) ∧
    ((aggregate false [fileAlice, fileEmptyUnmapped]).map
      (fun g => (mapGet g.statMap "Alice", mapGet g.statMap "alice")) =
      some (some ⟨"Alice", 3, 1, 1⟩, some ⟨"alice", 0, 0, 1⟩) ∧
    (aggregate false [fileEmptyUnmapped, fileAlice]).map
      (fun g => (mapGet g.statMap "Alice", mapGet g.statMap "alice")) =
      some (some ⟨"Alice", 0, 0, 1⟩, some ⟨"alice", 3, 1, 1⟩)) := by
  decide

/-- C3, amended: let the records follow one assignment `auth` of authors to commit
tokens, that is, every log record can be parsed, every `filename ` line and every
`Author: ` line is reached with the author assigned to its commit, and every content
line comes after a `filename ` line of its commit in the same record. Then, for a fixed
use-committer toggle, the aggregation loop succeeds for every order of the files and the
record it holds for an author (lines, commits, files), or the absence of one, is the same
for every order. -/
theorem aggregation_order_independent (useCommitter : Bool) (auth : String → String)
    (files files' : List FileRecord) (hperm : files.Perm files')
    (h : ∀ r ∈ files, consistent useCommitter auth r = true) :
    ∃ g g', aggregate useCommitter files = some g ∧
      aggregate useCommitter files' = some g' ∧
      ∀ a, mapGet g.statMap a = mapGet g'.statMap a := by
  have h' : ∀ r ∈ files', consistent useCommitter auth r = true :=
    fun r hr => h r (hperm.mem_iff.2 hr)
  obtain ⟨g, h1, hinv, hcs, hl, hf, hr⟩ :=
    aggregateFrom_inv useCommitter auth files Agg.init (aggInv_init auth) h
  obtain ⟨g', h1', hinv', hcs', hl', hf', hr'⟩ :=
    aggregateFrom_inv useCommitter auth files' Agg.init (aggInv_init auth) h'
  refine ⟨g, g', h1, h1', ?_⟩
  intro a
  apply mapGet_eq_of_counts auth g g' a hinv hinv'
  · rw [hr a, hr' a]
    constructor
    · rintro (h0 | ⟨r, hrm, hra⟩)
      · exact Or.inl h0
      · exact Or.inr ⟨r, hperm.mem_iff.1 hrm, hra⟩
    · rintro (h0 | ⟨r, hrm, hra⟩)
      · exact Or.inl h0
      · exact Or.inr ⟨r, hperm.mem_iff.2 hrm, hra⟩
  · rw [hl a, hl' a, (hperm.map _).sum_eq]
  · rw [hinv.2.2.2.1 a, hinv'.2.2.2.1 a]
    apply List.Perm.countP_eq
    rw [List.perm_ext_iff_of_nodup hinv.1 hinv'.1]
    intro x
    rw [hcs x, hcs' x]
    constructor
    · rintro (h0 | ⟨r, hrm, hra⟩)
      · exact Or.inl h0
      · exact Or.inr ⟨r, hperm.mem_iff.1 hrm, hra⟩
    · rintro (h0 | ⟨r, hrm, hra⟩)
      · exact Or.inl h0
      · exact Or.inr ⟨r, hperm.mem_iff.2 hrm, hra⟩
  · rw [hf a, hf' a, (hperm.map _).sum_eq]

/-- C3, amended, at the two files of the scenario and their two orders. -/
theorem aggregation_order_independent_witness :
    [fileAlice, fileBob].Perm [fileBob, fileAlice] ∧
    (∀ r ∈ [fileAlice, fileBob], consistent false sampleAuthors r = true) ∧
    ∃ g g', aggregate false [fileAlice, fileBob] = some g ∧
      aggregate false [fileBob, fileAlice] = some g' ∧
      ∀ a, mapGet g.statMap a = mapGet g'.statMap a :=
  ⟨List.Perm.swap _ _ _, by decide,
    aggregation_order_independent false sampleAuthors [fileAlice, fileBob]
      [fileBob, fileAlice] (List.Perm.swap _ _ _) (by decide)⟩


/-! ## Ranking of the aggregated records (C7) -/

/-- C7: for each of the metric selectors `lines`, `commits` and `files`, and for every
order in which the entries of the aggregated map fill the slice, ranking succeeds and
the ranked sequence is a permutation of the aggregated author records in which every
record precedes every later record under the key of the specification: selected metric
descending, then the two fixed secondary counts descending, then the name ascending. -/
theorem rank_sorted_permutation (useCommitter : Bool) (files : List FileRecord) (g : Agg)
    (order : String) (slice : List Statistic)
    (hagg : aggregate useCommitter files = some g)
    (hslice : slice.Perm (statsSlice g.statMap))
    (horder : order = "lines" ∨ order = "commits" ∨ order = "files") :
    ∃ ranked, rank order slice = some ranked ∧ ranked.Perm (statsSlice g.statMap) ∧
      ranked.Pairwise (precedesBy order) := by
  obtain ⟨ranked, h1, h2, h3⟩ := rank_sorted_of_distinct_names order slice horder
    (aggregate_names_nodup useCommitter files g hagg slice hslice)
  exact ⟨ranked, h1, h2.trans hslice, h3⟩

/-- C7 at the two files of the scenario, ranked by commits from the reversed slice. -/
theorem rank_sorted_permutation_witness :
    aggregate false [fileAlice, fileBob] =
      some ⟨[("Alice", ⟨"Alice", 3, 1, 1⟩), ("Bob", ⟨"Bob", 0, 1, 1⟩)],
        ["7b1d4e88", "3f2a9c1e"], [("3f2a9c1e", "Alice"), ("7b1d4e88", "Bob")]⟩ ∧
    ([⟨"Bob", 0, 1, 1⟩, ⟨"Alice", 3, 1, 1⟩] : List Statistic).Perm
      (statsSlice [("Alice", ⟨"Alice", 3, 1, 1⟩), ("Bob", ⟨"Bob", 0, 1, 1⟩)]) ∧
    ("commits" = "lines" ∨ "commits" = "commits" ∨ "commits" = "files") ∧
    ∃ ranked, rank "commits" [⟨"Bob", 0, 1, 1⟩, ⟨"Alice", 3, 1, 1⟩] = some ranked ∧
      ranked.Perm (statsSlice [("Alice", ⟨"Alice", 3, 1, 1⟩), ("Bob", ⟨"Bob", 0, 1, 1⟩)]) ∧
      ranked.Pairwise (precedesBy "commits") :=
  ⟨by decide, List.Perm.swap _ _ _, by decide,
    rank_sorted_permutation false [fileAlice, fileBob]
      ⟨[("Alice", ⟨"Alice", 3, 1, 1⟩), ("Bob", ⟨"Bob", 0, 1, 1⟩)],
        ["7b1d4e88", "3f2a9c1e"], [("3f2a9c1e", "Alice"), ("7b1d4e88", "Bob")]⟩
      "commits" [⟨"Bob", 0, 1, 1⟩, ⟨"Alice", 3, 1, 1⟩]
      (by decide) (List.Perm.swap _ _ _) (by decide)⟩

/-! ## The scenario of two files (C4) -/

theorem scanRegistry_none_iff (ToLower : String → String) (fileExtension language : String)
    (reg : List Lang) (known : Nat) :
    scanRegistry ToLower fileExtension language reg known = none ↔
      ∃ l ∈ reg, languageMatches ToLower language l ∧ fileExtension ∈ l.Extensions := by
  induction reg generalizing known with
  | nil => simp [scanRegistry]
  | cons l rest ih =>
    unfold scanRegistry
    by_cases hm : language = ToLower l.Name
    · by_cases he : fileExtension ∈ l.Extensions
      · have hany : l.Extensions.any (fun ext => decide (fileExtension = ext)) = true := by
          rw [List.any_eq_true]
          exact ⟨fileExtension, he, by simp⟩
        rw [if_pos hm, if_pos hany]
        constructor
        · intro _
          exact ⟨l, List.mem_cons_self _ _, hm, he⟩
        · intro _; trivial
      · have hany : l.Extensions.any (fun ext => decide (fileExtension = ext)) = false := by
          rw [List.any_eq_false]
          intro x hx
          simp only [decide_eq_true_eq]
          intro hxe
          exact he (hxe ▸ hx)
        have hany' : ¬ (l.Extensions.any (fun ext => decide (fileExtension = ext)) = true) := by
          simp [hany]
        rw [if_pos hm, if_neg hany', ih]
        constructor
        · rintro ⟨l', hl', h1, h2⟩
          exact ⟨l', List.mem_cons_of_mem _ hl', h1, h2⟩
        · rintro ⟨l', hl', h1, h2⟩
          rcases List.mem_cons.1 hl' with e | hl'
          · subst e; exact absurd h2 he
          · exact ⟨l', hl', h1, h2⟩
    · rw [if_neg hm, ih]
      constructor
      · rintro ⟨l', hl', h1, h2⟩
        exact ⟨l', List.mem_cons_of_mem _ hl', h1, h2⟩
      · rintro ⟨l', hl', h1, h2⟩
        rcases List.mem_cons.1 hl' with e | hl'
        · subst e; exact absurd h1 hm
        · exact ⟨l', hl', h1, h2⟩

theorem scanRegistry_some (ToLower : String → String) (fileExtension language : String)
    (reg : List Lang) (known known' : Nat)
    (h : scanRegistry ToLower fileExtension language reg known = some known') :
    known ≤ known' ∧ ((∃ l ∈ reg, languageMatches ToLower language l) → known < known') := by
  induction reg generalizing known with
  | nil =>
    simp [scanRegistry] at h
    subst h
    simp
  | cons l rest ih =>
    unfold scanRegistry at h
    by_cases hm : language = ToLower l.Name
    · rw [if_pos hm] at h
      split at h
      · cases h
      · obtain ⟨h1, _⟩ := ih (known + 1) h
        exact ⟨by omega, fun _ => by omega⟩
    · rw [if_neg hm] at h
      obtain ⟨h1, h2⟩ := ih known h
      refine ⟨h1, ?_⟩
      rintro ⟨l', hl', hl''⟩
      rcases List.mem_cons.1 hl' with e | hl'
      · subst e; exact absurd hl'' hm
      · exact h2 ⟨l', hl', hl''⟩

theorem scanLanguages_none_iff (ToLower : String → String) (fileExtension : String)
    (reg : List Lang) (langs : List String) (known : Nat) :
    scanLanguages ToLower fileExtension reg langs known = none ↔
      ∃ language ∈ langs, ∃ l ∈ reg,
        languageMatches ToLower language l ∧ fileExtension ∈ l.Extensions := by
  induction langs generalizing known with
  | nil => simp [scanLanguages]
  | cons language rest ih =>
    unfold scanLanguages
    cases hs : scanRegistry ToLower fileExtension language reg known with
    | none =>
      simp only [true_iff]
      exact ⟨language, List.mem_cons_self _ _, (scanRegistry_none_iff _ _ _ _ _).1 hs⟩
    | some k =>
      simp only [ih]
      constructor
      · rintro ⟨la, hla, h⟩
        exact ⟨la, List.mem_cons_of_mem _ hla, h⟩
      · rintro ⟨la, hla, h⟩
        rcases List.mem_cons.1 hla with e | hla
        · subst e
          have := (scanRegistry_none_iff ToLower fileExtension la reg known).2 h
          rw [hs] at this
          cases this
        · exact ⟨la, hla, h⟩

theorem scanLanguages_some (ToLower : String → String) (fileExtension : String)
    (reg : List Lang) (langs : List String) (known known' : Nat)
    (h : scanLanguages ToLower fileExtension reg langs known = some known') :
    known ≤ known' ∧
      ((∃ language ∈ langs, ∃ l ∈ reg, languageMatches ToLower language l) → known < known') := by
  induction langs generalizing known with
  | nil =>
    simp [scanLanguages] at h
    subst h
    simp
  | cons language rest ih =>
    unfold scanLanguages at h
    cases hs : scanRegistry ToLower fileExtension language reg known with
    | none => simp [hs] at h
    | some k =>
      simp only [hs] at h
      obtain ⟨h1, h2⟩ := scanRegistry_some _ _ _ _ _ _ hs
      obtain ⟨h3, h4⟩ := ih k h
      refine ⟨by omega, ?_⟩
      rintro ⟨la, hla, hm⟩
      rcases List.mem_cons.1 hla with e | hla
      · subst e
        have := h2 hm
        omega
      · have := h4 ⟨la, hla, hm⟩
        omega

/-- When at least one requested name equals the lower-cased name of a registry language
(the comparison of line 66), `goodLanguage` returns true if and only if the extension of
the file is an element of the extension list of a language that a requested name equals
in this way. -/
theorem goodLanguage_exact_match (ToLower : String → String) (file : String)
    (langs : List String) (reg : List Lang)
    (hmatch : ∃ language ∈ langs, ∃ l ∈ reg, languageMatches ToLower language l) :
    goodLanguage ToLower file (some langs) reg = true ↔
      ∃ language ∈ langs, ∃ l ∈ reg,
        languageMatches ToLower language l ∧ Ext file ∈ l.Extensions := by
  cases hs : scanLanguages ToLower (Ext file) reg langs 0 with
  | none =>
    simp only [goodLanguage, hs, true_iff]
    exact (scanLanguages_none_iff _ _ _ _ _).1 hs
  | some k =>
    have hk := (scanLanguages_some _ _ _ _ _ _ hs).2 hmatch
    have hnone : ¬ scanLanguages ToLower (Ext file) reg langs 0 = none := by simp [hs]
    rw [scanLanguages_none_iff] at hnone
    simp only [goodLanguage, hs]
    constructor
    · intro h
      simp at h
      omega
    · intro h
      exact absurd h hnone

/-- C11 fails on the code, by the defect of C9: the requested name `Go` names the
registry language `Go`, whose only extension is `.go`, and the file `b.py` has the
extension `.py`, which is in the extension list of no requested language; the claim asks
for false. For every lower-casing function that sends `Go` to `go`, as `strings.ToLower`
does, line 66 compares `Go` with `go`, no language counts as known and `goodLanguage`
returns true. -/
theorem goodLanguage_matched_name_fails_open (ToLower : String → String)
    (hlower : ToLower "Go" = "go") :
    ("Go" ∈ ["Go"] ∧ (⟨"Go", "programming", [".go"]⟩ : Lang).Name = "Go") ∧
    (∀ l ∈ [(⟨"Go", "programming", [".go"]⟩ : Lang)], Ext "b.py" ∉ l.Extensions) ∧
    goodLanguage ToLower "b.py" (some ["Go"]) [⟨"Go", "programming", [".go"]⟩] = true ∧
    goodLanguage ToLower "b.py" (some ["go"]) [⟨"Go", "programming", [".go"]⟩] = false := by
  have hext : Ext "b.py" = ".py" := by decide
  have h1 : ¬ ("Go" = "go") := by decide
  have h2 : ¬ (".py" = ".go") := by decide
  refine ⟨⟨by decide, rfl⟩, by decide, ?_, ?_⟩
  · simp [goodLanguage, scanLanguages, scanRegistry, hlower, hext, h1]
  · simp [goodLanguage, scanLanguages, scanRegistry, hlower, hext, h2]

/-- C11 with the letters `A` to `Z` lower-cased. -/
theorem goodLanguage_matched_name_fails_open_witness :
    asciiLower "Go" = "go" ∧
    (("Go" ∈ ["Go"] ∧ (⟨"Go", "programming", [".go"]⟩ : Lang).Name = "Go") ∧
    (∀ l ∈ [(⟨"Go", "programming", [".go"]⟩ : Lang)], Ext "b.py" ∉ l.Extensions) ∧
    goodLanguage asciiLower "b.py" (some ["Go"]) [⟨"Go", "programming", [".go"]⟩] = true ∧
    goodLanguage asciiLower "b.py" (some ["go"]) [⟨"Go", "programming", [".go"]⟩] = false) :=
  ⟨by decide, goodLanguage_matched_name_fails_open asciiLower (by decide)⟩

/-! ## Extension, pattern and composed filters (C12, C13, C14) -/

theorem extScan_append (ys rest acc : List Char) (h1 : '.' ∉ ys) (h2 : '/' ∉ ys) :
    extScan (ys ++ rest) acc = extScan rest (ys.reverse ++ acc) := by
  induction ys generalizing acc with
  | nil => rfl
  | cons y ys ih =>
    have hy1 : y ≠ '.' := fun e => h1 (e ▸ List.mem_cons_self _ _)
    have hy2 : y ≠ '/' := fun e => h2 (e ▸ List.mem_cons_self _ _)
    have h1' : '.' ∉ ys := fun h => h1 (List.mem_cons_of_mem _ h)
    have h2' : '/' ∉ ys := fun h => h2 (List.mem_cons_of_mem _ h)
    have hstep : extScan (y :: (ys ++ rest)) acc = extScan (ys ++ rest) (y :: acc) := by
      simp [extScan, hy1, hy2]
    rw [List.cons_append, hstep, ih _ h1' h2']
    simp

/-- The model of `filepath.Ext` returns the suffix that starts at the last dot of the last
path element. -/
theorem Ext_of_dot (front suf : List Char) (h1 : '.' ∉ suf) (h2 : '/' ∉ suf) :
    Ext ⟨front ++ '.' :: suf⟩ = ⟨'.' :: suf⟩ := by
  have hr : (front ++ '.' :: suf).reverse = suf.reverse ++ '.' :: front.reverse := by simp
  have h1' : '.' ∉ suf.reverse := by simpa using h1
  have h2' : '/' ∉ suf.reverse := by simpa using h2
  simp only [Ext, hr, extScan_append _ _ _ h1' h2', List.reverse_reverse, List.append_nil]
  simp [extScan]

/-- The model of `filepath.Ext` returns the empty string when the last path element has no
dot. -/
theorem Ext_of_no_dot (dir base : List Char) (h1 : '.' ∉ base) (h2 : '/' ∉ base)
    (hdir : dir = [] ∨ ∃ d, dir = d ++ ['/']) : Ext ⟨dir ++ base⟩ = "" := by
  have h1' : '.' ∉ base.reverse := by simpa using h1
  have h2' : '/' ∉ base.reverse := by simpa using h2
  have hr : (dir ++ base).reverse = base.reverse ++ dir.reverse := by simp
  simp only [Ext, hr, extScan_append _ _ _ h1' h2']
  rcases hdir with h | ⟨d, h⟩
  · subst h; rfl
  · subst h
    simp [extScan]

theorem splitAux_cons_ne_nil (sep : Char) (cs cur : List Char) :
    ∃ x xs, splitAux sep cs cur = x :: xs := by
  cases h : splitAux sep cs cur with
  | nil => exact absurd h (splitAux_ne_nil _ _ _)
  | cons x xs => exact ⟨x, xs, rfl⟩

/-- The slice `main` builds from a flag is nil or has at least one element: the filters
never receive an empty slice that is not nil. -/
theorem flagList_shape (flag : String) :
    (flag = "" ∧ flagList flag = none) ∨ ∃ x xs, flagList flag = some (x :: xs) := by
  unfold flagList
  by_cases h : flag = ""
  · left; simp [h]
  · right
    obtain ⟨x, xs, hx⟩ := splitAux_cons_ne_nil ',' flag.data []
    exact ⟨String.mk x, xs.map String.mk, by simp [h, Split, hx]⟩

theorem any_matched_iff (Match : String → String → Option Bool) (file : String)
    (patterns : List String) :
    patterns.any (fun pattern => matched Match pattern file) = true ↔
      ∃ pattern ∈ patterns, Match pattern file = some true := by
  simp only [List.any_eq_true, matched]
  constructor
  · rintro ⟨p, hp, h⟩
    refine ⟨p, hp, ?_⟩
    cases hm : Match p file with
    | none => simp [hm] at h
    | some b =>
      simp [hm] at h
      rw [h]
  · rintro ⟨p, hp, h⟩
    exact ⟨p, hp, by simp [h]⟩

/-- C13, the claim as written fails: on an empty set that is not nil `goodPattern` returns
false, since only the nil slice is tested before the loop. -/
theorem goodPattern_empty_set :
    goodPattern literalMatch "a.go" (some []) = false ∧
    goodPattern literalMatch "a.go" none = true := by
  decide

/-- C13, amended: for every file path and whatever `filepath.Match` computes,
`goodPattern` returns true when the set of allowed patterns is unset (nil); for every set
that is not nil, empty or not, it returns true if and only if `filepath.Match` reports a
match of the path for at least one pattern of the set, a malformed pattern counting as no
match, so that the empty set that is not nil rejects the path; the set `main` builds
from the flag is nil or has an element. -/
theorem goodPattern_spec (Match : String → String → Option Bool) (file : String) :
    goodPattern Match file none = true ∧
    (∀ patterns, goodPattern Match file (some patterns) = true ↔
      ∃ pattern ∈ patterns, Match pattern file = some true) ∧
    goodPattern Match file (some []) = false ∧
    (∀ flag, (flag = "" ∧ flagList flag = none) ∨ ∃ x xs, flagList flag = some (x :: xs)) :=
  ⟨rfl, any_matched_iff Match file, rfl, flagList_shape⟩

theorem filter_sublist_of_imp (p q : String → Bool) (files : List String)
    (h : ∀ f, p f = true → q f = true) : (files.filter p).Sublist (files.filter q) := by
  induction files with
  | nil => exact List.Sublist.refl _
  | cons f rest ih =>
    by_cases hp : p f = true
    · simp only [List.filter_cons, hp, h f hp, if_true]
      exact ih.cons₂ f
    · by_cases hq : q f = true
      · simp only [List.filter_cons, hp, hq, if_true, if_false]
        exact ih.cons f
      · simp only [List.filter_cons, hp, hq, if_false]
        exact ih

/-- C14: for every file list, every choice of the four filter sets, every registry and
whatever `filepath.Match` computes, replacing one of the four sets by unset (nil) gives a
candidate list of which the original candidate list is a sublist: every file that was
selected stays selected, in the same order. -/
theorem goodFiles_grow (Match : String → String → Option Bool)
    (ToLower : String → String) (files : List String)
    (extensions languages forbiddenPatterns allowedPatterns : Option (List String))
    (languageExtensions : List Lang) :
    (goodFiles Match ToLower files extensions languages forbiddenPatterns allowedPatterns
        languageExtensions).Sublist
      (goodFiles Match ToLower files none languages forbiddenPatterns allowedPatterns
        languageExtensions) ∧
    (goodFiles Match ToLower files extensions languages forbiddenPatterns allowedPatterns
        languageExtensions).Sublist
      (goodFiles Match ToLower files extensions none forbiddenPatterns allowedPatterns
        languageExtensions) ∧
    (goodFiles Match ToLower files extensions languages forbiddenPatterns allowedPatterns
        languageExtensions).Sublist
      (goodFiles Match ToLower files extensions languages none allowedPatterns
        languageExtensions) ∧
    (goodFiles Match ToLower files extensions languages forbiddenPatterns allowedPatterns
        languageExtensions).Sublist
      (goodFiles Match ToLower files extensions languages forbiddenPatterns none
        languageExtensions) := by
  refine ⟨?_, ?_, ?_, ?_⟩ <;>
  · apply filter_sublist_of_imp
    intro f hf
    simp only [Bool.and_eq_true, Bool.not_eq_true', goodExtension, goodLanguage,
      forbiddenPattern, goodPattern] at hf ⊢
    simp [hf.1.1.1, hf.1.1.2, hf.1.2, hf.2]

/-! ## Parsing of the log record (C15) -/

theorem splitAux_no_sep (sep : Char) (cs cur : List Char) (h : sep ∉ cs) :
    splitAux sep cs cur = [cur.reverse ++ cs] := by
  induction cs generalizing cur with
  | nil => simp [splitAux]
  | cons c cs ih =>
    have hc : c ≠ sep := fun e => h (e ▸ List.mem_cons_self _ _)
    have h' : sep ∉ cs := fun hm => h (List.mem_cons_of_mem _ hm)
    simp [splitAux, hc, ih _ h']

theorem lastIndexAux_not_mem (c : Char) (l : List Char) (i : Nat) (last : Int)
    (h : c ∉ l) : lastIndexAux c l i last = last := by
  induction l generalizing i last with
  | nil => rfl
  | cons d ds ih =>
    have hd : d ≠ c := fun e => h (e ▸ List.mem_cons_self _ _)
    have h' : c ∉ ds := fun hm => h (List.mem_cons_of_mem _ hm)
    simp [lastIndexAux, hd, ih _ _ h']

theorem lastIndexAux_last (c : Char) (xs ys : List Char) (i : Nat) (last : Int)
    (h : c ∉ ys) : lastIndexAux c (xs ++ c :: ys) i last = ((i + xs.length : Nat) : Int) := by
  induction xs generalizing i last with
  | nil => simp [lastIndexAux, lastIndexAux_not_mem _ _ _ _ h]
  | cons x xs ih =>
    show lastIndexAux c (xs ++ c :: ys) (i + 1) (if x = c then (i : Int) else last) = _
    rw [ih]
    simp only [List.length_cons]
    congr 1
    omega

/-- The commit token of a line `commit T`, for a token without spaces. -/
theorem commitAfter_commit_line (T commit : String) (hT : ' ' ∉ T.data) :
    commitAfter ("commit " ++ T) commit = some T := by
  have hp : HasPrefix ("commit " ++ T) "commit " = true := by
    rw [hasPrefix_iff]
    exact ⟨T.data, by simp [String.data_append]⟩
  have hs : splitAux ' ' ("commit " ++ T).data [] = "commit".data :: splitAux ' ' T.data [] := by
    rw [String.data_append]
    rfl
  unfold commitAfter
  rw [if_pos hp]
  unfold Split
  rw [hs, splitAux_no_sep _ _ _ hT]
  rfl

/-- The author of a line `Author: N <E>`, for an address without `<`. -/
theorem logAuthor_author_line (N E : String) (hE : '<' ∉ E.data) :
    logAuthor ("Author: " ++ N ++ " <" ++ E ++ ">") = some N := by
  have hd : ("Author: " ++ N ++ " <" ++ E ++ ">").data =
      "Author: ".data ++ ((N.data ++ [' ']) ++ '<' :: (E.data ++ ['>'])) := by
    simp only [String.data_append]
    simp
  have hp : HasPrefix ("Author: " ++ N ++ " <" ++ E ++ ">") "Author: " = true := by
    rw [hasPrefix_iff]
    exact ⟨_, hd⟩
  have ht : (TrimPrefix ("Author: " ++ N ++ " <" ++ E ++ ">") "Author: ").data =
      (N.data ++ [' ']) ++ '<' :: (E.data ++ ['>']) := by
    simp only [TrimPrefix, hp, if_true, hd]
    exact List.drop_left' rfl
  have hE' : '<' ∉ E.data ++ ['>'] := by
    simp only [List.mem_append, List.mem_singleton, not_or]
    exact ⟨hE, by decide⟩
  have hi : LastIndex (TrimPrefix ("Author: " ++ N ++ " <" ++ E ++ ">") "Author: ") '<' =
      ((N.data.length + 1 : Nat) : Int) := by
    unfold LastIndex
    rw [ht, lastIndexAux_last _ _ _ _ _ hE']
    simp
  unfold logAuthor sliceTo
  simp only [hi, ht]
  have h1 : ((N.data.length + 1 : Nat) : Int) - 1 = (N.data.length : Int) := by
    push_cast
    omega
  rw [h1]
  have h2 : (0 : Int) ≤ (N.data.length : Int) ∧
      (N.data.length : Int) ≤ (((N.data ++ [' ']) ++ '<' :: (E.data ++ ['>'])).length : Int) := by
    constructor
    · omega
    · simp only [List.length_append, List.length_cons, List.length_nil]
      push_cast
      omega
  rw [if_pos h2]
  simp [List.take_append_of_le_length]

/-- C15: for every commit token `T` without spaces, every display name `N`, with or
without spaces and `<`, and every address `E` without `<`, the log fallback on the lines
`commit T` and `Author: N <E>` reads the commit token `T` and the author `N` and runs to
its end without a run-time error: it performs the `Author: ` block for `N` and `T`. -/
theorem log_lines_parse (T N E : String) (g : Agg) (hT : ' ' ∉ T.data)
    (hE : '<' ∉ E.data) :
    commitAfter ("commit " ++ T) "" = some T ∧
    logAuthor ("Author: " ++ N ++ " <" ++ E ++ ">") = some N ∧
    logEvents ["commit " ++ T, "Author: " ++ N ++ " <" ++ E ++ ">"] "" =
      some [Event.claim N T true] ∧
    ∃ g', logUpdate g T N = some g' ∧
      logLoop ["commit " ++ T, "Author: " ++ N ++ " <" ++ E ++ ">"] g "" = some (g', T) := by
  have h1 := commitAfter_commit_line T "" hT
  have h2 := logAuthor_author_line N E hE
  have hp : HasPrefix ("Author: " ++ N ++ " <" ++ E ++ ">") "Author: " = true := by
    rw [hasPrefix_iff]
    exact ⟨N.data ++ " <".data ++ E.data ++ ">".data, by simp [String.data_append]⟩
  have hc : HasPrefix ("commit " ++ T) "Author: " = false := by
    unfold HasPrefix
    rw [String.data_append]
    rfl
  have h3 : commitAfter ("Author: " ++ N ++ " <" ++ E ++ ">") T = some T := by
    simp [commitAfter, author_line_not_commit _ hp]
  obtain ⟨g', hg', _⟩ := logUpdate_spec g T N
  refine ⟨h1, h2, ?_, g', hg', ?_⟩
  · simp [logEvents, h1, h2, h3, hp, hc]
  · simp [logLoop, logLine, h1, h2, h3, hp, hc, hg']

/-- C15 at a display name with a space and a `<`. -/
theorem log_lines_parse_witness :
    ' ' ∉ "7b1d4e88".data ∧ '<' ∉ "bob@example.com".data ∧
    (commitAfter ("commit " ++ "7b1d4e88") "" = some "7b1d4e88" ∧
    logAuthor ("Author: " ++ "Bob <the builder" ++ " <" ++ "bob@example.com" ++ ">") =
      some "Bob <the builder" ∧
    logEvents ["commit " ++ "7b1d4e88",
        "Author: " ++ "Bob <the builder" ++ " <" ++ "bob@example.com" ++ ">"] "" =
      some [Event.claim "Bob <the builder" "7b1d4e88" true] ∧
    ∃ g', logUpdate Agg.init "7b1d4e88" "Bob <the builder" = some g' ∧
      logLoop ["commit " ++ "7b1d4e88",
        "Author: " ++ "Bob <the builder" ++ " <" ++ "bob@example.com" ++ ">"] Agg.init "" =
        some (g', "7b1d4e88")) :=
  ⟨by decide, by decide,
    log_lines_parse "7b1d4e88" "Bob <the builder" "bob@example.com" Agg.init
      (by decide) (by decide)⟩

/-! ## The commit cursor (C17) -/

theorem splitAux_head (sep : Char) (cs cur : List Char) :
    (splitAux sep cs cur)[0]? = some (cur.reverse ++ cs.takeWhile (fun c => decide (c ≠ sep))) := by
  induction cs generalizing cur with
  | nil => simp [splitAux]
  | cons c cs ih =>
    by_cases hc : c = sep
    · simp [splitAux, hc]
    · simp [splitAux, hc, ih]

/-- The first space-delimited token of a line is its longest prefix without a space. -/
theorem first_token_eq (line : String) :
    (Split line ' ')[0]? = some ⟨line.data.takeWhile (fun c => decide (c ≠ ' '))⟩ := by
  unfold Split
  rw [List.getElem?_map, splitAux_head]
  rfl

/-- A line that starts with one of the six keywords has a first token with a character
that is no hexadecimal digit. -/
theorem keyword_token_not_hex (line : String) (h : startsWithKeyword line = true) :
    ∃ c ∈ line.data.takeWhile (fun c => decide (c ≠ ' ')), isHexDigit c = false := by
  unfold startsWithKeyword at h
  simp only [Bool.or_eq_true] at h
  rcases h with ((((h | h) | h) | h) | h) | h <;>
    obtain ⟨t, ht⟩ := (hasPrefix_iff _ _).1 h <;> rw [ht]
  · exact ⟨'u', by simp [List.takeWhile], by decide⟩
  · exact ⟨'o', by simp [List.takeWhile], by decide⟩
  · exact ⟨'s', by simp [List.takeWhile], by decide⟩
  · exact ⟨'o', by simp [List.takeWhile], by decide⟩
  · exact ⟨'i', by simp [List.takeWhile], by decide⟩
  · exact ⟨'p', by simp [List.takeWhile], by decide⟩

theorem keyword_of_longer (line : String) :
    (HasPrefix line "author " = true → HasPrefix line "author" = true) ∧
    (HasPrefix line "committer " = true → HasPrefix line "committer" = true) ∧
    (HasPrefix line "filename " = true → HasPrefix line "filename" = true) := by
  refine ⟨?_, ?_, ?_⟩ <;>
  · intro h
    obtain ⟨t, ht⟩ := (hasPrefix_iff _ _).1 h
    unfold HasPrefix
    rw [ht]
    rfl

theorem keyword_not_tab (line : String) (h : startsWithKeyword line = true) :
    HasPrefix line "\t" = false := by
  unfold startsWithKeyword at h
  simp only [Bool.or_eq_true] at h
  rcases h with ((((h | h) | h) | h) | h) | h <;>
    obtain ⟨t, ht⟩ := (hasPrefix_iff _ _).1 h <;>
    · unfold HasPrefix
      rw [ht]
      rfl

theorem cursorAfter_eq (line lastCommit : String) :
    cursorAfter line lastCommit =
      if startsWithKeyword line = true then some lastCommit else (Split line ' ')[0]? := by
  unfold cursorAfter startsWithKeyword
  cases HasPrefix line "author" <;> cases HasPrefix line "committer" <;>
    cases HasPrefix line "summary" <;> cases HasPrefix line "boundary" <;>
    cases HasPrefix line "filename" <;> cases HasPrefix line "previous" <;> rfl

/-- C17: a line of a blame record whose first space-delimited token is a non-empty string
of hexadecimal digits is no content line and starts with none of the six keywords, so
that the commit cursor becomes exactly that token, while the current author and the three
maps stay as they are; and a line that starts with `author`, `committer`, `summary`,
`boundary`, `filename` or `previous` (so also `author-mail`, `author-time`,
`committer-tz`) is processed without error and leaves the commit cursor unchanged. -/
theorem commit_cursor_update (useCommitter : Bool) (header keyLine token : String)
    (g : Agg) (v : FileVars)
    (htoken : (Split header ' ')[0]? = some token) (hne : token ≠ "")
    (hhex : ∀ c ∈ token.data, isHexDigit c = true)
    (hkey : startsWithKeyword keyLine = true) :
    (HasPrefix header "\t" = false ∧ startsWithKeyword header = false ∧
      cursorAfter header v.lastCommit = some token ∧
      blameLine useCommitter header g v = some (g, ⟨v.author, v.authorSet, token⟩)) ∧
    (HasPrefix keyLine "\t" = false ∧
      cursorAfter keyLine v.lastCommit = some v.lastCommit ∧
      ∃ g' v', blameLine useCommitter keyLine g v = some (g', v') ∧
        v'.lastCommit = v.lastCommit) := by
  constructor
  · have htok : token.data = header.data.takeWhile (fun c => decide (c ≠ ' ')) := by
      rw [first_token_eq] at htoken
      cases htoken
      rfl
    have hk : startsWithKeyword header = false := by
      cases hk : startsWithKeyword header with
      | false => rfl
      | true =>
        obtain ⟨c, hc, hx⟩ := keyword_token_not_hex header hk
        rw [← htok] at hc
        rw [hhex c hc] at hx
        cases hx
    have htab : HasPrefix header "\t" = false := by
      cases ht : HasPrefix header "\t" with
      | false => rfl
      | true =>
        obtain ⟨t, ht'⟩ := (hasPrefix_iff _ _).1 ht
        rw [ht'] at htok
        have hmem : '\t' ∈ token.data := by
          rw [htok]
          simp [List.takeWhile]
        have hx := hhex '\t' hmem
        revert hx
        decide
    have hcur : cursorAfter header v.lastCommit = some token := by
      rw [cursorAfter_eq, hk]
      simpa using htoken
    obtain ⟨k1, k2, k3⟩ := keyword_of_longer header
    have hparts : HasPrefix header "author" = false ∧ HasPrefix header "committer" = false ∧
        HasPrefix header "filename" = false := by
      unfold startsWithKeyword at hk
      simp only [Bool.or_eq_false_iff] at hk
      exact ⟨hk.1.1.1.1.1, hk.1.1.1.1.2, hk.1.2⟩
    have ha : HasPrefix header "author " = false := by
      cases h : HasPrefix header "author " with
      | false => rfl
      | true => rw [k1 h] at hparts; exact absurd hparts.1 (by simp)
    have hc : HasPrefix header "committer " = false := by
      cases h : HasPrefix header "committer " with
      | false => rfl
      | true => rw [k2 h] at hparts; exact absurd hparts.2.1 (by simp)
    have hf : HasPrefix header "filename " = false := by
      cases h : HasPrefix header "filename " with
      | false => rfl
      | true => rw [k3 h] at hparts; exact absurd hparts.2.2 (by simp)
    refine ⟨htab, hk, hcur, ?_⟩
    simp [blameLine, htab, hcur, hf, authorAfter, ha, hc]
  · have htab := keyword_not_tab keyLine hkey
    have hcur : cursorAfter keyLine v.lastCommit = some v.lastCommit := by
      rw [cursorAfter_eq, hkey]
      rfl
    refine ⟨htab, hcur, ?_⟩
    by_cases hf : HasPrefix keyLine "filename " = true
    · obtain ⟨g', h1, _⟩ := filenameUpdate_spec g v
      exact ⟨g', ⟨v.author, setAdd v.authorSet v.author, v.lastCommit⟩,
        by rw [blameLine_filename _ _ _ _ hf]; exact h1, rfl⟩
    · have hf' : HasPrefix keyLine "filename " = false := by simpa using hf
      exact ⟨g, ⟨authorAfter useCommitter keyLine v.author, v.authorSet, v.lastCommit⟩,
        by simp [blameLine, htab, hcur, hf'], rfl⟩

/-- C17 at a commit header of porcelain blame and at an `author-mail` line. -/
theorem commit_cursor_update_witness :
    (Split "3f2a9c1e 1 1 3" ' ')[0]? = some "3f2a9c1e" ∧ "3f2a9c1e" ≠ "" ∧
    (∀ c ∈ "3f2a9c1e".data, isHexDigit c = true) ∧
    startsWithKeyword "author-mail <alice@example.com>" = true ∧
    ((HasPrefix "3f2a9c1e 1 1 3" "\t" = false ∧
      startsWithKeyword "3f2a9c1e 1 1 3" = false ∧
      cursorAfter "3f2a9c1e 1 1 3" varsMixed.lastCommit = some "3f2a9c1e" ∧
      blameLine false "3f2a9c1e 1 1 3" aggMixed varsMixed =
        some (aggMixed, ⟨varsMixed.author, varsMixed.authorSet, "3f2a9c1e"⟩)) ∧
    (HasPrefix "author-mail <alice@example.com>" "\t" = false ∧
      cursorAfter "author-mail <alice@example.com>" varsMixed.lastCommit =
        some varsMixed.lastCommit ∧
      ∃ g' v', blameLine false "author-mail <alice@example.com>" aggMixed varsMixed =
          some (g', v') ∧
        v'.lastCommit = varsMixed.lastCommit)) :=
  ⟨by decide, by decide, by decide, by decide,
    commit_cursor_update false "3f2a9c1e 1 1 3" "author-mail <alice@example.com>" "3f2a9c1e"
      aggMixed varsMixed (by decide) (by decide) (by decide) (by decide)⟩

/-! ## Unknown metric selector (C16) -/

theorem aggregateRun_error (useCommitter : Bool) (git : Git) (files : List String) (g : Agg)
    (status : Nat) (h : aggregateRun useCommitter git g files = Except.error status) :
    status = 7 ∨ status = 2 := by
  induction files generalizing g with
  | nil => simp [aggregateRun] at h
  | cons file rest ih =>
    unfold aggregateRun at h
    cases hf : fetch git file with
    | none =>
      simp only [hf] at h
      cases h
      exact Or.inl rfl
    | some r =>
      simp only [hf] at h
      cases hp : processFile useCommitter g r with
      | none =>
        simp only [hp] at h
        cases h
        exact Or.inr rfl
      | some g' =>
        simp only [hp] at h
        exact ih g' h

theorem rank_unknown (order : String) (statsSlice : List Statistic) (h1 : order ≠ "lines")
    (h2 : order ≠ "commits") (h3 : order ≠ "files") : rank order statsSlice = none := by
  simp [rank, comparator, h1, h2, h3]

/-- C16: for every metric selector other than `lines`, `commits` and `files`, whatever
the other flags, the registry and the answers of git, the run ends with a non-zero exit
status, and everything it has written to standard output is a fixed message: no header,
no author row and no array of authors in any output format. When `git ls-tree` answers
and the aggregation comes to its end, the run writes `Incorrect option!` and exits with
status 1. -/
theorem unknown_metric_fatal (Match : String → String → Option Bool)
    (ToLower : String → String) (flags : Flags)
    (languageExtensions : List Lang) (git : Git)
    (h1 : flags.order ≠ "lines") (h2 : flags.order ≠ "commits")
    (h3 : flags.order ≠ "files") :
    (run Match ToLower flags languageExtensions git).exit ≠ 0 ∧
    (∀ out ∈ (run Match ToLower flags languageExtensions git).stdout, ∃ text, out = Out.message text) ∧
    (∀ output g, git.lsTree = some output →
      aggregateRun flags.useCommitter git Agg.init
        (goodFiles Match ToLower (treeFiles output) (flagList flags.extFlag)
          (flagList flags.langFlag) (flagList flags.excludeFlag)
          (flagList flags.restrictFlag) languageExtensions) = Except.ok g →
      run Match ToLower flags languageExtensions git = ⟨[Out.message "Incorrect option!"], 1⟩) := by
  refine ⟨?_, ?_, ?_⟩
  · unfold run
    cases hl : git.lsTree with
    | none => simp
    | some output =>
      simp only []
      cases ha : aggregateRun flags.useCommitter git Agg.init
          (goodFiles Match ToLower (treeFiles output) (flagList flags.extFlag)
            (flagList flags.langFlag) (flagList flags.excludeFlag)
            (flagList flags.restrictFlag) languageExtensions) with
      | error status =>
        rcases aggregateRun_error _ _ _ _ _ ha with h | h <;> simp [h]
      | ok g => simp [rank_unknown _ _ h1 h2 h3]
  · unfold run
    cases hl : git.lsTree with
    | none => simp
    | some output =>
      simp only []
      cases ha : aggregateRun flags.useCommitter git Agg.init
          (goodFiles Match ToLower (treeFiles output) (flagList flags.extFlag)
            (flagList flags.langFlag) (flagList flags.excludeFlag)
            (flagList flags.restrictFlag) languageExtensions) with
      | error status => simp
      | ok g => simp [rank_unknown _ _ h1 h2 h3]
  · intro output g hl ha
    simp [run, hl, ha, rank_unknown _ _ h1 h2 h3]

/-- C16 at the metric selector `name` on the sample repository. -/
theorem unknown_metric_fatal_witness :
    "name" ≠ "lines" ∧ "name" ≠ "commits" ∧ "name" ≠ "files" ∧
    ((run literalMatch asciiLower ⟨"name", false, "tabular", "", "", "", ""⟩ [] sampleGit).exit ≠ 0 ∧
    (∀ out ∈ (run literalMatch asciiLower ⟨"name", false, "tabular", "", "", "", ""⟩ [] sampleGit).stdout,
      ∃ text, out = Out.message text) ∧
    (∀ output g, sampleGit.lsTree = some output →
      aggregateRun false sampleGit Agg.init
        (goodFiles literalMatch asciiLower (treeFiles output) (flagList "") (flagList "") (flagList "")
          (flagList "") []) = Except.ok g →
      run literalMatch asciiLower ⟨"name", false, "tabular", "", "", "", ""⟩ [] sampleGit =
        ⟨[Out.message "Incorrect option!"], 1⟩)) :=
  ⟨by decide, by decide, by decide,
    unknown_metric_fatal literalMatch asciiLower ⟨"name", false, "tabular", "", "", "", ""⟩ []
      sampleGit (by decide) (by decide) (by decide)⟩

/-! ## Each counted commit has one author (C18) -/

theorem commitsTotal_mapSet (m : List (String × Statistic)) (k : String) (v : Statistic) :
    commitsTotal (mapSet m k v) + commitsOf m k = commitsTotal m + v.Commits := by
  induction m with
  | nil => simp [commitsTotal, statsSlice, mapSet, commitsOf, mapGet]
  | cons p rest ih =>
    obtain ⟨k', v'⟩ := p
    by_cases hk : k' = k
    · simp [commitsTotal, statsSlice, mapSet, commitsOf, mapGet, hk]
      omega
    · simp only [commitsTotal, statsSlice, mapSet, commitsOf, mapGet, hk, if_false,
        List.map_cons, List.sum_cons] at ih ⊢
      omega

theorem commitsTotal_bump (m m' : List (String × Statistic)) (k : String)
    (f : Statistic → Statistic) (d : Nat) (h : bump m k f = some m')
    (hf : ∀ s, (f s).Commits = s.Commits + d) : commitsTotal m' = commitsTotal m + d := by
  unfold bump at h
  cases hs : mapGet m k with
  | none => simp [hs] at h
  | some s =>
    simp [hs] at h
    subst h
    have h1 := commitsTotal_mapSet m k (f s)
    have h2 : commitsOf m k = s.Commits := by simp [commitsOf, hs]
    rw [h2, hf s] at h1
    omega

theorem commitsTotal_ensureStat (m : List (String × Statistic)) (a : String) :
    commitsTotal (ensureStat m a) = commitsTotal m := by
  unfold ensureStat
  cases hs : mapGet m a with
  | some s => rfl
  | none =>
    have h1 := commitsTotal_mapSet m a ⟨a, 0, 0, 0⟩
    have h2 : commitsOf m a = 0 := by simp [commitsOf, hs]
    rw [h2] at h1
    simpa using h1

theorem length_setAdd (s : List String) (k : String) :
    (setAdd s k).length = s.length + (if k ∈ s then 0 else 1) := by
  unfold setAdd
  split <;> simp

theorem commitsTotal_countCommit (g g' : Agg) (c a : String)
    (h : countCommit g c a = some g') :
    commitsTotal g'.statMap = commitsTotal g.statMap + (if c ∈ g.commitSet then 0 else 1) := by
  unfold countCommit at h
  by_cases hc : c ∈ g.commitSet
  · simp only [hc, if_true, Option.some.injEq] at h
    subst h
    simp [hc]
  · simp only [hc, if_false] at h
    cases hb : bump g.statMap a (fun s => { s with Commits := s.Commits + 1 }) with
    | none => simp [hb] at h
    | some m =>
      simp only [hb, Option.some.injEq] at h
      subst h
      simp only [hc, if_false]
      exact commitsTotal_bump _ _ _ _ 1 hb (fun _ => rfl)

theorem commitsTotal_applyEvent_claim (g g' : Agg) (a c : String) (newFile : Bool)
    (h : applyEvent g (Event.claim a c newFile) = some g') :
    commitsTotal g'.statMap = commitsTotal g.statMap + (if c ∈ g.commitSet then 0 else 1) := by
  unfold applyEvent at h
  cases newFile with
  | true =>
    simp only [if_true] at h
    cases hb : bump (ensureStat g.statMap a) a
        (fun s => { s with Files := s.Files + 1 }) with
    | none => simp [hb] at h
    | some m =>
      simp only [hb] at h
      rw [commitsTotal_countCommit _ _ _ _ h]
      show commitsTotal m + _ = _
      rw [commitsTotal_bump _ _ _ _ 0 hb (fun _ => rfl), commitsTotal_ensureStat]
      rfl
  | false =>
    simp only [Bool.false_eq_true, if_false] at h
    rw [commitsTotal_countCommit _ _ _ _ h]
    show commitsTotal (ensureStat g.statMap a) + _ = _
    rw [commitsTotal_ensureStat]

theorem credited_claim (g g' : Agg) (a c : String) (newFile : Bool) (hc : Credited g)
    (h : applyEvent g (Event.claim a c newFile) = some g') : Credited g' := by
  obtain ⟨hsum, hnd, hdef, hrec, hwk, hcnt⟩ := hc
  obtain ⟨g2, h1, h2, h3, h4, h5⟩ := applyEvent_claim_spec g a c newFile
  have hsum' := commitsTotal_applyEvent_claim g g' a c newFile h
  rw [h1] at h
  cases h
  refine ⟨?_, ?_, ?_, ?_, ?_, ?_⟩
  · rw [hsum', h4, length_setAdd, hsum]
  · rw [h4]; exact nodup_setAdd _ _ hnd
  · intro c'
    rw [h4, mem_setAdd, h5]
    by_cases hcs : c ∈ g.commitSet
    · simp only [hcs, if_true, hdef c']
      constructor
      · intro h; exact Or.inr h
      · rintro (h | h)
        · subst h; exact hcs
        · exact h
    · simp only [hcs, if_false]
      by_cases hcc : c' = c
      · subst hcc
        simp [mapGet_mapSet_self]
      · rw [mapGet_mapSet_of_ne _ _ _ _ hcc, hdef c']
        simp [hcc]
  · intro c' a' hca
    by_cases haa : a' = a
    · subst haa; exact ⟨_, h2⟩
    · rw [h3 a' haa]
      rw [h5] at hca
      by_cases hcs : c ∈ g.commitSet
      · simp only [hcs, if_true] at hca
        exact hrec c' a' hca
      · simp only [hcs, if_false] at hca
        by_cases hcc : c' = c
        · subst hcc
          rw [mapGet_mapSet_self] at hca
          cases hca
          exact absurd rfl haa
        · rw [mapGet_mapSet_of_ne _ _ _ _ hcc] at hca
          exact hrec c' a' hca
  · exact wellKeyed_applyEvent g g' _ hwk h1
  · intro b
    have hb : commitsOf g'.statMap b =
        commitsOf g.statMap b + (if c ∉ g.commitSet ∧ a = b then 1 else 0) := by
      by_cases hab : b = a
      · subst hab
        rw [commitsOf_of_get _ _ _ h2, commitsOf_getD]
        by_cases hcs : c ∈ g.commitSet <;> simp [hcs]
      · have hab' : ¬ a = b := fun e => hab e.symm
        simp only [commitsOf, h3 b hab, hab', and_false, if_false, Nat.add_zero]
    rw [hb, hcnt b, h4, h5]
    by_cases hcs : c ∈ g.commitSet
    · simp [hcs, setAdd]
    · have hcongr : g.commitSet.countP
          (fun c' => decide (authorOfCommit (mapSet g.commitAuthor c a) c' = b)) =
          g.commitSet.countP (fun c' => decide (authorOfCommit g.commitAuthor c' = b)) := by
        apply List.countP_congr
        intro c' hc'
        have hne : c' ≠ c := fun e => hcs (e ▸ hc')
        simp [authorOfCommit, mapGet_mapSet_of_ne _ _ _ _ hne]
      have hself : authorOfCommit (mapSet g.commitAuthor c a) c = a := by
        simp [authorOfCommit, mapGet_mapSet_self]
      simp only [hcs, if_false, setAdd, List.countP_cons, hcongr, hself, not_false_eq_true,
        true_and, decide_eq_true_eq]

theorem credited_credit (g g' : Agg) (c : String) (hc : Credited g)
    (h : applyEvent g (Event.credit c) = some g') : Credited g' := by
  obtain ⟨hsum, hnd, hdef, hrec, hwk, hcnt⟩ := hc
  have hwk' := wellKeyed_applyEvent g g' _ hwk h
  unfold applyEvent at h
  cases hb : bump g.statMap (authorOfCommit g.commitAuthor c)
      (fun s => { s with Lines := s.Lines + 1 }) with
  | none => simp [hb] at h
  | some m =>
    simp only [hb, Option.map_some', Option.some.injEq] at h
    subst h
    obtain ⟨s, hs1, hs2⟩ := mapGet_bump_self _ _ _ _ hb
    have hother := fun b hne => mapGet_bump_of_ne _ _ _ b _ hb hne
    refine ⟨?_, hnd, hdef, ?_, hwk', ?_⟩
    · show commitsTotal m = _
      rw [commitsTotal_bump _ _ _ _ 0 hb (fun _ => rfl), Nat.add_zero, hsum]
    · intro c' a' hca
      show ∃ s', mapGet m a' = some s'
      by_cases ha : a' = authorOfCommit g.commitAuthor c
      · subst ha; exact ⟨_, hs2⟩
      · rw [hother a' ha]; exact hrec c' a' hca
    · intro b
      show commitsOf m b = _
      rw [← hcnt b]
      by_cases ha : b = authorOfCommit g.commitAuthor c
      · subst ha
        simp [commitsOf, hs1, hs2]
      · simp only [commitsOf, hother b ha]

theorem credited_applyEvent (g g' : Agg) (e : Event) (hc : Credited g)
    (h : applyEvent g e = some g') : Credited g' := by
  cases e with
  | credit c => exact credited_credit g g' c hc h
  | claim a c nf => exact credited_claim g g' a c nf hc h

theorem credited_applyEvents (es : List Event) (g g' : Agg) (hc : Credited g)
    (h : applyEvents es g = some g') : Credited g' := by
  induction es generalizing g with
  | nil =>
    simp [applyEvents] at h
    subst h; exact hc
  | cons e es ih =>
    unfold applyEvents at h
    cases h1 : applyEvent g e with
    | none => simp [h1] at h
    | some g1 =>
      simp only [h1] at h
      exact ih g1 (credited_applyEvent g g1 e hc h1) h

theorem credited_init : Credited Agg.init := by
  refine ⟨rfl, List.nodup_nil, ?_, ?_, ⟨by simp [Agg.init], by simp [Agg.init]⟩, ?_⟩
  · intro c; simp [Agg.init, mapGet]
  · intro c a h; simp [Agg.init, mapGet] at h
  · intro a; simp [Agg.init, commitsOf, mapGet]

theorem credited_aggregateFrom (useCommitter : Bool) (files : List FileRecord) (g g' : Agg)
    (hc : Credited g) (h : aggregateFrom useCommitter g files = some g') : Credited g' := by
  induction files generalizing g with
  | nil =>
    simp [aggregateFrom] at h
    subst h; exact hc
  | cons r rest ih =>
    unfold aggregateFrom at h
    cases hp : processFile useCommitter g r with
    | none => simp [hp] at h
    | some g1 =>
      simp only [hp] at h
      obtain ⟨es, _, he⟩ := processFile_some useCommitter g g1 r hp
      exact ih g1 (credited_applyEvents es g g1 hc he) h

/-- C18: after the aggregation loop has processed any sequence of files, blame records
and log fallbacks alike, the sum of the Commits counts of all author records equals the
number of tokens in the counted-commit set, which holds no token twice; the
commit-to-author map is defined exactly on that set; every author it gives is a key of
the statistics map; no key of the statistics map occurs twice and every record carries
its key as name; and the Commits count of every author is the number of counted commits
that the commit-to-author map gives to this author, so that each counted commit is
credited to exactly one author. -/
theorem counted_commits_credited (useCommitter : Bool) (files : List FileRecord) (g : Agg)
    (h : aggregate useCommitter files = some g) :
    ((statsSlice g.statMap).map Statistic.Commits).sum = g.commitSet.length ∧
    g.commitSet.Nodup ∧
    (∀ c, (∃ a, mapGet g.commitAuthor c = some a) ↔ c ∈ g.commitSet) ∧
    (∀ c a, mapGet g.commitAuthor c = some a → ∃ s, mapGet g.statMap a = some s) ∧
    ((g.statMap.map Prod.fst).Nodup ∧ ∀ p ∈ g.statMap, p.2.Name = p.1) ∧
    (∀ a, commitsOf g.statMap a =
      g.commitSet.countP (fun c => decide (authorOfCommit g.commitAuthor c = a))) :=
  credited_aggregateFrom useCommitter files Agg.init g credited_init h

/-- C18 at the two files of the scenario. -/
theorem counted_commits_credited_witness :
    aggregate false [fileAlice, fileBob] =
      some ⟨[("Alice", ⟨"Alice", 3, 1, 1⟩), ("Bob", ⟨"Bob", 0, 1, 1⟩)],
        ["7b1d4e88", "3f2a9c1e"], [("3f2a9c1e", "Alice"), ("7b1d4e88", "Bob")]⟩ ∧
    Credited ⟨[("Alice", ⟨"Alice", 3, 1, 1⟩), ("Bob", ⟨"Bob", 0, 1, 1⟩)],
        ["7b1d4e88", "3f2a9c1e"], [("3f2a9c1e", "Alice"), ("7b1d4e88", "Bob")]⟩ :=
  ⟨by decide,
    counted_commits_credited false [fileAlice, fileBob]
      ⟨[("Alice", ⟨"Alice", 3, 1, 1⟩), ("Bob", ⟨"Bob", 0, 1, 1⟩)],
        ["7b1d4e88", "3f2a9c1e"], [("3f2a9c1e", "Alice"), ("7b1d4e88", "Bob")]⟩
      (by decide)⟩

/-! ## The record looked up by a content line (C19) -/

/-- From maps whose bookkeeping is in order, a sequence of updates in which every content
line comes after a `filename ` line with the same cursor runs without error. -/
theorem applyEvents_covered (es : List Event) (g : Agg) (seen : List String)
    (hc : Credited g) (hseen : ∀ c ∈ seen, c ∈ g.commitSet)
    (h : covered es seen = true) : ∃ g', applyEvents es g = some g' := by
  induction es generalizing g seen with
  | nil => exact ⟨g, rfl⟩
  | cons e es ih =>
    cases e with
    | credit c =>
      simp only [covered, Bool.and_eq_true, decide_eq_true_eq] at h
      obtain ⟨a, ha⟩ := (hc.2.2.1 c).2 (hseen c h.1)
      obtain ⟨s, hs⟩ := hc.2.2.2.1 c a ha
      have hk : authorOfCommit g.commitAuthor c = a := by simp [authorOfCommit, ha]
      have h1 : applyEvent g (Event.credit c) =
          some ⟨mapSet g.statMap a ⟨s.Name, s.Lines + 1, s.Commits, s.Files⟩,
            g.commitSet, g.commitAuthor⟩ := by
        simp [applyEvent, hk, bump_of_get _ _ _ _ hs]
      obtain ⟨g', h2⟩ := ih _ seen (credited_applyEvent g _ _ hc h1) hseen h.2
      exact ⟨g', by simp [applyEvents, h1, h2]⟩
    | claim a c nf =>
      simp only [covered] at h
      obtain ⟨g1, h1, _, _, h4, _⟩ := applyEvent_claim_spec g a c nf
      have hseen1 : ∀ x ∈ c :: seen, x ∈ g1.commitSet := by
        intro x hx
        rw [h4, mem_setAdd]
        rcases List.mem_cons.1 hx with hx | hx
        · exact Or.inl hx
        · exact Or.inr (hseen x hx)
      obtain ⟨g', h2⟩ := ih g1 (c :: seen) (credited_applyEvent g g1 _ hc h1) hseen1 h
      exact ⟨g', by simp [applyEvents, h1, h2]⟩

/-- C19: let the maps be those left by the aggregation loop after any sequence of files,
and let `r` be a non-empty blame record in which every content line comes after a
`filename ` line of the same record reached with the same commit cursor. Then the record
is processed to its end without a run-time error, and at every content line of the record
the lookup `statMap[commitAuthor[lastCommit]]` finds an author record. -/
theorem content_lookup_finds_record (useCommitter : Bool) (files : List FileRecord)
    (g : Agg) (r : FileRecord)
    (hagg : aggregate useCommitter files = some g)
    (hblame : r.blame.length ≠ 0)
    (hcov : covered (blameEvents useCommitter (Split r.blame '\n') FileVars.init) [] = true) :
    (∃ g', processFile useCommitter g r = some g') ∧
    (∀ pre line post, Split r.blame '\n' = pre ++ line :: post →
      HasPrefix line "\t" = true →
      ∃ g1 v1 s, blameLoop useCommitter pre g FileVars.init = some (g1, v1) ∧
        mapGet g1.statMap (authorOfCommit g1.commitAuthor v1.lastCommit) = some s) := by
  have hc : Credited g := credited_aggregateFrom useCommitter files Agg.init g credited_init hagg
  obtain ⟨g', hg'⟩ := applyEvents_covered _ g [] hc (by simp) hcov
  have hloop : (blameLoop useCommitter (Split r.blame '\n') g FileVars.init).map Prod.fst =
      some g' := by
    rw [blameLoop_eq_applyEvents]; exact hg'
  constructor
  · exact ⟨g', by simp only [processFile, hblame, if_false]; exact hloop⟩
  · intro pre line post hsplit hline
    rw [hsplit, blameLoop_append] at hloop
    cases hpre : blameLoop useCommitter pre g FileVars.init with
    | none => simp [hpre] at hloop
    | some p =>
      obtain ⟨g1, v1⟩ := p
      simp only [hpre, Option.some_bind, blameLoop] at hloop
      cases hl : blameLine useCommitter line g1 v1 with
      | none => simp [hl] at hloop
      | some q =>
        rw [blameLine_content _ _ _ _ hline] at hl
        cases hb : bump g1.statMap (authorOfCommit g1.commitAuthor v1.lastCommit)
            (fun s => { s with Lines := s.Lines + 1 }) with
        | none => simp [hb] at hl
        | some m =>
          obtain ⟨s, hs, _⟩ := mapGet_bump_self _ _ _ _ hb
          exact ⟨g1, v1, s, rfl, hs⟩

/-- C19 at the record with lines of Alice and of Bob, processed as the first file. -/
theorem content_lookup_finds_record_witness :
    aggregate false [] = some Agg.init ∧
    fileTwoAuthors.blame.length ≠ 0 ∧
    covered (blameEvents false (Split fileTwoAuthors.blame '\n') FileVars.init) [] = true ∧
    ((∃ g', processFile false Agg.init fileTwoAuthors = some g') ∧
    (∀ pre line post, Split fileTwoAuthors.blame '\n' = pre ++ line :: post →
      HasPrefix line "\t" = true →
      ∃ g1 v1 s, blameLoop false pre Agg.init FileVars.init = some (g1, v1) ∧
        mapGet g1.statMap (authorOfCommit g1.commitAuthor v1.lastCommit) = some s)) :=
  ⟨by decide, by decide, by decide,
    content_lookup_finds_record false [] Agg.init fileTwoAuthors
      (by decide) (by decide) (by decide)⟩

end Gitfame
